import Mathlib

/-!
Shallow embedding of the conversion-planning engine of `src/lib.js`
(converting-dice): `getDivisors`, `generateTosses`, `partitionTosses`,
`getConversion`, `getBestConversion`, `createDie`.

Modelling conventions:
* A die is a `List String` of face labels, as in the source (`Die`).
* JS numbers are modelled as exact rationals `ℚ`.  The expectation value can
  become `Infinity` in JS (division by zero in the expectation formula when
  `sizeA - sizeB = 0`, with a positive numerator); we model the JS number line
  for this computation as `Option ℚ` where `none` stands for `+Infinity`.
  All comparisons mirror IEEE semantics for these values (`x < +Inf` is true
  for finite `x`, `+Inf < +Inf` is false, `t + 1 >= +Inf` is false).
* The mutual recursion `getConversion` ↔ `getBestConversion` and the two
  `while` loops are modelled with an explicit fuel parameter; `none` as a
  result means the fuel was exhausted.  All recursion is structural on the
  fuel, so terms evaluate by kernel reduction.
* JS `Map` iteration order is insertion order; maps are modelled as
  association lists kept in insertion order.
* `Array.prototype.sort` (used on probability keys and on toss ids) is
  modelled by an insertion sort; the id keys are distinct and equal string
  keys are interchangeable, so any stable comparison-sort gives the JS result.
-/

/-- JS string comparison on UTF-16 code units, restricted to the character
lists of the labels used here; only used as a total order canonicalising
multisets of face labels. -/
def strLtCharsB : List Char → List Char → Bool
  | [], [] => false
  | [], _ :: _ => true
  | _ :: _, [] => false
  | a :: as, b :: bs =>
    if a.val.toNat < b.val.toNat then true
    else if b.val.toNat < a.val.toNat then false
    else strLtCharsB as bs

def strLeB (a b : String) : Bool := !(strLtCharsB b.data a.data)

/-- The string order as a relation, for `Array.prototype.sort` on face labels. -/
def strLeR (a b : String) : Prop := strLeB a b = true

instance : DecidableRel strLeR := fun a b => inferInstanceAs (Decidable (strLeB a b = true))

/-- Model of `Array.prototype.sort()` on an array of strings (insertion sort;
the JS sort result is determined by the order alone since equal keys are
identical strings). -/
def sortStrings (l : List String) : List String := List.insertionSort strLeR l

/-- `TossRange` of `src/lib.js`: parallel lists of face sequences and ids. -/
structure TossRange where
  faces : List (List String)
  ids : List Nat
deriving DecidableEq

/-- Return the divisors of a number in descending order (`getDivisors`). -/
def getDivisors (n : Nat) : List Nat :=
  ((List.range n).map (fun j => n - j)).filter (fun i => n % i == 0)

/-- Face labels for an `n`-face die (`createDie`): "H"/"T" for `n = 2`,
otherwise "1".."n". -/
def createDie (n : Nat) : List String :=
  if n = 2 then ["H", "T"]
  else (List.range n).map (fun i => toString (i + 1))

/-! ## Toss enumerator (`generateTosses`) -/

/-- One odometer increment on the reversed (least-significant-first) digit
list: `idDigits[throws-1] += 1` followed by the carry loop of
`generateTosses`; a carry out of the most significant digit is dropped,
as the JS write to index `-1` is lost. -/
def incLsb (n : Nat) : List Nat → List Nat
  | [] => []
  | d :: rest => if d + 1 < n then (d + 1) :: rest else (d + 1 - n) :: incLsb n rest

/-- Odometer increment on the most-significant-first digit list `idDigits`. -/
def stepDigits (n : Nat) (ds : List Nat) : List Nat := (incLsb n ds.reverse).reverse

/-- Grouping key of a toss (`chanceKey`): the sorted face sequence when the
die is assumed unfair, a single constant key otherwise.  JS serialises the
sorted list with `JSON.stringify` and compares keys only for equality, which
coincides with equality of the sorted lists. -/
def chanceKeyOf (assumeUnfair : Bool) (tossFacesArray : List String) : Option (List String) :=
  if assumeUnfair then some (sortStrings tossFacesArray) else none

/-- Append one toss to the class map `byChance` (a JS `Map` in insertion
order): push onto the existing class for the key, or create the class at the
end on first use. -/
def addToClass : List (Option (List String) × TossRange) → Option (List String) →
    List String → Nat → List (Option (List String) × TossRange)
  | [], key, fs, id => [(key, ⟨[fs], [id]⟩)]
  | (k, tr) :: rest, key, fs, id =>
    if k = key then (k, ⟨tr.faces ++ [fs], tr.ids ++ [id]⟩) :: rest
    else (k, tr) :: addToClass rest key fs id

/-- Loop body of `generateTosses` for one id: decode the current digit state
into faces, add the toss to its class, and advance the odometer. -/
def genStep (faces : List String) (assumeUnfair : Bool)
    (st : List (Option (List String) × TossRange) × List Nat) (id : Nat) :
    List (Option (List String) × TossRange) × List Nat :=
  let tossFacesArray := st.2.map (fun d => faces.getD d "")
  (addToClass st.1 (chanceKeyOf assumeUnfair tossFacesArray) tossFacesArray id,
   stepDigits faces.length st.2)

/-- Total number of tosses, computed as in the source by `throws`
multiplications starting from 1. -/
def totalTosses (n throws : Nat) : Nat := (List.range throws).foldl (fun t _ => t * n) 1

/-- Generate all possible tosses and group them by probability
(`generateTosses`). -/
def generateTosses (faces : List String) (assumeUnfair : Bool) (throws : Nat) :
    List TossRange :=
  (((List.range (totalTosses faces.length throws)).foldl (genStep faces assumeUnfair)
      ([], List.replicate throws 0)).1).map (fun p => p.2)

/-! ## Toss partitioner (`partitionTosses`) -/

/-- Distribute the first `divisor * k` members of a class over the sub-ranges:
sub-range `i` receives members `i*k + j` for `j < k`, realised by peeling `k`
members per sub-range. -/
def allocToSubs (facesL : List (List String)) (idsL : List Nat) (k : Nat) :
    List TossRange → List TossRange
  | [] => []
  | sr :: rest =>
    ⟨sr.faces ++ facesL.take k, sr.ids ++ idsL.take k⟩ ::
      allocToSubs (facesL.drop k) (idsL.drop k) k rest

/-- Process one class inside a divisor pass of `partitionTosses`: allocate
`k = floor(size / divisor)` members to each sub-range, and keep the class
(or its unconsumed remainder) unless it was fully consumed.  The first
component of the state is the list of classes kept for later divisors, the
second the sub-ranges being filled. -/
def passClass (divisor : Nat) (st : List TossRange × List TossRange) (tr : TossRange) :
    List TossRange × List TossRange :=
  let k := tr.faces.length / divisor
  if k = 0 then (st.1 ++ [tr], st.2)
  else if tr.faces.length = divisor * k then (st.1, allocToSubs tr.faces tr.ids k st.2)
  else
    (st.1 ++ [⟨tr.faces.drop (divisor * k), tr.ids.drop (divisor * k)⟩],
     allocToSubs tr.faces tr.ids k st.2)

/-- Order on `{face, id}` pairs used by the JS comparator `a.id - b.id`. -/
def idLeR (a b : List String × Nat) : Prop := a.2 ≤ b.2

instance : DecidableRel idLeR := fun a b => inferInstanceAs (Decidable (a.2 ≤ b.2))

/-- Re-sort a filled sub-range by toss id (the JS sort on `{face, id}` pairs;
ids are distinct, so the insertion sort gives the JS result). -/
def sortRangeById (sr : TossRange) : TossRange :=
  let sorted := List.insertionSort idLeR (sr.faces.zip sr.ids)
  ⟨sorted.map (fun p => p.1), sorted.map (fun p => p.2)⟩

/-- One divisor pass of `partitionTosses`: split the target die into
`divisor` equal slices, allocate from every remaining class, and append the
non-empty sub-ranges (sorted by id) with their sub-dice to the result. -/
def divisorPass (die : List String)
    (st : List TossRange × List (TossRange × List String)) (divisor : Nat) :
    List TossRange × List (TossRange × List String) :=
  let subLength := die.length / divisor
  let subDice := (List.range divisor).map (fun i => (die.drop (i * subLength)).take subLength)
  let passed := st.1.foldl (passClass divisor) ([], List.replicate divisor ⟨[], []⟩)
  let entries := (List.zip passed.2 subDice).filterMap (fun p =>
    if p.1.faces.length = 0 then none else some (sortRangeById p.1, p.2))
  (passed.1, st.2 ++ entries)

/-- Partition tosses grouped by chance (`partitionTosses`): iterate the
divisors of the target size in descending order; the result maps toss
sub-ranges to sub-dice in insertion order. -/
def partitionTosses (tosses : List TossRange) (die : List String) :
    List (TossRange × List String) :=
  ((getDivisors die.length).foldl (divisorPass die) (tosses, [])).2

/-! ## Conversion builder (`getConversion` / `getBestConversion`) -/

/-- Branch of a conversion map entry, per the design note of the spec: a
terminal face label, a reduction to a sub-rule, or a non-owning reference
back to the enclosing rule (`Repeat`). -/
inductive Branch (R : Type) where
  | terminal : String → Branch R
  | reduce : R → Branch R
  | selfRepeat : Branch R
deriving DecidableEq

/-- `ConversionRule` of `src/lib.js`.  The cyclic `conversions` entry that
points back at the rule itself is represented by `Branch.selfRepeat`. -/
inductive ConversionRule where
  | mk : (dieA : List String) → (dieB : List String) → (makeFair : Bool) → (throws : Nat) →
      (conversions : List (TossRange × Branch ConversionRule)) →
      (expectation : Option ℚ) → ConversionRule

def ConversionRule.dieA : ConversionRule → List String
  | .mk a _ _ _ _ _ => a

def ConversionRule.dieB : ConversionRule → List String
  | .mk _ b _ _ _ _ => b

def ConversionRule.makeFair : ConversionRule → Bool
  | .mk _ _ mf _ _ _ => mf

def ConversionRule.throws : ConversionRule → Nat
  | .mk _ _ _ t _ _ => t

def ConversionRule.conversions : ConversionRule → List (TossRange × Branch ConversionRule)
  | .mk _ _ _ _ cs _ => cs

def ConversionRule.expectation : ConversionRule → Option ℚ
  | .mk _ _ _ _ _ e => e

/-- JS `<` on expectation values (`none` is `+Infinity`). -/
def oLtB : Option ℚ → Option ℚ → Bool
  | none, _ => false
  | some _, none => true
  | some a, some b => decide (a < b)

/-- JS `q >= x` on expectation values (`none` is `+Infinity`). -/
def oGeB (q : ℚ) : Option ℚ → Bool
  | none => false
  | some b => decide (b ≤ q)

/-- Addition on expectation values (`none` is `+Infinity`; all summands here
are non-negative, so `+Infinity` absorbs). -/
def oAdd (x y : Option ℚ) : Option ℚ := x.bind (fun a => y.map (fun b => a + b))

/-- Scaling of an expectation value by a (positive) rational factor. -/
def oScale (c : ℚ) (x : Option ℚ) : Option ℚ := x.map (fun a => c * a)

/-- JS division producing `+Infinity` on a zero denominator (the numerators
arising in the expectation formula are positive whenever the denominator is
zero and the source die is non-empty). -/
def jsDiv (p q : ℚ) : Option ℚ := if q = 0 then none else some (p / q)

/-- State of the loop of `getConversion` over the partition map: the entries
built so far, the accumulator `z`, and the current value of `sizeB`. -/
structure ConvState where
  entries : List (TossRange × Branch ConversionRule)
  z : Option ℚ
  sizeB : Nat

/-- One iteration of the loop of `getConversion` over the partition map:
classify the sub-die as repeat / terminal / reduction, extend `z` and
`sizeB`, and record the branch.  `bestF` is the recursive
`getBestConversion` at the remaining fuel; its exhaustion aborts. -/
def entryStep (bestF : List String → List String → Bool → Option ConversionRule)
    (dieA dieB : List String) (makeFair : Bool) (throws : Nat) (sizeA : ℚ)
    (acc : Option ConvState) (e : TossRange × List String) : Option ConvState :=
  acc.bind (fun st =>
    if e.2.length = dieB.length then
      some ⟨st.entries ++ [(e.1, Branch.selfRepeat)], st.z, e.1.faces.length⟩
    else if e.2.length = 1 then
      some ⟨st.entries ++ [(e.1, Branch.terminal (e.2.getD 0 ""))],
        oAdd st.z (some ((e.1.faces.length : ℚ) / sizeA * (throws : ℚ))), st.sizeB⟩
    else
      match bestF dieA e.2 makeFair with
      | none => none
      | some sub =>
        some ⟨st.entries ++ [(e.1, Branch.reduce sub)],
          oAdd st.z (oScale ((e.1.faces.length : ℚ) / sizeA)
            (oAdd (some (throws : ℚ)) sub.expectation)), st.sizeB⟩)

/-- Body of `getConversion` for a fixed draw count, parametrised by the
recursive `getBestConversion` (`bestF`). -/
def convStep (bestF : List String → List String → Bool → Option ConversionRule)
    (dieA dieB : List String) (makeFair : Bool) (throws : Nat) : Option ConversionRule :=
  ((partitionTosses (generateTosses dieA makeFair throws) dieB).foldl
      (entryStep bestF dieA dieB makeFair throws ((dieA.length ^ throws : ℕ) : ℚ))
      (some ⟨[], some 0, 0⟩)).map
    (fun st =>
      ConversionRule.mk dieA dieB makeFair throws st.entries
        (match st.z with
         | none => none
         | some z => jsDiv (((dieA.length ^ throws : ℕ) : ℚ) * z +
               (st.sizeB : ℚ) * (throws : ℚ))
             (((dieA.length ^ throws : ℕ) : ℚ) - (st.sizeB : ℚ))))

/-- Initial `throws` loop of `getBestConversion`: the smallest count whose
power of the source size reaches the target size; diverges (exhausts any
fuel) for a source die with fewer than 2 faces and a larger target. -/
def initLoop : Nat → Nat → Nat → Nat → Nat → Option Nat
  | 0, _, _, _, _ => none
  | fuel + 1, aFaces, bFaces, total, throws =>
    if total < bFaces then initLoop fuel aFaces bFaces (total * aFaces) (throws + 1)
    else some throws

/-- The three mutually recursive computations of the conversion builder,
tied together level by level on the fuel. -/
structure EngineFns where
  conv : List String → List String → Bool → Nat → Option ConversionRule
  best : List String → List String → Bool → Option ConversionRule
  loop : List String → List String → Bool → Nat → Option ConversionRule → Option ConversionRule

/-- Body of the search loop of `getBestConversion`, parametrised by the
engine of the previous fuel level. -/
def loopStep (p : EngineFns) (dieA dieB : List String) (makeFair : Bool) (throws : Nat)
    (best : Option ConversionRule) : Option ConversionRule :=
  match p.conv dieA dieB makeFair throws with
  | none => none
  | some conversion =>
    let best' := match best with
      | none => conversion
      | some b => if oLtB conversion.expectation b.expectation then conversion else b
    if oGeB ((throws : ℚ) + 1) best'.expectation then some best'
    else p.loop dieA dieB makeFair (throws + 1) (some best')

/-- Fuel-indexed engine: level `fuel + 1` of each computation calls the
others at level `fuel`. -/
def engineAux : Nat → EngineFns
  | 0 => ⟨fun _ _ _ _ => none, fun _ _ _ => none, fun _ _ _ _ _ => none⟩
  | fuel + 1 =>
    let p := engineAux fuel
    ⟨fun dieA dieB makeFair throws => convStep p.best dieA dieB makeFair throws,
     fun dieA dieB makeFair =>
       (initLoop (fuel + 1) dieA.length dieB.length dieA.length 1).bind
         (fun throws => p.loop dieA dieB makeFair throws none),
     fun dieA dieB makeFair throws best => loopStep p dieA dieB makeFair throws best⟩

/-- `getConversion` at a given fuel. -/
def getConversionF (fuel : Nat) (dieA dieB : List String) (makeFair : Bool) (throws : Nat) :
    Option ConversionRule :=
  (engineAux fuel).conv dieA dieB makeFair throws

/-- `getBestConversion` at a given fuel. -/
def getBestConversionF (fuel : Nat) (dieA dieB : List String) (makeFair : Bool) :
    Option ConversionRule :=
  (engineAux fuel).best dieA dieB makeFair

/-- The search loop of `getBestConversion` at a given fuel. -/
def bestLoopF (fuel : Nat) (dieA dieB : List String) (makeFair : Bool) (throws : Nat)
    (best : Option ConversionRule) : Option ConversionRule :=
  (engineAux fuel).loop dieA dieB makeFair throws best

/-- The least-significant-digit-first base-`n` digits of `m`, `t` positions. -/
def lsbDigits (n : Nat) : Nat → Nat → List Nat
  | 0, _ => []
  | t + 1, m => m % n :: lsbDigits n t (m / n)

/-- The most-significant-digit-first base-`n` digits of `m`, on `t`
positions: the value of the odometer `idDigits` after `m` increments. -/
def natDigits (n t m : Nat) : List Nat := (lsbDigits n t m).reverse

/-- The face sequence of the toss with a given id: the id read in base `n`
with the first draw as the most significant digit. -/
def tossFaces (faces : List String) (t id : Nat) : List String :=
  (natDigits faces.length t id).map (fun d => faces.getD d "")

/-- The grouping key of the toss with a given id. -/
def keyOf (faces : List String) (assumeUnfair : Bool) (t id : Nat) : Option (List String) :=
  chanceKeyOf assumeUnfair (tossFaces faces t id)

/-- Ids below `m` whose toss has grouping key `k`. -/
def tossIdsUpTo (faces : List String) (assumeUnfair : Bool) (t m : Nat)
    (k : Option (List String)) : List Nat :=
  (List.range m).filter (fun id => decide (keyOf faces assumeUnfair t id = k))

/-- The class accumulated for key `k` after the first `m` ids. -/
def classOf (faces : List String) (assumeUnfair : Bool) (t m : Nat)
    (k : Option (List String)) : TossRange :=
  ⟨(tossIdsUpTo faces assumeUnfair t m k).map (tossFaces faces t),
   tossIdsUpTo faces assumeUnfair t m k⟩

/-- All toss ids of a list of classes, in order. -/
def classIds (L : List TossRange) : List Nat := (L.map TossRange.ids).flatten

/-- Well-formedness of toss ranges: the parallel lists have equal length. -/
def WfRanges (L : List TossRange) : Prop := ∀ tr ∈ L, tr.ids.length = tr.faces.length

/-- Well-formedness of partition entries. -/
def WfEntries (R : List (TossRange × List String)) : Prop :=
  ∀ e ∈ R, e.1.ids.length = e.1.faces.length

/-- All toss ids of the partition entries, in order. -/
def entriesIds (R : List (TossRange × List String)) : List Nat :=
  (R.map (fun e => e.1.ids)).flatten

/-- All contiguous slices of a die; every sub-die produced by
`partitionTosses` is an element. -/
def allSlices (die : List String) : List (List String) :=
  ((List.range (die.length + 1)).map (fun i =>
    (List.range (die.length + 1)).map (fun l => (die.drop i).take l))).flatten

/-- Contribution of one stored conversion entry to the accumulator `z` of the
expectation formula: a terminal branch contributes
`(size/a) * throws` (its own expectation is 0), a reduction branch
`(size/a) * (throws + subExpectation)`, the repeat branch nothing. -/
def branchZ (sizeA : ℚ) (throws : Nat) (z : Option ℚ)
    (e : TossRange × Branch ConversionRule) : Option ℚ :=
  match e.2 with
  | Branch.terminal _ => oAdd z (some ((e.1.faces.length : ℚ) / sizeA * (throws : ℚ)))
  | Branch.reduce sub => oAdd z (oScale ((e.1.faces.length : ℚ) / sizeA)
      (oAdd (some (throws : ℚ)) sub.expectation))
  | Branch.selfRepeat => z

/-- The accumulator `z` recomputed from the stored entries. -/
def zOfEntries (sizeA : ℚ) (throws : Nat)
    (es : List (TossRange × Branch ConversionRule)) : Option ℚ :=
  es.foldl (branchZ sizeA throws) (some 0)

/-- `sizeB` recomputed from the stored entries (the last repeat entry wins,
as in the single JS assignment). -/
def sizeBOfEntries (es : List (TossRange × Branch ConversionRule)) : Nat :=
  es.foldl (fun s e => match e.2 with
    | Branch.selfRepeat => e.1.faces.length
    | _ => s) 0

/-- Sum of the sizes (id counts) of the entries selected by `p`. -/
def entrySizeSum (R : List (TossRange × List String))
    (p : TossRange × List String → Bool) : Nat :=
  ((R.filter p).map (fun e => e.1.ids.length)).sum

/-- Pointwise correspondence between the partition entries and the stored
conversion entries built by the loop of `getConversion`. -/
def EntryRel (bestF : List String → List String → Bool → Option ConversionRule)
    (dieA dieB : List String) (mf : Bool)
    (p : TossRange × List String) (e : TossRange × Branch ConversionRule) : Prop :=
  e.1 = p.1 ∧
    ((p.2.length = dieB.length ∧ e.2 = Branch.selfRepeat) ∨
     (p.2.length ≠ dieB.length ∧ p.2.length = 1 ∧
       e.2 = Branch.terminal (p.2.getD 0 "")) ∨
     (p.2.length ≠ dieB.length ∧ p.2.length ≠ 1 ∧
       ∃ sub, bestF dieA p.2 mf = some sub ∧ e.2 = Branch.reduce sub))

/-- The rule built by `getConversion` for a possibly-unfair coin converted to
a coin with a single throw: every outcome lands in the repeat branch. -/
def cexRuleC1 : ConversionRule :=
  ConversionRule.mk ["H", "T"] ["H", "T"] true 1
    [(⟨[["H"], ["T"]], [0, 1]⟩, Branch.selfRepeat)] none

/-- The rule built for a fair coin converted to a coin with one throw. -/
def ruleCoin : ConversionRule :=
  ConversionRule.mk ["H", "T"] ["H", "T"] false 1
    [(⟨[["H"]], [0]⟩, Branch.terminal "H"),
     (⟨[["T"]], [1]⟩, Branch.terminal "T")]
    (some 1)

/-- The rule built for a 6-face die converted to a coin without fairness:
one throw, three faces to each label, expectation 1. -/
def rule62 : ConversionRule :=
  ConversionRule.mk ["1", "2", "3", "4", "5", "6"] ["H", "T"] false 1
    [(⟨[["1"], ["2"], ["3"]], [0, 1, 2]⟩, Branch.terminal "H"),
     (⟨[["4"], ["5"], ["6"]], [3, 4, 5]⟩, Branch.terminal "T")]
    (some 1)

def rule23 : ConversionRule :=
  ConversionRule.mk ["H", "T"] ["1", "2", "3"] false 2
    [(⟨[["H", "H"]], [0]⟩, Branch.terminal "1"),
     (⟨[["H", "T"]], [1]⟩, Branch.terminal "2"),
     (⟨[["T", "H"]], [2]⟩, Branch.terminal "3"),
     (⟨[["T", "T"]], [3]⟩, Branch.selfRepeat)]
    (some (8/3))

def rule456 : ConversionRule :=
  ConversionRule.mk ["H", "T"] ["4", "5", "6"] false 2
    [(⟨[["H", "H"]], [0]⟩, Branch.terminal "4"),
     (⟨[["H", "T"]], [1]⟩, Branch.terminal "5"),
     (⟨[["T", "H"]], [2]⟩, Branch.terminal "6"),
     (⟨[["T", "T"]], [3]⟩, Branch.selfRepeat)]
    (some (8/3))

def rule26 : ConversionRule :=
  ConversionRule.mk ["H", "T"] ["1", "2", "3", "4", "5", "6"] false 3
    [(⟨[["H", "H", "H"]], [0]⟩, Branch.terminal "1"),
     (⟨[["H", "H", "T"]], [1]⟩, Branch.terminal "2"),
     (⟨[["H", "T", "H"]], [2]⟩, Branch.terminal "3"),
     (⟨[["H", "T", "T"]], [3]⟩, Branch.terminal "4"),
     (⟨[["T", "H", "H"]], [4]⟩, Branch.terminal "5"),
     (⟨[["T", "H", "T"]], [5]⟩, Branch.terminal "6"),
     (⟨[["T", "T", "H"]], [6]⟩, Branch.reduce rule23),
     (⟨[["T", "T", "T"]], [7]⟩, Branch.reduce rule456)]
    (some (11/3))

/-- Whether a stored branch is the repeat branch. -/
def isRepeatB : Branch ConversionRule → Bool
  | Branch.selfRepeat => true
  | _ => false

/-- Membership of a rule in the tree of conversion rules hanging off a root:
the root itself, or a rule inside a reduction branch of a member. -/
inductive SubRule : ConversionRule → ConversionRule → Prop where
  | refl (r : ConversionRule) : SubRule r r
  | reduce {s sub root : ConversionRule} {tr : TossRange}
      (hmem : (tr, Branch.reduce sub) ∈ root.conversions)
      (hsub : SubRule s sub) : SubRule s root

/-- The expectation invariants of a single rule: a finite non-negative
expectation, at least `throws` when some branch is non-terminal, and zero
exactly for degenerate (at most 1 face) target dice. -/
def RuleInv (s : ConversionRule) : Prop :=
  ∃ q, s.expectation = some q ∧ 0 ≤ q ∧
    ((∃ e ∈ s.conversions, ∀ lbl, e.2 ≠ Branch.terminal lbl) → (s.throws : ℚ) ≤ q) ∧
    (q = 0 ↔ s.dieB.length ≤ 1)

theorem getConversionF_succ (fuel : Nat) (dieA dieB : List String) (makeFair : Bool)
    (throws : Nat) :
    getConversionF (fuel + 1) dieA dieB makeFair throws =
      convStep (getBestConversionF fuel) dieA dieB makeFair throws := rfl

theorem getBestConversionF_succ (fuel : Nat) (dieA dieB : List String) (makeFair : Bool) :
    getBestConversionF (fuel + 1) dieA dieB makeFair =
      (initLoop (fuel + 1) dieA.length dieB.length dieA.length 1).bind
        (fun throws => bestLoopF fuel dieA dieB makeFair throws none) := rfl

theorem bestLoopF_succ (fuel : Nat) (dieA dieB : List String) (makeFair : Bool) (throws : Nat)
    (best : Option ConversionRule) :
    bestLoopF (fuel + 1) dieA dieB makeFair throws best =
      loopStep (engineAux fuel) dieA dieB makeFair throws best := rfl

theorem getConversionF_zero (dieA dieB : List String) (makeFair : Bool) (throws : Nat) :
    getConversionF 0 dieA dieB makeFair throws = none := rfl

theorem getBestConversionF_zero (dieA dieB : List String) (makeFair : Bool) :
    getBestConversionF 0 dieA dieB makeFair = none := rfl

theorem bestLoopF_zero (dieA dieB : List String) (makeFair : Bool) (throws : Nat)
    (best : Option ConversionRule) : bestLoopF 0 dieA dieB makeFair throws best = none := rfl

/-! ## Specification of the odometer digits -/

theorem lsbDigits_zero (n : Nat) : ∀ t, lsbDigits n t 0 = List.replicate t 0 := by
  intro t
  induction t with
  | zero => rfl
  | succ t ih => simp [lsbDigits, Nat.zero_mod, Nat.zero_div, ih, List.replicate_succ]

theorem natDigits_zero (n t : Nat) : natDigits n t 0 = List.replicate t 0 := by
  simp [natDigits, lsbDigits_zero, List.reverse_replicate]

theorem incLsb_lsbDigits (n : Nat) (hn : 1 ≤ n) :
    ∀ t m, incLsb n (lsbDigits n t m) = lsbDigits n t (m + 1) := by
  intro t
  induction t with
  | zero => intro m; rfl
  | succ t ih =>
    intro m
    have hmlt : m % n < n := Nat.mod_lt m hn
    show incLsb n (m % n :: lsbDigits n t (m / n)) = (m + 1) % n :: lsbDigits n t ((m + 1) / n)
    by_cases h : m % n + 1 < n
    · have hmod : (m + 1) % n = m % n + 1 := by
        rw [← Nat.mod_add_mod]; exact Nat.mod_eq_of_lt h
      have hdvd : ¬ n ∣ (m + 1) := by
        intro hd
        have h0 : (m + 1) % n = 0 := Nat.dvd_iff_mod_eq_zero.mp hd
        omega
      have hdiv : (m + 1) / n = m / n := by
        rw [Nat.succ_div, if_neg hdvd, Nat.add_zero]
      simp only [incLsb, if_pos h, hmod, hdiv]
    · have he : m % n + 1 = n := by omega
      have hm0 : (m + 1) % n = 0 := by
        rw [← Nat.mod_add_mod, he, Nat.mod_self]
      have hdvd : n ∣ (m + 1) := Nat.dvd_of_mod_eq_zero hm0
      have hdiv : (m + 1) / n = m / n + 1 := by
        rw [Nat.succ_div, if_pos hdvd]
      simp only [incLsb, if_neg h, hm0, hdiv, ih (m / n)]
      have hz : m % n + 1 - n = 0 := by omega
      rw [hz]

theorem stepDigits_natDigits (n : Nat) (hn : 1 ≤ n) (t m : Nat) :
    stepDigits n (natDigits n t m) = natDigits n t (m + 1) := by
  simp [stepDigits, natDigits, List.reverse_reverse, incLsb_lsbDigits n hn]

theorem lsbDigits_lt (n : Nat) (hn : 1 ≤ n) :
    ∀ t m d, d ∈ lsbDigits n t m → d < n := by
  intro t
  induction t with
  | zero => intro m d hd; simp [lsbDigits] at hd
  | succ t ih =>
    intro m d hd
    simp only [lsbDigits, List.mem_cons] at hd
    rcases hd with h | h
    · subst h; exact Nat.mod_lt m hn
    · exact ih _ _ h

theorem natDigits_lt (n : Nat) (hn : 1 ≤ n) (t m d : Nat) (hd : d ∈ natDigits n t m) :
    d < n := lsbDigits_lt n hn t m d (List.mem_reverse.mp hd)

theorem natDigits_length (n t m : Nat) : (natDigits n t m).length = t := by
  rw [natDigits, List.length_reverse]
  induction t generalizing m with
  | zero => rfl
  | succ t ih => simp [lsbDigits, ih]

theorem totalTosses_eq_pow (n t : Nat) : totalTosses n t = n ^ t := by
  induction t with
  | zero => rfl
  | succ t ih =>
    unfold totalTosses at ih ⊢
    rw [List.range_succ, List.foldl_append, ih, List.foldl_cons, List.foldl_nil, pow_succ]

/-! ## Characterisation of `generateTosses` -/

theorem tossIdsUpTo_succ (faces : List String) (u : Bool) (t m : Nat)
    (k : Option (List String)) :
    tossIdsUpTo faces u t (m + 1) k =
      tossIdsUpTo faces u t m k ++ if keyOf faces u t m = k then [m] else [] := by
  unfold tossIdsUpTo
  rw [List.range_succ, List.filter_append]
  congr 1
  simp only [List.filter_cons, List.filter_nil]
  by_cases h : keyOf faces u t m = k
  · simp [h]
  · simp [h]

theorem tossIdsUpTo_eq_nil (faces : List String) (u : Bool) (t m : Nat)
    (k : Option (List String)) (h : ∀ id, id < m → keyOf faces u t id ≠ k) :
    tossIdsUpTo faces u t m k = [] := by
  unfold tossIdsUpTo
  rw [List.filter_eq_nil_iff]
  intro id hid
  simp only [decide_eq_true_eq]
  exact h id (List.mem_range.mp hid)

theorem classOf_succ_self (faces : List String) (u : Bool) (t m : Nat) :
    classOf faces u t (m + 1) (keyOf faces u t m) =
      ⟨(classOf faces u t m (keyOf faces u t m)).faces ++ [tossFaces faces t m],
       (classOf faces u t m (keyOf faces u t m)).ids ++ [m]⟩ := by
  unfold classOf
  rw [tossIdsUpTo_succ, if_pos rfl, List.map_append]
  rfl

theorem classOf_succ_ne (faces : List String) (u : Bool) (t m : Nat)
    (k : Option (List String)) (h : keyOf faces u t m ≠ k) :
    classOf faces u t (m + 1) k = classOf faces u t m k := by
  unfold classOf
  rw [tossIdsUpTo_succ, if_neg h, List.append_nil]

theorem addToClass_mem (f : Option (List String) → TossRange) (fs : List String) (id : Nat) :
    ∀ (ks : List (Option (List String))) (key : Option (List String)), key ∈ ks → ks.Nodup →
      addToClass (ks.map (fun k => (k, f k))) key fs id =
        ks.map (fun k =>
          (k, if k = key then TossRange.mk ((f k).faces ++ [fs]) ((f k).ids ++ [id]) else f k)) := by
  intro ks
  induction ks with
  | nil => intro key hk _; simp at hk
  | cons k0 ks ih =>
    intro key hk hnd
    simp only [List.map_cons, addToClass]
    by_cases h : k0 = key
    · rw [if_pos h, if_pos h]
      congr 1
      have hkey : key ∉ ks := h ▸ (List.nodup_cons.mp hnd).1
      refine (List.map_congr_left ?_).symm
      intro k hkmem
      have : k ≠ key := fun he => hkey (he ▸ hkmem)
      rw [if_neg this]
    · rw [if_neg h, if_neg h]
      have hk' : key ∈ ks := by
        rcases List.mem_cons.mp hk with h0 | h0
        · exact absurd h0.symm h
        · exact h0
      rw [ih key hk' (List.nodup_cons.mp hnd).2]

theorem addToClass_notMem (f : Option (List String) → TossRange) (fs : List String) (id : Nat) :
    ∀ (ks : List (Option (List String))) (key : Option (List String)), key ∉ ks →
      addToClass (ks.map (fun k => (k, f k))) key fs id =
        ks.map (fun k => (k, f k)) ++ [(key, TossRange.mk [fs] [id])] := by
  intro ks
  induction ks with
  | nil => intro key _; rfl
  | cons k0 ks ih =>
    intro key hk
    simp only [List.map_cons, addToClass]
    have h : k0 ≠ key := fun he => hk (he ▸ List.mem_cons_self k0 ks)
    rw [if_neg h, ih key (fun hm => hk (List.mem_cons_of_mem _ hm))]
    rfl

theorem genFold_spec (faces : List String) (u : Bool) (t : Nat) (hn : 1 ≤ faces.length) :
    ∀ m, ∃ ks : List (Option (List String)),
      ((List.range m).foldl (genStep faces u) ([], List.replicate t 0)).1 =
        ks.map (fun k => (k, classOf faces u t m k)) ∧
      ((List.range m).foldl (genStep faces u) ([], List.replicate t 0)).2 =
        natDigits faces.length t m ∧
      ks.Nodup ∧ (∀ k, k ∈ ks ↔ ∃ id, id < m ∧ keyOf faces u t id = k) := by
  intro m
  induction m with
  | zero =>
    refine ⟨[], by simp, by simp [natDigits_zero], List.nodup_nil, ?_⟩
    intro k
    simp
  | succ m ih =>
    obtain ⟨ks, h1, h2, hnd, hcov⟩ := ih
    rw [List.range_succ, List.foldl_append, List.foldl_cons, List.foldl_nil]
    have hst : ((List.range m).foldl (genStep faces u) ([], List.replicate t 0)) =
        (ks.map (fun k => (k, classOf faces u t m k)), natDigits faces.length t m) :=
      Prod.ext h1 h2
    rw [hst]
    have hfaces : (natDigits faces.length t m).map (fun d => faces.getD d "") =
        tossFaces faces t m := rfl
    by_cases hmem : keyOf faces u t m ∈ ks
    · refine ⟨ks, ?_, ?_, hnd, ?_⟩
      · show addToClass (ks.map (fun k => (k, classOf faces u t m k)))
            (keyOf faces u t m) (tossFaces faces t m) m =
          ks.map (fun k => (k, classOf faces u t (m + 1) k))
        rw [addToClass_mem (fun k => classOf faces u t m k) (tossFaces faces t m) m ks
            (keyOf faces u t m) hmem hnd]
        refine List.map_congr_left ?_
        intro k hkmem
        by_cases hk : k = keyOf faces u t m
        · subst hk
          rw [if_pos rfl, classOf_succ_self]
        · rw [if_neg hk, classOf_succ_ne faces u t m k (fun he => hk he.symm)]
      · show stepDigits faces.length (natDigits faces.length t m) = natDigits faces.length t (m + 1)
        exact stepDigits_natDigits faces.length hn t m
      · intro k
        rw [hcov k]
        constructor
        · rintro ⟨id, hid, hk⟩; exact ⟨id, Nat.lt_succ_of_lt hid, hk⟩
        · rintro ⟨id, hid, hk⟩
          rcases Nat.lt_succ_iff_lt_or_eq.mp hid with h | h
          · exact ⟨id, h, hk⟩
          · subst h
            exact (hcov k).mp (hk ▸ hmem) |>.imp (fun i hi => hi)
    · refine ⟨ks ++ [keyOf faces u t m], ?_, ?_, ?_, ?_⟩
      · show addToClass (ks.map (fun k => (k, classOf faces u t m k)))
            (keyOf faces u t m) (tossFaces faces t m) m =
          (ks ++ [keyOf faces u t m]).map (fun k => (k, classOf faces u t (m + 1) k))
        rw [addToClass_notMem (fun k => classOf faces u t m k) (tossFaces faces t m) m ks
            (keyOf faces u t m) hmem]
        rw [List.map_append]
        congr 1
        · refine List.map_congr_left ?_
          intro k hkmem
          have hk : keyOf faces u t m ≠ k := fun he => hmem (he ▸ hkmem)
          rw [classOf_succ_ne faces u t m k hk]
        · simp only [List.map_cons, List.map_nil]
          have hnil : tossIdsUpTo faces u t m (keyOf faces u t m) = [] := by
            refine tossIdsUpTo_eq_nil faces u t m _ ?_
            intro id hid hk
            exact hmem ((hcov _).mpr ⟨id, hid, hk⟩)
          have : classOf faces u t (m + 1) (keyOf faces u t m) =
              TossRange.mk [tossFaces faces t m] [m] := by
            rw [classOf_succ_self]
            unfold classOf
            rw [hnil]
            rfl
          rw [this]
      · show stepDigits faces.length (natDigits faces.length t m) = natDigits faces.length t (m + 1)
        exact stepDigits_natDigits faces.length hn t m
      · rw [List.nodup_append]
        exact ⟨hnd, List.nodup_singleton _, by simpa using hmem⟩
      · intro k
        rw [List.mem_append, hcov k]
        constructor
        · rintro (⟨id, hid, hk⟩ | hk)
          · exact ⟨id, Nat.lt_succ_of_lt hid, hk⟩
          · simp only [List.mem_singleton] at hk
            exact ⟨m, Nat.lt_succ_self m, hk.symm⟩
        · rintro ⟨id, hid, hk⟩
          rcases Nat.lt_succ_iff_lt_or_eq.mp hid with h | h
          · exact Or.inl ⟨id, h, hk⟩
          · subst h
            exact Or.inr (by simp [hk.symm])

theorem generateTosses_spec (faces : List String) (u : Bool) (t : Nat)
    (hn : 1 ≤ faces.length) :
    ∃ ks : List (Option (List String)),
      generateTosses faces u t = ks.map (classOf faces u t (faces.length ^ t)) ∧
      ks.Nodup ∧
      ∀ k, k ∈ ks ↔ ∃ id, id < faces.length ^ t ∧ keyOf faces u t id = k := by
  obtain ⟨ks, h1, _, hnd, hcov⟩ := genFold_spec faces u t hn (totalTosses faces.length t)
  rw [totalTosses_eq_pow] at h1 hcov
  refine ⟨ks, ?_, hnd, hcov⟩
  unfold generateTosses
  rw [totalTosses_eq_pow, h1, List.map_map]
  rfl

theorem mem_tossIdsUpTo (faces : List String) (u : Bool) (t m : Nat)
    (k : Option (List String)) (id : Nat) :
    id ∈ tossIdsUpTo faces u t m k ↔ id < m ∧ keyOf faces u t id = k := by
  unfold tossIdsUpTo
  rw [List.mem_filter, List.mem_range]
  simp

theorem nodup_tossIdsUpTo (faces : List String) (u : Bool) (t m : Nat)
    (k : Option (List String)) : (tossIdsUpTo faces u t m k).Nodup :=
  (List.nodup_range m).filter _

theorem count_tossIdsUpTo (faces : List String) (u : Bool) (t m : Nat)
    (k : Option (List String)) (id : Nat) :
    (tossIdsUpTo faces u t m k).count id =
      if id < m ∧ keyOf faces u t id = k then 1 else 0 := by
  by_cases h : id < m ∧ keyOf faces u t id = k
  · rw [if_pos h]
    exact List.count_eq_one_of_mem (nodup_tossIdsUpTo faces u t m k)
      ((mem_tossIdsUpTo faces u t m k id).mpr h)
  · rw [if_neg h]
    exact List.count_eq_zero_of_not_mem
      (fun hm => h ((mem_tossIdsUpTo faces u t m k id).mp hm))

theorem sum_map_ite_one (k0 : Option (List String)) (f : Option (List String) → Nat) :
    ∀ ks : List (Option (List String)), ks.Nodup → k0 ∈ ks →
      (∀ k, f k = if k = k0 then 1 else 0) → (ks.map f).sum = 1 := by
  intro ks
  induction ks with
  | nil => intro _ h; simp at h
  | cons k1 ks ih =>
    intro hnd hk hf
    simp only [List.map_cons, List.sum_cons]
    by_cases h : k1 = k0
    · subst h
      have : ∀ k ∈ ks, f k = 0 := by
        intro k hkm
        rw [hf k, if_neg]
        intro he
        exact (List.nodup_cons.mp hnd).1 (he ▸ hkm)
      have hz : (ks.map f).sum = 0 := by
        rw [List.sum_eq_zero]
        intro x hx
        obtain ⟨k, hkm, rfl⟩ := List.mem_map.mp hx
        exact this k hkm
      rw [hz, hf k1, if_pos rfl]
    · have hk' : k0 ∈ ks := by
        rcases List.mem_cons.mp hk with h0 | h0
        · exact absurd h0.symm h
        · exact h0
      rw [hf k1, if_neg h, ih (List.nodup_cons.mp hnd).2 hk' hf]

theorem classIds_generateTosses_perm (faces : List String) (u : Bool) (t : Nat)
    (hn : 1 ≤ faces.length) :
    (classIds (generateTosses faces u t)).Perm (List.range (faces.length ^ t)) := by
  obtain ⟨ks, hEq, hnd, hcov⟩ := generateTosses_spec faces u t hn
  rw [List.perm_iff_count]
  intro id
  have hcnt : (classIds (generateTosses faces u t)).count id =
      ((ks.map (fun k => (tossIdsUpTo faces u t (faces.length ^ t) k).count id)).sum) := by
    unfold classIds
    rw [hEq, List.map_map, List.count_flatten, List.map_map]
    rfl
  by_cases h : id < faces.length ^ t
  · rw [List.count_eq_one_of_mem (List.nodup_range _) (List.mem_range.mpr h), hcnt]
    exact sum_map_ite_one (keyOf faces u t id) _ ks hnd
      ((hcov _).mpr ⟨id, h, rfl⟩)
      (fun k => by
        rw [count_tossIdsUpTo]
        by_cases hk : keyOf faces u t id = k
        · rw [if_pos ⟨h, hk⟩, if_pos hk.symm]
        · rw [if_neg (fun hc => hk hc.2), if_neg (fun hc => hk hc.symm)])
  · rw [List.count_eq_zero_of_not_mem (fun hm => h (List.mem_range.mp hm)), hcnt]
    rw [List.sum_eq_zero]
    intro x hx
    obtain ⟨k, _, rfl⟩ := List.mem_map.mp hx
    rw [count_tossIdsUpTo, if_neg (fun hc => h hc.1)]

theorem generateTosses_fair (faces : List String) (t : Nat) (hn : 1 ≤ faces.length) :
    generateTosses faces false t =
      [⟨(List.range (faces.length ^ t)).map (tossFaces faces t),
        List.range (faces.length ^ t)⟩] := by
  obtain ⟨ks, hEq, hnd, hcov⟩ := generateTosses_spec faces false t hn
  have hkeys : ∀ k ∈ ks, k = (none : Option (List String)) := by
    intro k hk
    obtain ⟨id, _, hkey⟩ := (hcov k).mp hk
    rw [← hkey]
    rfl
  have hmem : (none : Option (List String)) ∈ ks := by
    refine (hcov none).mpr ⟨0, ?_, rfl⟩
    exact Nat.pos_pow_of_pos t hn
  have hks : ks = [none] := by
    cases ks with
    | nil => simp at hmem
    | cons k0 ks' =>
      have hk0 : k0 = none := hkeys k0 (List.mem_cons_self _ _)
      subst hk0
      cases ks' with
      | nil => rfl
      | cons k1 ks'' =>
        have hk1 : k1 = none := hkeys k1 (by simp)
        exact absurd (hk1 ▸ (List.nodup_cons.mp hnd).1) (by simp [hk1])
  subst hks
  rw [hEq]
  simp only [List.map_cons, List.map_nil]
  congr 1
  unfold classOf
  have hfilter : tossIdsUpTo faces false t (faces.length ^ t) none =
      List.range (faces.length ^ t) := by
    unfold tossIdsUpTo
    rw [List.filter_eq_self]
    intro id _
    simp [keyOf, chanceKeyOf]
  rw [hfilter]

theorem mem_generateTosses (faces : List String) (u : Bool) (t : Nat)
    (hn : 1 ≤ faces.length) (tr : TossRange) (htr : tr ∈ generateTosses faces u t) :
    tr.ids ≠ [] ∧ tr.faces = tr.ids.map (tossFaces faces t) ∧
      tr.ids.length = tr.faces.length ∧ List.Sorted (· < ·) tr.ids ∧
      tr.ids.Nodup ∧ ∀ id ∈ tr.ids, id < faces.length ^ t := by
  obtain ⟨ks, hEq, _, hcov⟩ := generateTosses_spec faces u t hn
  rw [hEq] at htr
  obtain ⟨k, hkmem, rfl⟩ := List.mem_map.mp htr
  obtain ⟨id0, hid0, hkey0⟩ := (hcov k).mp hkmem
  refine ⟨?_, rfl, by simp [classOf], ?_, nodup_tossIdsUpTo faces u t _ k, ?_⟩
  · intro hnil
    have : id0 ∈ tossIdsUpTo faces u t (faces.length ^ t) k :=
      (mem_tossIdsUpTo faces u t _ k id0).mpr ⟨hid0, hkey0⟩
    rw [show (classOf faces u t (faces.length ^ t) k).ids =
        tossIdsUpTo faces u t (faces.length ^ t) k from rfl] at hnil
    rw [hnil] at this
    simp at this
  · show List.Sorted (· < ·) (tossIdsUpTo faces u t (faces.length ^ t) k)
    exact List.Pairwise.filter _ (List.pairwise_lt_range _)
  · intro id hid
    exact ((mem_tossIdsUpTo faces u t _ k id).mp hid).1

/-! ## Characterisation of `partitionTosses` -/

theorem classIds_nil : classIds [] = [] := rfl

theorem classIds_cons (tr : TossRange) (L : List TossRange) :
    classIds (tr :: L) = tr.ids ++ classIds L := by
  unfold classIds
  rw [List.map_cons, List.flatten_cons]

theorem classIds_append (L₁ L₂ : List TossRange) :
    classIds (L₁ ++ L₂) = classIds L₁ ++ classIds L₂ := by
  unfold classIds
  rw [List.map_append, List.flatten_append]

theorem entriesIds_append (R₁ R₂ : List (TossRange × List String)) :
    entriesIds (R₁ ++ R₂) = entriesIds R₁ ++ entriesIds R₂ := by
  unfold entriesIds
  rw [List.map_append, List.flatten_append]

theorem allocToSubs_length (k : Nat) :
    ∀ (subs : List TossRange) (fl : List (List String)) (il : List Nat),
      (allocToSubs fl il k subs).length = subs.length := by
  intro subs
  induction subs with
  | nil => intro fl il; rfl
  | cons sr rest ih => intro fl il; simp [allocToSubs, ih]

theorem allocToSubs_ids (k : Nat) :
    ∀ (subs : List TossRange) (fl : List (List String)) (il : List Nat),
      (classIds (allocToSubs fl il k subs) : Multiset Nat) =
        (classIds subs : Multiset Nat) + (il.take (subs.length * k) : Multiset Nat) := by
  intro subs
  induction subs with
  | nil =>
    intro fl il
    simp [allocToSubs, classIds_nil]
  | cons sr rest ih =>
    intro fl il
    rw [show allocToSubs fl il k (sr :: rest) =
        ⟨sr.faces ++ fl.take k, sr.ids ++ il.take k⟩ ::
          allocToSubs (fl.drop k) (il.drop k) k rest from rfl]
    rw [classIds_cons, classIds_cons]
    have htake : il.take ((sr :: rest).length * k) =
        il.take k ++ (il.drop k).take (rest.length * k) := by
      rw [List.length_cons, show (rest.length + 1) * k = k + rest.length * k by ring]
      exact List.take_add il k (rest.length * k)
    rw [htake]
    simp only [← Multiset.coe_add, ih (fl.drop k) (il.drop k)]
    abel

theorem allocToSubs_wf (k : Nat) :
    ∀ (subs : List TossRange) (fl : List (List String)) (il : List Nat),
      WfRanges subs → il.length = fl.length → WfRanges (allocToSubs fl il k subs) := by
  intro subs
  induction subs with
  | nil => intro fl il _ _ tr htr; simp [allocToSubs] at htr
  | cons sr rest ih =>
    intro fl il hwf hlen tr htr
    rw [show allocToSubs fl il k (sr :: rest) =
        ⟨sr.faces ++ fl.take k, sr.ids ++ il.take k⟩ ::
          allocToSubs (fl.drop k) (il.drop k) k rest from rfl] at htr
    rcases List.mem_cons.mp htr with h | h
    · subst h
      have h1 := hwf sr (List.mem_cons_self _ _)
      simp only [List.length_append, List.length_take, hlen, h1]
    · exact ih (fl.drop k) (il.drop k) (fun t ht => hwf t (List.mem_cons_of_mem _ ht))
        (by simp [hlen]) tr h

theorem passClass_spec (d : Nat) (kept subs : List TossRange) (tr : TossRange)
    (hwf : tr.ids.length = tr.faces.length) (hd : subs.length = d) :
    (classIds (passClass d (kept, subs) tr).1 : Multiset Nat) +
        (classIds (passClass d (kept, subs) tr).2 : Multiset Nat) =
      (classIds kept : Multiset Nat) + (classIds subs : Multiset Nat) +
        (tr.ids : Multiset Nat) := by
  unfold passClass
  by_cases h0 : tr.faces.length / d = 0
  · rw [if_pos h0]
    rw [show ((kept ++ [tr], subs) : List TossRange × List TossRange).1 = kept ++ [tr] from rfl,
      show ((kept ++ [tr], subs) : List TossRange × List TossRange).2 = subs from rfl]
    rw [classIds_append, classIds_cons, classIds_nil, List.append_nil]
    simp only [← Multiset.coe_add]
    abel
  · rw [if_neg h0]
    by_cases hfull : tr.faces.length = d * (tr.faces.length / d)
    · rw [if_pos hfull]
      show (classIds kept : Multiset Nat) +
          (classIds (allocToSubs tr.faces tr.ids (tr.faces.length / d) subs) : Multiset Nat) = _
      rw [allocToSubs_ids, hd]
      have htk : tr.ids.take (d * (tr.faces.length / d)) = tr.ids :=
        List.take_of_length_le (le_of_eq (by rw [hwf, ← hfull]))
      rw [htk]
      abel
    · rw [if_neg hfull]
      show (classIds (kept ++ [⟨tr.faces.drop (d * (tr.faces.length / d)),
            tr.ids.drop (d * (tr.faces.length / d))⟩]) : Multiset Nat) +
          (classIds (allocToSubs tr.faces tr.ids (tr.faces.length / d) subs) : Multiset Nat) = _
      rw [classIds_append, classIds_cons, classIds_nil, List.append_nil, allocToSubs_ids, hd]
      have hsplit : tr.ids.take (d * (tr.faces.length / d)) ++
          tr.ids.drop (d * (tr.faces.length / d)) = tr.ids := List.take_append_drop _ _
      calc (((classIds kept ++ tr.ids.drop (d * (tr.faces.length / d))) : List Nat) :
              Multiset Nat) +
            (((classIds subs : List Nat) : Multiset Nat) +
              ((tr.ids.take (d * (tr.faces.length / d)) : List Nat) : Multiset Nat)) =
          (classIds kept : Multiset Nat) + (classIds subs : Multiset Nat) +
            (((tr.ids.take (d * (tr.faces.length / d)) ++
              tr.ids.drop (d * (tr.faces.length / d)) : List Nat)) : Multiset Nat) := by
            simp only [← Multiset.coe_add]
            abel
        _ = _ := by rw [hsplit]

theorem passClass_len_wf (d : Nat) (kept subs : List TossRange) (tr : TossRange)
    (hwf : tr.ids.length = tr.faces.length) (hk : WfRanges kept) (hs : WfRanges subs) :
    (passClass d (kept, subs) tr).2.length = subs.length ∧
      WfRanges (passClass d (kept, subs) tr).1 ∧ WfRanges (passClass d (kept, subs) tr).2 := by
  unfold passClass
  by_cases h0 : tr.faces.length / d = 0
  · rw [if_pos h0]
    refine ⟨rfl, ?_, hs⟩
    intro t ht
    rcases List.mem_append.mp ht with h | h
    · exact hk t h
    · rw [List.mem_singleton.mp h]
      exact hwf
  · rw [if_neg h0]
    have hwfsubs : WfRanges (allocToSubs tr.faces tr.ids (tr.faces.length / d) subs) :=
      allocToSubs_wf _ subs tr.faces tr.ids hs hwf
    have hlen : (allocToSubs tr.faces tr.ids (tr.faces.length / d) subs).length = subs.length :=
      allocToSubs_length _ subs tr.faces tr.ids
    by_cases hfull : tr.faces.length = d * (tr.faces.length / d)
    · rw [if_pos hfull]
      exact ⟨hlen, hk, hwfsubs⟩
    · rw [if_neg hfull]
      refine ⟨hlen, ?_, hwfsubs⟩
      intro t ht
      rcases List.mem_append.mp ht with h | h
      · exact hk t h
      · rw [List.mem_singleton.mp h]
        simp [hwf]

theorem foldPass_spec (d : Nat) :
    ∀ (tosses kept subs : List TossRange), WfRanges tosses → WfRanges kept → WfRanges subs →
      subs.length = d →
      ((classIds (tosses.foldl (passClass d) (kept, subs)).1 : Multiset Nat) +
          (classIds (tosses.foldl (passClass d) (kept, subs)).2 : Multiset Nat) =
        (classIds kept : Multiset Nat) + (classIds subs : Multiset Nat) +
          (classIds tosses : Multiset Nat)) ∧
      (tosses.foldl (passClass d) (kept, subs)).2.length = d ∧
      WfRanges (tosses.foldl (passClass d) (kept, subs)).1 ∧
      WfRanges (tosses.foldl (passClass d) (kept, subs)).2 := by
  intro tosses
  induction tosses with
  | nil =>
    intro kept subs _ hk hs hd
    refine ⟨?_, hd, hk, hs⟩
    rw [classIds_nil]
    simp
  | cons tr rest ih =>
    intro kept subs hwf hk hs hd
    have hwf_tr : tr.ids.length = tr.faces.length := hwf tr (List.mem_cons_self _ _)
    have hwf_rest : WfRanges rest := fun t ht => hwf t (List.mem_cons_of_mem _ ht)
    rw [List.foldl_cons]
    obtain ⟨hlen1, hk1, hs1⟩ := passClass_len_wf d kept subs tr hwf_tr hk hs
    have hd1 : (passClass d (kept, subs) tr).2.length = d := hlen1.trans hd
    have hcons := passClass_spec d kept subs tr hwf_tr hd
    obtain ⟨ihc, ihl, ihk, ihs⟩ := ih (passClass d (kept, subs) tr).1
      (passClass d (kept, subs) tr).2 hwf_rest hk1 hs1 hd1
    rw [show ((passClass d (kept, subs) tr).1, (passClass d (kept, subs) tr).2) =
      passClass d (kept, subs) tr from rfl] at ihc ihl ihk ihs
    refine ⟨?_, ihl, ihk, ihs⟩
    rw [ihc, hcons, classIds_cons]
    simp only [← Multiset.coe_add]
    abel

theorem sortRangeById_spec (sr : TossRange) (hwf : sr.ids.length = sr.faces.length) :
    ((sortRangeById sr).ids : Multiset Nat) = (sr.ids : Multiset Nat) ∧
      (sortRangeById sr).ids.length = (sortRangeById sr).faces.length := by
  constructor
  · rw [Multiset.coe_eq_coe]
    have h1 : (sortRangeById sr).ids =
        (List.insertionSort idLeR (sr.faces.zip sr.ids)).map (fun p => p.2) := rfl
    rw [h1]
    have h2 : (List.insertionSort idLeR (sr.faces.zip sr.ids)).Perm (sr.faces.zip sr.ids) :=
      List.perm_insertionSort idLeR _
    refine (h2.map (fun p => p.2)).trans ?_
    rw [show ((fun p => p.2) : List String × Nat → Nat) = Prod.snd from rfl]
    rw [List.map_snd_zip sr.faces sr.ids (le_of_eq hwf)]
  · simp [sortRangeById]

theorem zipEntries_spec :
    ∀ (subs : List TossRange) (ds : List (List String)), WfRanges subs →
      subs.length = ds.length →
      (entriesIds ((List.zip subs ds).filterMap (fun p =>
          if p.1.faces.length = 0 then none else some (sortRangeById p.1, p.2))) :
        Multiset Nat) = (classIds subs : Multiset Nat) ∧
      WfEntries ((List.zip subs ds).filterMap (fun p =>
          if p.1.faces.length = 0 then none else some (sortRangeById p.1, p.2))) := by
  intro subs
  induction subs with
  | nil =>
    intro ds _ _
    constructor
    · simp [entriesIds, classIds_nil]
    · intro e he
      simp at he
  | cons sr rest ih =>
    intro ds hwf hlen
    cases ds with
    | nil => simp at hlen
    | cons d0 ds' =>
      have hwf_sr : sr.ids.length = sr.faces.length := hwf sr (List.mem_cons_self _ _)
      have hwf_rest : WfRanges rest := fun t ht => hwf t (List.mem_cons_of_mem _ ht)
      have hlen' : rest.length = ds'.length := by simpa using hlen
      obtain ⟨ih1, ih2⟩ := ih ds' hwf_rest hlen'
      rw [List.zip_cons_cons, List.filterMap_cons]
      by_cases h0 : sr.faces.length = 0
      · rw [if_pos h0]
        have hids : sr.ids = [] := List.eq_nil_of_length_eq_zero (by rw [hwf_sr, h0])
        refine ⟨?_, ih2⟩
        rw [ih1, classIds_cons, hids, List.nil_append]
      · rw [if_neg h0]
        obtain ⟨hperm, hwf_sorted⟩ := sortRangeById_spec sr hwf_sr
        constructor
        · rw [show entriesIds ((sortRangeById sr, d0) ::
              (rest.zip ds').filterMap (fun p =>
                if p.1.faces.length = 0 then none else some (sortRangeById p.1, p.2))) =
            (sortRangeById sr).ids ++ entriesIds ((rest.zip ds').filterMap (fun p =>
                if p.1.faces.length = 0 then none else some (sortRangeById p.1, p.2)))
            from rfl]
          rw [classIds_cons]
          simp only [← Multiset.coe_add]
          rw [ih1, hperm]
        · intro e he
          rcases List.mem_cons.mp he with h | h
          · rw [h]
            exact hwf_sorted
          · exact ih2 e h

theorem replicate_empty_wf (d : Nat) : WfRanges (List.replicate d ⟨[], []⟩) := by
  intro tr htr
  rw [List.eq_of_mem_replicate htr]
  rfl

theorem divisorPass_spec (die : List String)
    (st : List TossRange × List (TossRange × List String)) (d : Nat)
    (hwf1 : WfRanges st.1) (hwf2 : WfEntries st.2) :
    ((classIds (divisorPass die st d).1 : Multiset Nat) +
        (entriesIds (divisorPass die st d).2 : Multiset Nat) =
      (classIds st.1 : Multiset Nat) + (entriesIds st.2 : Multiset Nat)) ∧
      WfRanges (divisorPass die st d).1 ∧ WfEntries (divisorPass die st d).2 := by
  obtain ⟨hfold, hlen, hkwf, hswf⟩ := foldPass_spec d st.1 [] (List.replicate d ⟨[], []⟩)
    hwf1 (by intro tr htr; simp at htr) (replicate_empty_wf d) (List.length_replicate d _)
  have hzlen : (st.1.foldl (passClass d) ([], List.replicate d ⟨[], []⟩)).2.length =
      ((List.range d).map (fun i =>
        (die.drop (i * (die.length / d))).take (die.length / d))).length := by
    rw [hlen, List.length_map, List.length_range]
  obtain ⟨hze, hzwf⟩ := zipEntries_spec
    (st.1.foldl (passClass d) ([], List.replicate d ⟨[], []⟩)).2
    ((List.range d).map (fun i => (die.drop (i * (die.length / d))).take (die.length / d)))
    hswf hzlen
  have hcls : classIds (List.replicate d (⟨[], []⟩ : TossRange)) = [] := by
    unfold classIds
    rw [List.flatten_eq_nil_iff]
    intro l hl
    obtain ⟨tr, htr, rfl⟩ := List.mem_map.mp hl
    rw [List.eq_of_mem_replicate htr]
  constructor
  · show (classIds (st.1.foldl (passClass d) ([], List.replicate d ⟨[], []⟩)).1 : Multiset Nat) +
        (entriesIds (st.2 ++ _) : Multiset Nat) = _
    rw [entriesIds_append]
    simp only [← Multiset.coe_add]
    rw [hze]
    rw [hcls, classIds_nil] at hfold
    simp only [Multiset.coe_nil, zero_add] at hfold
    rw [← hfold]
    abel
  · refine ⟨hkwf, ?_⟩
    intro e he
    rcases List.mem_append.mp he with h | h
    · exact hwf2 e h
    · exact hzwf e h

theorem mem_getDivisors (n d : Nat) :
    d ∈ getDivisors n ↔ 1 ≤ d ∧ d ≤ n ∧ n % d = 0 := by
  unfold getDivisors
  rw [List.mem_filter, List.mem_map]
  constructor
  · rintro ⟨⟨j, hj, rfl⟩, hmod⟩
    rw [List.mem_range] at hj
    refine ⟨by omega, by omega, by simpa using hmod⟩
  · rintro ⟨h1, h2, h3⟩
    exact ⟨⟨n - d, List.mem_range.mpr (by omega), by omega⟩, by simpa using h3⟩

theorem getDivisors_head (n : Nat) (hn : 1 ≤ n) :
    ∃ tl, getDivisors n = n :: tl ∧ ∀ d ∈ tl, 1 ≤ d ∧ d < n ∧ n % d = 0 := by
  obtain ⟨m, rfl⟩ : ∃ m, n = m + 1 := ⟨n - 1, by omega⟩
  refine ⟨((List.range m).map (fun j => m - j)).filter (fun i => (m + 1) % i == 0), ?_, ?_⟩
  · unfold getDivisors
    rw [List.range_succ_eq_map, List.map_cons, List.map_map]
    rw [List.filter_cons]
    have hd : ((m + 1) % (m + 1 - 0) == 0) = true := by simp
    rw [if_pos hd]
    simp only [Nat.sub_zero]
    have hcomp : ((fun j => m + 1 - j) ∘ Nat.succ) = (fun j => m - j) := by
      funext j
      simp [Function.comp, Nat.succ_sub_succ]
    rw [hcomp]
  · intro d hd
    rw [List.mem_filter, List.mem_map] at hd
    obtain ⟨⟨j, hj, rfl⟩, hmod⟩ := hd
    rw [List.mem_range] at hj
    refine ⟨by omega, by omega, by simpa using hmod⟩

theorem getDivisors_concat (n : Nat) (hn : 1 ≤ n) :
    ∃ ini, getDivisors n = ini ++ [1] ∧ ∀ d ∈ ini, 2 ≤ d ∧ d ≤ n ∧ n % d = 0 := by
  obtain ⟨m, rfl⟩ : ∃ m, n = m + 1 := ⟨n - 1, by omega⟩
  refine ⟨((List.range m).map (fun j => m + 1 - j)).filter (fun i => (m + 1) % i == 0), ?_, ?_⟩
  · unfold getDivisors
    rw [List.range_succ, List.map_append, List.filter_append]
    congr 1
    have h1 : m + 1 - m = 1 := by omega
    simp only [List.map_cons, List.map_nil, h1, List.filter_cons, List.filter_nil]
    have h2 : ((m + 1) % 1 == 0) = true := by simp [Nat.mod_one]
    rw [if_pos h2]
  · intro d hd
    rw [List.mem_filter, List.mem_map] at hd
    obtain ⟨⟨j, hj, rfl⟩, hmod⟩ := hd
    rw [List.mem_range] at hj
    refine ⟨by omega, by omega, by simpa using hmod⟩

theorem classIds_eq_nil (L : List TossRange) (h : ∀ tr ∈ L, tr.ids = []) :
    classIds L = [] := by
  unfold classIds
  rw [List.flatten_eq_nil_iff]
  intro l hl
  obtain ⟨tr, htr, rfl⟩ := List.mem_map.mp hl
  exact h tr htr

theorem foldPass_one_ids_nil :
    ∀ (tosses kept subs : List TossRange), WfRanges tosses → (∀ tr ∈ kept, tr.ids = []) →
      ∀ tr ∈ (tosses.foldl (passClass 1) (kept, subs)).1, tr.ids = [] := by
  intro tosses
  induction tosses with
  | nil => intro kept subs _ hk tr htr; exact hk tr htr
  | cons t0 rest ih =>
    intro kept subs hwf hk tr htr
    rw [List.foldl_cons] at htr
    have hwf_t0 : t0.ids.length = t0.faces.length := hwf t0 (List.mem_cons_self _ _)
    have hwf_rest : WfRanges rest := fun t ht => hwf t (List.mem_cons_of_mem _ ht)
    refine ih (passClass 1 (kept, subs) t0).1 (passClass 1 (kept, subs) t0).2 hwf_rest ?_ tr
      (by rw [show ((passClass 1 (kept, subs) t0).1, (passClass 1 (kept, subs) t0).2) =
        passClass 1 (kept, subs) t0 from rfl]; exact htr)
    intro t ht
    unfold passClass at ht
    by_cases h0 : t0.faces.length / 1 = 0
    · rw [if_pos h0] at ht
      simp only at ht
      rcases List.mem_append.mp ht with h | h
      · exact hk t h
      · rw [List.mem_singleton.mp h]
        rw [Nat.div_one] at h0
        exact List.eq_nil_of_length_eq_zero (by rw [hwf_t0, h0])
    · rw [if_neg h0] at ht
      have hfull : t0.faces.length = 1 * (t0.faces.length / 1) := by
        rw [Nat.div_one, Nat.one_mul]
      rw [if_pos hfull] at ht
      exact hk t ht

theorem partition_state_inv (die : List String) (divs : List Nat) :
    ∀ st : List TossRange × List (TossRange × List String),
      WfRanges st.1 → WfEntries st.2 →
      (((classIds (divs.foldl (divisorPass die) st).1 : Multiset Nat) +
          (entriesIds (divs.foldl (divisorPass die) st).2 : Multiset Nat)) =
        (classIds st.1 : Multiset Nat) + (entriesIds st.2 : Multiset Nat)) ∧
      WfRanges (divs.foldl (divisorPass die) st).1 ∧
      WfEntries (divs.foldl (divisorPass die) st).2 := by
  induction divs with
  | nil => intro st h1 h2; exact ⟨rfl, h1, h2⟩
  | cons d rest ih =>
    intro st h1 h2
    rw [List.foldl_cons]
    obtain ⟨hc, hw1, hw2⟩ := divisorPass_spec die st d h1 h2
    obtain ⟨ihc, ihw1, ihw2⟩ := ih (divisorPass die st d) hw1 hw2
    exact ⟨ihc.trans hc, ihw1, ihw2⟩

theorem partitionTosses_conservation (tosses : List TossRange) (die : List String)
    (hwf : WfRanges tosses) (hb : 1 ≤ die.length) :
    (entriesIds (partitionTosses tosses die) : Multiset Nat) =
      (classIds tosses : Multiset Nat) ∧ WfEntries (partitionTosses tosses die) := by
  obtain ⟨ini, hdiv, _⟩ := getDivisors_concat die.length hb
  unfold partitionTosses
  rw [hdiv, List.foldl_append]
  obtain ⟨hc1, hw1, hw2⟩ := partition_state_inv die ini (tosses, [])
    hwf (by intro e he; simp at he)
  set st1 := ini.foldl (divisorPass die) (tosses, []) with hst1
  rw [List.foldl_cons, List.foldl_nil]
  obtain ⟨hc2, hw21, hw22⟩ := divisorPass_spec die st1 1 hw1 hw2
  have hnil : classIds (divisorPass die st1 1).1 = [] := by
    apply classIds_eq_nil
    intro tr htr
    exact foldPass_one_ids_nil st1.1 [] (List.replicate 1 ⟨[], []⟩) hw1
      (by intro t ht; simp at ht) tr htr
  refine ⟨?_, hw22⟩
  rw [hnil] at hc2
  simp only [Multiset.coe_nil, zero_add] at hc2
  rw [hc2, hc1]
  show (classIds tosses : Multiset Nat) +
      (entriesIds ([] : List (TossRange × List String)) : Multiset Nat) =
    (classIds tosses : Multiset Nat)
  rw [show entriesIds ([] : List (TossRange × List String)) = [] from rfl]
  simp

theorem mem_allSlices (die : List String) (i l : Nat) :
    (die.drop i).take l ∈ allSlices die := by
  have hnorm : (die.drop i).take l =
      (die.drop (min i die.length)).take (min l die.length) := by
    rcases Nat.le_total i die.length with hi | hi
    · rw [Nat.min_eq_left hi]
      rcases Nat.le_total l die.length with hl | hl
      · rw [Nat.min_eq_left hl]
      · rw [Nat.min_eq_right hl]
        have hlen : (die.drop i).length ≤ die.length := by
          rw [List.length_drop]; omega
        rw [List.take_of_length_le (by omega), List.take_of_length_le hlen]
    · rw [Nat.min_eq_right hi]
      have h1 : die.drop i = [] := List.drop_eq_nil_of_le hi
      have h2 : die.drop die.length = [] := List.drop_eq_nil_of_le le_rfl
      rw [h1, h2]
      simp
  rw [hnorm]
  unfold allSlices
  rw [List.mem_flatten]
  refine ⟨(List.range (die.length + 1)).map (fun l =>
    (die.drop (min i die.length)).take l), ?_, ?_⟩
  · exact List.mem_map.mpr ⟨min i die.length,
      List.mem_range.mpr (by omega), rfl⟩
  · exact List.mem_map.mpr ⟨min l die.length, List.mem_range.mpr (by omega), rfl⟩

/-- Structure of the entries added by one divisor pass. -/
theorem divisorPass_added (die : List String)
    (st : List TossRange × List (TossRange × List String)) (d : Nat)
    (hwf : WfRanges st.1) :
    ∃ added, (divisorPass die st d).2 = st.2 ++ added ∧
      (∀ e ∈ added, (∃ i, i < d ∧
          e.2 = (die.drop (i * (die.length / d))).take (die.length / d)) ∧
        1 ≤ e.1.faces.length ∧ e.1.ids.length = e.1.faces.length) ∧
      added.length ≤ d := by
  obtain ⟨_, hlen, _, hswf⟩ := foldPass_spec d st.1 [] (List.replicate d ⟨[], []⟩)
    hwf (by intro tr htr; simp at htr) (replicate_empty_wf d) (List.length_replicate d _)
  refine ⟨_, rfl, ?_, ?_⟩
  · intro e he
    rw [List.mem_filterMap] at he
    obtain ⟨p, hp, hpe⟩ := he
    by_cases h0 : p.1.faces.length = 0
    · rw [if_pos h0] at hpe; exact absurd hpe (by simp)
    · rw [if_neg h0] at hpe
      obtain rfl : (sortRangeById p.1, p.2) = e := Option.some.inj hpe
      obtain ⟨hp1, hp2⟩ := List.of_mem_zip hp
      have hwf_p : p.1.ids.length = p.1.faces.length := hswf p.1 hp1
      obtain ⟨i, hi, hie⟩ := List.mem_map.mp hp2
      rw [List.mem_range] at hi
      have hfl : (sortRangeById p.1).faces.length = p.1.faces.length := by
        unfold sortRangeById
        simp only [List.length_map]
        rw [(List.perm_insertionSort idLeR _).length_eq]
        rw [List.length_zip, hwf_p, Nat.min_self]
      obtain ⟨_, hwf_s⟩ := sortRangeById_spec p.1 hwf_p
      refine ⟨⟨i, hi, hie.symm⟩, ?_, hwf_s⟩
      show 1 ≤ (sortRangeById p.1).faces.length
      rw [hfl]
      omega
  · calc (List.filterMap _ _).length ≤ _ := List.length_filterMap_le _ _
      _ ≤ d := by
        rw [List.length_zip, hlen, List.length_map, List.length_range]
        omega

theorem slice_length_le (die : List String) (i l : Nat) :
    ((die.drop i).take l).length ≤ l := by
  rw [List.length_take]; omega

/-- Invariant of the partition result entries, over any divisor list whose
members are at most `die.length`. -/
theorem partition_entries_struct (die : List String) (divs : List Nat)
    (hdivs : ∀ d ∈ divs, 1 ≤ d ∧ d ≤ die.length) :
    ∀ (st : List TossRange × List (TossRange × List String)), WfRanges st.1 →
      (∀ e ∈ st.2, (e.2.length < die.length ∨ e.2 = die) ∧
        e.2 ∈ allSlices die ∧ 1 ≤ e.1.faces.length ∧
        e.1.ids.length = e.1.faces.length) →
      ∀ e ∈ (divs.foldl (divisorPass die) st).2,
        (e.2.length < die.length ∨ e.2 = die) ∧
        e.2 ∈ allSlices die ∧ 1 ≤ e.1.faces.length ∧
        e.1.ids.length = e.1.faces.length := by
  induction divs with
  | nil => intro st _ hinv e he; exact hinv e he
  | cons d rest ih =>
    intro st hwf hinv e he
    rw [List.foldl_cons] at he
    have hd := hdivs d (List.mem_cons_self _ _)
    obtain ⟨added, hadd, hae, _⟩ := divisorPass_added die st d hwf
    have hwf' : WfRanges (divisorPass die st d).1 := by
      obtain ⟨_, hw, _⟩ := divisorPass_spec die st d hwf
        (by intro x hx; exact (hinv x hx).2.2.2)
      exact hw
    refine ih (fun x hx => hdivs x (List.mem_cons_of_mem _ hx)) (divisorPass die st d)
      hwf' ?_ e he
    intro e' he'
    rw [hadd] at he'
    rcases List.mem_append.mp he' with h | h
    · exact hinv e' h
    · obtain ⟨⟨i, hi, hie⟩, hf1, hwfe⟩ := hae e' h
      refine ⟨?_, ?_, hf1, hwfe⟩
      · by_cases hd1 : d = 1
        · subst hd1
          right
          rw [hie]
          have : i = 0 := by omega
          subst this
          rw [Nat.zero_mul, List.drop_zero, Nat.div_one, List.take_length]
        · left
          calc e'.2.length ≤ die.length / d := hie ▸ slice_length_le die _ _
            _ < die.length := Nat.div_lt_self (by omega) (by omega)
      · rw [hie]
        exact mem_allSlices die _ _

theorem partitionTosses_entries (tosses : List TossRange) (die : List String)
    (hwf : WfRanges tosses) (_hb : 1 ≤ die.length) :
    ∀ e ∈ partitionTosses tosses die,
      (e.2.length < die.length ∨ e.2 = die) ∧
      e.2 ∈ allSlices die ∧ 1 ≤ e.1.faces.length ∧
      e.1.ids.length = e.1.faces.length := by
  unfold partitionTosses
  intro e he
  refine partition_entries_struct die (getDivisors die.length) ?_ (tosses, []) hwf ?_ e he
  · intro d hd
    have := (mem_getDivisors die.length d).mp hd
    exact ⟨this.1, this.2.1⟩
  · intro x hx
    simp at hx

theorem passClass_len (d : Nat) (st : List TossRange × List TossRange) (tr : TossRange) :
    (passClass d st tr).2.length = st.2.length := by
  unfold passClass
  by_cases h0 : tr.faces.length / d = 0
  · rw [if_pos h0]
  · rw [if_neg h0]
    by_cases hfull : tr.faces.length = d * (tr.faces.length / d)
    · rw [if_pos hfull]
      exact allocToSubs_length _ st.2 tr.faces tr.ids
    · rw [if_neg hfull]
      exact allocToSubs_length _ st.2 tr.faces tr.ids

theorem foldPass_len (d : Nat) :
    ∀ (tosses : List TossRange) (st : List TossRange × List TossRange),
      (tosses.foldl (passClass d) st).2.length = st.2.length := by
  intro tosses
  induction tosses with
  | nil => intro st; rfl
  | cons tr rest ih =>
    intro st
    rw [List.foldl_cons, ih (passClass d st tr), passClass_len]

theorem divisorPass_added_light (die : List String)
    (st : List TossRange × List (TossRange × List String)) (d : Nat) :
    ∃ added, (divisorPass die st d).2 = st.2 ++ added ∧
      (∀ e ∈ added, ∃ i, i < d ∧
        e.2 = (die.drop (i * (die.length / d))).take (die.length / d)) ∧
      added.length ≤ d := by
  have hlen : (st.1.foldl (passClass d) ([], List.replicate d ⟨[], []⟩)).2.length = d := by
    rw [foldPass_len]
    exact List.length_replicate d _
  refine ⟨_, rfl, ?_, ?_⟩
  · intro e he
    rw [List.mem_filterMap] at he
    obtain ⟨p, hp, hpe⟩ := he
    by_cases h0 : p.1.faces.length = 0
    · rw [if_pos h0] at hpe; exact absurd hpe (by simp)
    · rw [if_neg h0] at hpe
      obtain rfl : (sortRangeById p.1, p.2) = e := Option.some.inj hpe
      obtain ⟨_, hp2⟩ := List.of_mem_zip hp
      obtain ⟨i, hi, hie⟩ := List.mem_map.mp hp2
      rw [List.mem_range] at hi
      exact ⟨i, hi, hie.symm⟩
  · calc (List.filterMap _ _).length ≤ _ := List.length_filterMap_le _ _
      _ ≤ d := by
        rw [List.length_zip, hlen, List.length_map, List.length_range]
        omega

theorem partition_full_count_zero (die : List String) (divs : List Nat)
    (hb : 1 ≤ die.length) (hdivs : ∀ d ∈ divs, 2 ≤ d) :
    ∀ st : List TossRange × List (TossRange × List String),
      ((divs.foldl (divisorPass die) st).2.countP
          (fun e => decide (e.2.length = die.length))) =
        st.2.countP (fun e => decide (e.2.length = die.length)) := by
  induction divs with
  | nil => intro st; rfl
  | cons d rest ih =>
    intro st
    rw [List.foldl_cons,
      ih (fun x hx => hdivs x (List.mem_cons_of_mem _ hx)) (divisorPass die st d)]
    obtain ⟨added, hadd, hae, _⟩ := divisorPass_added_light die st d
    rw [hadd, List.countP_append]
    have hz : added.countP (fun e => decide (e.2.length = die.length)) = 0 := by
      rw [List.countP_eq_zero]
      intro e he
      obtain ⟨i, hi, hie⟩ := hae e he
      have hd2 : 2 ≤ d := hdivs d (List.mem_cons_self _ _)
      have : e.2.length < die.length := by
        calc e.2.length ≤ die.length / d := hie ▸ slice_length_le die _ _
          _ < die.length := Nat.div_lt_self (by omega) (by omega)
      simp only [decide_eq_true_eq]
      omega
    rw [hz, Nat.add_zero]

theorem partitionTosses_full_count (tosses : List TossRange) (die : List String)
    (hb : 1 ≤ die.length) :
    (partitionTosses tosses die).countP (fun e => decide (e.2.length = die.length)) ≤ 1 := by
  obtain ⟨ini, hdiv, hini⟩ := getDivisors_concat die.length hb
  unfold partitionTosses
  rw [hdiv, List.foldl_append, List.foldl_cons, List.foldl_nil]
  obtain ⟨added, hadd, _, hlen1⟩ := divisorPass_added_light die
    (ini.foldl (divisorPass die) (tosses, [])) 1
  rw [hadd, List.countP_append]
  have h0 : ((ini.foldl (divisorPass die) (tosses, [])).2.countP
      (fun e => decide (e.2.length = die.length))) = 0 := by
    rw [partition_full_count_zero die ini hb (fun d hd => (hini d hd).1) (tosses, [])]
    rfl
  rw [h0, Nat.zero_add]
  calc added.countP _ ≤ added.length := List.countP_le_length _
    _ ≤ 1 := hlen1

theorem generateTosses_wf (faces : List String) (u : Bool) (t : Nat)
    (hn : 1 ≤ faces.length) : WfRanges (generateTosses faces u t) :=
  fun tr htr => (mem_generateTosses faces u t hn tr htr).2.2.1

theorem partition_entries_fullsize (die : List String) (divs : List Nat)
    (hdivs : ∀ d ∈ divs, 1 ≤ d) :
    ∀ st : List TossRange × List (TossRange × List String),
      (∀ e ∈ st.2, e.2.length < die.length ∨ e.2 = die) →
      ∀ e ∈ (divs.foldl (divisorPass die) st).2, e.2.length < die.length ∨ e.2 = die := by
  induction divs with
  | nil => intro st hinv e he; exact hinv e he
  | cons d rest ih =>
    intro st hinv e he
    rw [List.foldl_cons] at he
    refine ih (fun x hx => hdivs x (List.mem_cons_of_mem _ hx)) (divisorPass die st d) ?_ e he
    intro e' he'
    obtain ⟨added, hadd, hae, _⟩ := divisorPass_added_light die st d
    rw [hadd] at he'
    rcases List.mem_append.mp he' with h | h
    · exact hinv e' h
    · obtain ⟨i, hi, hie⟩ := hae e' h
      by_cases hd1 : d = 1
      · subst hd1
        right
        rw [hie]
        have : i = 0 := by omega
        subst this
        rw [Nat.zero_mul, List.drop_zero, Nat.div_one, List.take_length]
      · have hd2 : 2 ≤ d := by
          have := hdivs d (List.mem_cons_self _ _)
          omega
        by_cases hb0 : die.length = 0
        · right
          rw [hie]
          have hdie : die = [] := List.eq_nil_of_length_eq_zero hb0
          rw [hdie]
          simp
        · left
          calc e'.2.length ≤ die.length / d := hie ▸ slice_length_le die _ _
            _ < die.length := Nat.div_lt_self (by omega) (by omega)

/-- C2: for every source die with at least two faces, every target die with
at least two faces, every `makeFair` flag and every `throws ≥ 1`, the
partition map built by `getConversion` via
`partitionTosses (generateTosses …)` is a complete non-overlapping cover:
each id in `[0, sourceFaceCount ^ throws)` has total count 1 over all
toss-ranges of the map, so it occurs in exactly one range and in no range
twice. -/
theorem claim_C2_cover (dieA dieB : List String) (makeFair : Bool) (throws : Nat)
    (hA : 2 ≤ dieA.length) (hB : 2 ≤ dieB.length) (_ht : 1 ≤ throws) (id : Nat)
    (hid : id < dieA.length ^ throws) :
    (entriesIds (partitionTosses (generateTosses dieA makeFair throws) dieB)).count id
      = 1 := by
  have hn : 1 ≤ dieA.length := by omega
  obtain ⟨hcons, _⟩ := partitionTosses_conservation (generateTosses dieA makeFair throws)
    dieB (generateTosses_wf dieA makeFair throws hn) (by omega)
  have hcount : (entriesIds (partitionTosses (generateTosses dieA makeFair throws)
        dieB)).count id = (classIds (generateTosses dieA makeFair throws)).count id := by
    have h := congrArg (Multiset.count id) hcons
    simpa [Multiset.coe_count] using h
  rw [hcount, (classIds_generateTosses_perm dieA makeFair throws hn).count_eq]
  exact List.count_eq_one_of_mem (List.nodup_range _) (List.mem_range.mpr hid)

/-- Witness for C2 at a concrete input: a fair coin converted to a coin with
`makeFair = true` and one throw; id 0 is covered exactly once. -/
theorem claim_C2_cover_witness :
    (2 ≤ (["H", "T"] : List String).length) ∧ (1 ≤ 1) ∧
      (0 < (["H", "T"] : List String).length ^ 1) ∧
      (entriesIds (partitionTosses (generateTosses ["H", "T"] true 1)
        ["H", "T"])).count 0 = 1 :=
  ⟨by decide, le_rfl, by decide,
    claim_C2_cover ["H", "T"] ["H", "T"] true 1 (by decide) (by decide) le_rfl 0 (by decide)⟩

/-- C10: for every call of `partitionTosses` with a die of at least one face,
at most one entry of the returned map has a full-size sub-die, and a
full-size sub-die is the whole target die (only the divisor-1 pass can build
one, and it builds exactly one sub-die); hence the single assignment to
`sizeB` in `getConversion` is well defined. -/
theorem claim_C10_single_full_entry (tosses : List TossRange) (die : List String)
    (hb : 1 ≤ die.length) :
    (partitionTosses tosses die).countP (fun e => decide (e.2.length = die.length)) ≤ 1 ∧
    ∀ e ∈ partitionTosses tosses die, e.2.length = die.length → e.2 = die := by
  refine ⟨partitionTosses_full_count tosses die hb, ?_⟩
  intro e he hlen
  have hstruct := partition_entries_fullsize die (getDivisors die.length)
    (fun d hd => ((mem_getDivisors die.length d).mp hd).1) (tosses, [])
    (by intro x hx; simp at hx) e he
  rcases hstruct with h | h
  · omega
  · exact h

/-- Witness for C10 at a concrete input. -/
theorem claim_C10_single_full_entry_witness :
    (1 ≤ (["H", "T"] : List String).length) ∧
    ((partitionTosses (generateTosses ["H", "T"] true 1) ["H", "T"]).countP
        (fun e => decide (e.2.length = (["H", "T"] : List String).length)) ≤ 1 ∧
      ∀ e ∈ partitionTosses (generateTosses ["H", "T"] true 1) ["H", "T"],
        e.2.length = (["H", "T"] : List String).length → e.2 = ["H", "T"]) :=
  ⟨by decide, claim_C10_single_full_entry (generateTosses ["H", "T"] true 1)
    ["H", "T"] (by decide)⟩

/-! ## Engine-level lemmas -/

theorem entryFold_none (bestF : List String → List String → Bool → Option ConversionRule)
    (dieA dieB : List String) (mf : Bool) (t : Nat) (sizeA : ℚ) :
    ∀ parts : List (TossRange × List String),
      parts.foldl (entryStep bestF dieA dieB mf t sizeA) none = none := by
  intro parts
  induction parts with
  | nil => rfl
  | cons e rest ih => rw [List.foldl_cons]; exact ih

theorem entryFold_spec (bestF : List String → List String → Bool → Option ConversionRule)
    (dieA dieB : List String) (mf : Bool) (t : Nat) (sizeA : ℚ) :
    ∀ (parts : List (TossRange × List String)) (st st' : ConvState),
      parts.foldl (entryStep bestF dieA dieB mf t sizeA) (some st) = some st' →
      ∃ new, st'.entries = st.entries ++ new ∧
        st'.z = new.foldl (branchZ sizeA t) st.z ∧
        st'.sizeB = new.foldl (fun s e => match e.2 with
          | Branch.selfRepeat => e.1.faces.length
          | _ => s) st.sizeB := by
  intro parts
  induction parts with
  | nil =>
    intro st st' h
    obtain rfl : st = st' := Option.some.inj h
    exact ⟨[], by simp, rfl, rfl⟩
  | cons e rest ih =>
    intro st st' h
    rw [List.foldl_cons] at h
    by_cases hrep : e.2.length = dieB.length
    · have hstep : entryStep bestF dieA dieB mf t sizeA (some st) e =
          some ⟨st.entries ++ [(e.1, Branch.selfRepeat)], st.z, e.1.faces.length⟩ := by
        unfold entryStep
        rw [Option.some_bind, if_pos hrep]
      rw [hstep] at h
      obtain ⟨new, h1, h2, h3⟩ := ih _ st' h
      refine ⟨(e.1, Branch.selfRepeat) :: new, ?_, ?_, ?_⟩
      · rw [h1]; simp
      · rw [h2]; rfl
      · rw [h3]; rfl
    · by_cases hterm : e.2.length = 1
      · have hstep : entryStep bestF dieA dieB mf t sizeA (some st) e =
            some ⟨st.entries ++ [(e.1, Branch.terminal (e.2.getD 0 ""))],
              oAdd st.z (some ((e.1.faces.length : ℚ) / sizeA * (t : ℚ))), st.sizeB⟩ := by
          unfold entryStep
          rw [Option.some_bind, if_neg hrep, if_pos hterm]
        rw [hstep] at h
        obtain ⟨new, h1, h2, h3⟩ := ih _ st' h
        refine ⟨(e.1, Branch.terminal (e.2.getD 0 "")) :: new, ?_, ?_, ?_⟩
        · rw [h1]; simp
        · rw [h2]; rfl
        · rw [h3]; rfl
      · cases hbf : bestF dieA e.2 mf with
        | none =>
          have hstep : entryStep bestF dieA dieB mf t sizeA (some st) e = none := by
            unfold entryStep
            rw [Option.some_bind, if_neg hrep, if_neg hterm, hbf]
          rw [hstep, entryFold_none] at h
          exact absurd h (by simp)
        | some sub =>
          have hstep : entryStep bestF dieA dieB mf t sizeA (some st) e =
              some ⟨st.entries ++ [(e.1, Branch.reduce sub)],
                oAdd st.z (oScale ((e.1.faces.length : ℚ) / sizeA)
                  (oAdd (some (t : ℚ)) sub.expectation)), st.sizeB⟩ := by
            unfold entryStep
            rw [Option.some_bind, if_neg hrep, if_neg hterm, hbf]
          rw [hstep] at h
          obtain ⟨new, h1, h2, h3⟩ := ih _ st' h
          refine ⟨(e.1, Branch.reduce sub) :: new, ?_, ?_, ?_⟩
          · rw [h1]; simp
          · rw [h2]; rfl
          · rw [h3]; rfl

theorem convStep_some (bestF : List String → List String → Bool → Option ConversionRule)
    (dieA dieB : List String) (mf : Bool) (t : Nat) (c : ConversionRule)
    (h : convStep bestF dieA dieB mf t = some c) :
    ∃ st' : ConvState,
      (partitionTosses (generateTosses dieA mf t) dieB).foldl
        (entryStep bestF dieA dieB mf t ((dieA.length ^ t : ℕ) : ℚ)) (some ⟨[], some 0, 0⟩) =
        some st' ∧
      c = ConversionRule.mk dieA dieB mf t st'.entries
        (match st'.z with
         | none => none
         | some z => jsDiv (((dieA.length ^ t : ℕ) : ℚ) * z + (st'.sizeB : ℚ) * (t : ℚ))
             (((dieA.length ^ t : ℕ) : ℚ) - (st'.sizeB : ℚ))) := by
  unfold convStep at h
  obtain ⟨st', hfold⟩ : ∃ st',
      (partitionTosses (generateTosses dieA mf t) dieB).foldl
        (entryStep bestF dieA dieB mf t ((dieA.length ^ t : ℕ) : ℚ))
        (some ⟨[], some 0, 0⟩) = some st' := by
    cases hf : (partitionTosses (generateTosses dieA mf t) dieB).foldl
        (entryStep bestF dieA dieB mf t ((dieA.length ^ t : ℕ) : ℚ))
        (some ⟨[], some 0, 0⟩) with
    | none => rw [hf] at h; exact absurd h (by simp)
    | some st' => exact ⟨st', rfl⟩
  rw [hfold] at h
  exact ⟨st', hfold, (Option.some.inj h).symm⟩

theorem getConversionF_fields (fuel : Nat) (dieA dieB : List String) (mf : Bool) (t : Nat)
    (c : ConversionRule) (h : getConversionF fuel dieA dieB mf t = some c) :
    c.dieA = dieA ∧ c.dieB = dieB ∧ c.makeFair = mf ∧ c.throws = t := by
  cases fuel with
  | zero => rw [getConversionF_zero] at h; exact absurd h (by simp)
  | succ fuel =>
    rw [getConversionF_succ] at h
    obtain ⟨st', _, rfl⟩ := convStep_some _ dieA dieB mf t c h
    exact ⟨rfl, rfl, rfl, rfl⟩

/-- C3: for every `ConversionRule` built by `getConversion`, the stored
expectation equals `(a·z + sizeB·throws) / (a − sizeB)` — with the JS
division that yields `+Infinity` (modelled `none`) on a zero denominator —
where `a = sourceFaceCount ^ throws`, `sizeB` is the number of outcomes in
the repeat branch, and `z` is the sum over all non-repeat branches of
`(branchSize/a) * (throws + branchExpectation)`, with `branchExpectation = 0`
for terminal branches and the stored recursively computed best expectation
for reduction branches. -/
theorem claim_C3_expectation_formula (fuel : Nat) (dieA dieB : List String)
    (makeFair : Bool) (throws : Nat) (c : ConversionRule)
    (h : getConversionF fuel dieA dieB makeFair throws = some c) :
    c.expectation =
      match zOfEntries ((dieA.length ^ throws : ℕ) : ℚ) throws c.conversions with
      | none => none
      | some z => jsDiv (((dieA.length ^ throws : ℕ) : ℚ) * z +
            (sizeBOfEntries c.conversions : ℚ) * (throws : ℚ))
          (((dieA.length ^ throws : ℕ) : ℚ) - (sizeBOfEntries c.conversions : ℚ)) := by
  cases fuel with
  | zero => rw [getConversionF_zero] at h; exact absurd h (by simp)
  | succ fuel =>
    rw [getConversionF_succ] at h
    obtain ⟨st', hfold, rfl⟩ := convStep_some _ dieA dieB makeFair throws c h
    obtain ⟨new, h1, h2, h3⟩ := entryFold_spec _ dieA dieB makeFair throws _ _ _ _ hfold
    have hents : st'.entries = new := by simpa using h1
    show (match st'.z with
      | none => none
      | some z => jsDiv (((dieA.length ^ throws : ℕ) : ℚ) * z +
            (st'.sizeB : ℚ) * (throws : ℚ))
          (((dieA.length ^ throws : ℕ) : ℚ) - (st'.sizeB : ℚ))) = _
    rw [h2, h3, ← hents]
    rfl

/-- Witness for C3 at a concrete input (one throw of a coin against an empty
target die: the rule stores expectation 0, matching the formula). -/
theorem claim_C3_expectation_formula_witness :
    getConversionF 1 ["H", "T"] [] false 1 =
      some (ConversionRule.mk ["H", "T"] [] false 1 [] (some 0)) ∧
    (ConversionRule.mk ["H", "T"] [] false 1 [] (some 0)).expectation =
      match zOfEntries (((["H", "T"] : List String).length ^ 1 : ℕ) : ℚ) 1
          (ConversionRule.mk ["H", "T"] [] false 1 [] (some 0)).conversions with
      | none => none
      | some z => jsDiv ((((["H", "T"] : List String).length ^ 1 : ℕ) : ℚ) * z +
            (sizeBOfEntries (ConversionRule.mk ["H", "T"] [] false 1 []
              (some 0)).conversions : ℚ) * ((1 : ℕ) : ℚ))
          ((((["H", "T"] : List String).length ^ 1 : ℕ) : ℚ) -
            (sizeBOfEntries (ConversionRule.mk ["H", "T"] [] false 1 []
              (some 0)).conversions : ℚ)) := by
  have h : getConversionF 1 ["H", "T"] [] false 1 =
      some (ConversionRule.mk ["H", "T"] [] false 1 [] (some 0)) := by
    rw [getConversionF_succ]
    unfold convStep
    have hparts : partitionTosses (generateTosses ["H", "T"] false 1) [] = [] := by decide
    rw [hparts]
    simp only [List.foldl_nil, Option.map_some]
    norm_num [jsDiv]
  exact ⟨h, claim_C3_expectation_formula 1 ["H", "T"] [] false 1 _ h⟩

theorem initLoop_mono :
    ∀ (fuel a b total t r : Nat), initLoop fuel a b total t = some r →
      initLoop (fuel + 1) a b total t = some r := by
  intro fuel
  induction fuel with
  | zero => intro a b total t r h; exact absurd h (by simp [initLoop])
  | succ fuel ih =>
    intro a b total t r h
    rw [show initLoop (fuel + 1 + 1) a b total t =
      if total < b then initLoop (fuel + 1) a b (total * a) (t + 1) else some t from rfl]
    rw [show initLoop (fuel + 1) a b total t =
      if total < b then initLoop fuel a b (total * a) (t + 1) else some t from rfl] at h
    by_cases hc : total < b
    · rw [if_pos hc] at h ⊢
      exact ih _ _ _ _ _ h
    · rw [if_neg hc] at h ⊢
      exact h

theorem entryFold_mono (bestF bestF' : List String → List String → Bool → Option ConversionRule)
    (hm : ∀ A B mf c, bestF A B mf = some c → bestF' A B mf = some c)
    (dieA dieB : List String) (mf : Bool) (t : Nat) (sizeA : ℚ) :
    ∀ (parts : List (TossRange × List String)) (st st' : ConvState),
      parts.foldl (entryStep bestF dieA dieB mf t sizeA) (some st) = some st' →
      parts.foldl (entryStep bestF' dieA dieB mf t sizeA) (some st) = some st' := by
  intro parts
  induction parts with
  | nil => intro st st' h; exact h
  | cons e rest ih =>
    intro st st' h
    rw [List.foldl_cons] at h ⊢
    by_cases hrep : e.2.length = dieB.length
    · have hs : ∀ bf, entryStep bf dieA dieB mf t sizeA (some st) e =
          some ⟨st.entries ++ [(e.1, Branch.selfRepeat)], st.z, e.1.faces.length⟩ := by
        intro bf
        unfold entryStep
        rw [Option.some_bind, if_pos hrep]
      rw [hs bestF']
      rw [hs bestF] at h
      exact ih _ st' h
    · by_cases hterm : e.2.length = 1
      · have hs : ∀ bf, entryStep bf dieA dieB mf t sizeA (some st) e =
            some ⟨st.entries ++ [(e.1, Branch.terminal (e.2.getD 0 ""))],
              oAdd st.z (some ((e.1.faces.length : ℚ) / sizeA * (t : ℚ))), st.sizeB⟩ := by
          intro bf
          unfold entryStep
          rw [Option.some_bind, if_neg hrep, if_pos hterm]
        rw [hs bestF']
        rw [hs bestF] at h
        exact ih _ st' h
      · cases hbf : bestF dieA e.2 mf with
        | none =>
          have hstep : entryStep bestF dieA dieB mf t sizeA (some st) e = none := by
            unfold entryStep
            rw [Option.some_bind, if_neg hrep, if_neg hterm, hbf]
          rw [hstep, entryFold_none] at h
          exact absurd h (by simp)
        | some sub =>
          have hstep : entryStep bestF dieA dieB mf t sizeA (some st) e =
              some ⟨st.entries ++ [(e.1, Branch.reduce sub)],
                oAdd st.z (oScale ((e.1.faces.length : ℚ) / sizeA)
                  (oAdd (some (t : ℚ)) sub.expectation)), st.sizeB⟩ := by
            unfold entryStep
            rw [Option.some_bind, if_neg hrep, if_neg hterm, hbf]
          have hstep' : entryStep bestF' dieA dieB mf t sizeA (some st) e =
              some ⟨st.entries ++ [(e.1, Branch.reduce sub)],
                oAdd st.z (oScale ((e.1.faces.length : ℚ) / sizeA)
                  (oAdd (some (t : ℚ)) sub.expectation)), st.sizeB⟩ := by
            unfold entryStep
            rw [Option.some_bind, if_neg hrep, if_neg hterm, hm dieA e.2 mf sub hbf]
          rw [hstep] at h
          rw [hstep']
          exact ih _ st' h

theorem convStep_mono (bestF bestF' : List String → List String → Bool → Option ConversionRule)
    (hm : ∀ A B mf c, bestF A B mf = some c → bestF' A B mf = some c)
    (dieA dieB : List String) (mf : Bool) (t : Nat) (c : ConversionRule)
    (h : convStep bestF dieA dieB mf t = some c) :
    convStep bestF' dieA dieB mf t = some c := by
  obtain ⟨st', hfold, rfl⟩ := convStep_some bestF dieA dieB mf t c h
  unfold convStep
  rw [entryFold_mono bestF bestF' hm dieA dieB mf t _ _ _ _ hfold]
  rfl

theorem engine_mono : ∀ fuel : Nat,
    (∀ A B mf t c, getConversionF fuel A B mf t = some c →
      getConversionF (fuel + 1) A B mf t = some c) ∧
    (∀ A B mf c, getBestConversionF fuel A B mf = some c →
      getBestConversionF (fuel + 1) A B mf = some c) ∧
    (∀ A B mf t best c, bestLoopF fuel A B mf t best = some c →
      bestLoopF (fuel + 1) A B mf t best = some c) := by
  intro fuel
  induction fuel with
  | zero =>
    refine ⟨?_, ?_, ?_⟩
    · intro A B mf t c h; exact absurd (getConversionF_zero A B mf t ▸ h) (by simp)
    · intro A B mf c h; exact absurd (getBestConversionF_zero A B mf ▸ h) (by simp)
    · intro A B mf t best c h; exact absurd (bestLoopF_zero A B mf t best ▸ h) (by simp)
  | succ fuel ih =>
    obtain ⟨ihc, ihb, ihl⟩ := ih
    refine ⟨?_, ?_, ?_⟩
    · intro A B mf t c h
      rw [getConversionF_succ] at h ⊢
      exact convStep_mono _ _ ihb A B mf t c h
    · intro A B mf c h
      rw [getBestConversionF_succ] at h ⊢
      rw [Option.bind_eq_some] at h
      obtain ⟨t0, hinit, hloop⟩ := h
      rw [Option.bind_eq_some]
      exact ⟨t0, initLoop_mono _ _ _ _ _ _ hinit, ihl A B mf t0 none c hloop⟩
    · intro A B mf t best c h
      rw [bestLoopF_succ] at h ⊢
      unfold loopStep at h ⊢
      cases hconv : getConversionF fuel A B mf t with
      | none =>
        rw [show (engineAux fuel).conv A B mf t = getConversionF fuel A B mf t from rfl,
          hconv] at h
        exact absurd h (by simp)
      | some conversion =>
        rw [show (engineAux fuel).conv A B mf t = getConversionF fuel A B mf t from rfl,
          hconv] at h
        rw [show (engineAux (fuel + 1)).conv A B mf t = getConversionF (fuel + 1) A B mf t
          from rfl, ihc A B mf t conversion hconv]
        simp only at h ⊢
        by_cases hbreak : oGeB ((t : ℚ) + 1)
            (match best with
             | none => conversion
             | some b => if oLtB conversion.expectation b.expectation then conversion
                else b).expectation = true
        · rw [if_pos hbreak] at h
          rw [if_pos hbreak]
          exact h
        · rw [if_neg hbreak] at h
          rw [if_neg hbreak]
          exact ihl A B mf (t + 1) _ c h

theorem getBestConversionF_mono_add :
    ∀ (k fuel : Nat) (A B : List String) (mf : Bool) (c : ConversionRule),
      getBestConversionF fuel A B mf = some c → getBestConversionF (fuel + k) A B mf = some c := by
  intro k
  induction k with
  | zero => intro fuel A B mf c h; exact h
  | succ k ih =>
    intro fuel A B mf c h
    rw [show fuel + (k + 1) = (fuel + k) + 1 by omega]
    exact (engine_mono (fuel + k)).2.1 A B mf c (ih fuel A B mf c h)

theorem getBestConversionF_mono_le (f f' : Nat) (h : f ≤ f') (A B : List String) (mf : Bool)
    (c : ConversionRule) (hs : getBestConversionF f A B mf = some c) :
    getBestConversionF f' A B mf = some c := by
  obtain ⟨k, rfl⟩ := Nat.exists_eq_add_of_le h
  exact getBestConversionF_mono_add k f A B mf c hs

theorem getConversionF_mono_add :
    ∀ (k fuel : Nat) (A B : List String) (mf : Bool) (t : Nat) (c : ConversionRule),
      getConversionF fuel A B mf t = some c → getConversionF (fuel + k) A B mf t = some c := by
  intro k
  induction k with
  | zero => intro fuel A B mf t c h; exact h
  | succ k ih =>
    intro fuel A B mf t c h
    rw [show fuel + (k + 1) = (fuel + k) + 1 by omega]
    exact (engine_mono (fuel + k)).1 A B mf t c (ih fuel A B mf t c h)

theorem getConversionF_mono_le (f f' : Nat) (h : f ≤ f') (A B : List String) (mf : Bool)
    (t : Nat) (c : ConversionRule) (hs : getConversionF f A B mf t = some c) :
    getConversionF f' A B mf t = some c := by
  obtain ⟨k, rfl⟩ := Nat.exists_eq_add_of_le h
  exact getConversionF_mono_add k f A B mf t c hs

theorem bestLoopF_succ_eq (fuel : Nat) (A B : List String) (mf : Bool) (t : Nat)
    (best : Option ConversionRule) :
    bestLoopF (fuel + 1) A B mf t best =
      match getConversionF fuel A B mf t with
      | none => none
      | some conversion =>
        if oGeB ((t : ℚ) + 1) (match best with
            | none => conversion
            | some b => if oLtB conversion.expectation b.expectation then conversion
                else b).expectation then
          some (match best with
            | none => conversion
            | some b => if oLtB conversion.expectation b.expectation then conversion
                else b)
        else bestLoopF fuel A B mf (t + 1) (some (match best with
            | none => conversion
            | some b => if oLtB conversion.expectation b.expectation then conversion
                else b)) := rfl

theorem initLoop_spec :
    ∀ (fuel a b total t r : Nat), initLoop fuel a b total t = some r →
      t ≤ r ∧ (total = a ^ t → b ≤ a ^ r) := by
  intro fuel
  induction fuel with
  | zero => intro a b total t r h; exact absurd h (by simp [initLoop])
  | succ fuel ih =>
    intro a b total t r h
    rw [show initLoop (fuel + 1) a b total t =
      if total < b then initLoop fuel a b (total * a) (t + 1) else some t from rfl] at h
    by_cases hc : total < b
    · rw [if_pos hc] at h
      obtain ⟨h1, h2⟩ := ih a b (total * a) (t + 1) r h
      refine ⟨by omega, ?_⟩
      intro hpow
      exact h2 (by rw [hpow, pow_succ])
    · rw [if_neg hc] at h
      obtain rfl : t = r := Option.some.inj h
      exact ⟨le_rfl, fun hpow => by omega⟩

theorem initLoop_term (a b : Nat) (ha : 2 ≤ a) :
    ∀ (m total t : Nat), b - total ≤ m → 1 ≤ total →
      ∃ fuel r, initLoop (fuel + 1) a b total t = some r := by
  intro m
  induction m with
  | zero =>
    intro total t hm h1
    refine ⟨0, t, ?_⟩
    rw [show initLoop 1 a b total t =
      if total < b then initLoop 0 a b (total * a) (t + 1) else some t from rfl]
    rw [if_neg (by omega)]
  | succ m ih =>
    intro total t hm h1
    by_cases hc : total < b
    · have h2 : total + 1 ≤ total * a := by
        calc total + 1 ≤ total + total := by omega
          _ = total * 2 := by ring
          _ ≤ total * a := Nat.mul_le_mul_left total ha
      obtain ⟨fuel, r, hfr⟩ := ih (total * a) (t + 1) (by omega) (by omega)
      refine ⟨fuel + 1, r, ?_⟩
      rw [show initLoop (fuel + 1 + 1) a b total t =
        if total < b then initLoop (fuel + 1) a b (total * a) (t + 1) else some t from rfl]
      rw [if_pos hc]
      exact hfr
    · refine ⟨0, t, ?_⟩
      rw [show initLoop 1 a b total t =
        if total < b then initLoop 0 a b (total * a) (t + 1) else some t from rfl]
      rw [if_neg hc]

theorem bestLoopF_finite :
    ∀ (fuel : Nat) (A B : List String) (mf : Bool) (t : Nat)
      (best : Option ConversionRule) (c : ConversionRule),
      bestLoopF fuel A B mf t best = some c → ∃ q : ℚ, c.expectation = some q := by
  intro fuel
  induction fuel with
  | zero => intro A B mf t best c h; exact absurd (bestLoopF_zero A B mf t best ▸ h) (by simp)
  | succ fuel ih =>
    intro A B mf t best c h
    rw [bestLoopF_succ_eq] at h
    cases hconv : getConversionF fuel A B mf t with
    | none => rw [hconv] at h; exact absurd h (by simp)
    | some conversion =>
      rw [hconv] at h
      simp only at h
      set best' := (match best with
        | none => conversion
        | some b => if oLtB conversion.expectation b.expectation then conversion else b)
        with hbest'
      by_cases hbreak : oGeB ((t : ℚ) + 1) best'.expectation = true
      · rw [if_pos hbreak] at h
        have hc : best' = c := Option.some.inj h
        cases hexp : best'.expectation with
        | none => rw [hexp] at hbreak; exact absurd hbreak (by simp [oGeB])
        | some q => exact ⟨q, hc ▸ hexp⟩
      · rw [if_neg hbreak] at h
        exact ih A B mf (t + 1) _ c h

theorem bestLoopF_origin :
    ∀ (fuel : Nat) (A B : List String) (mf : Bool) (t : Nat)
      (best : Option ConversionRule) (c : ConversionRule),
      bestLoopF fuel A B mf t best = some c →
      (∃ b0, best = some b0 ∧ c = b0) ∨
      (∃ t' f', t ≤ t' ∧ f' < fuel ∧ getConversionF f' A B mf t' = some c) := by
  intro fuel
  induction fuel with
  | zero => intro A B mf t best c h; exact absurd (bestLoopF_zero A B mf t best ▸ h) (by simp)
  | succ fuel ih =>
    intro A B mf t best c h
    rw [bestLoopF_succ_eq] at h
    cases hconv : getConversionF fuel A B mf t with
    | none => rw [hconv] at h; exact absurd h (by simp)
    | some conversion =>
      rw [hconv] at h
      simp only at h
      set best' := (match best with
        | none => conversion
        | some b => if oLtB conversion.expectation b.expectation then conversion else b)
        with hbest'
      have hcases : best' = conversion ∨ ∃ b0, best = some b0 ∧ best' = b0 := by
        rw [hbest']
        cases best with
        | none => exact Or.inl rfl
        | some b0 =>
          simp only
          by_cases hlt : oLtB conversion.expectation b0.expectation = true
          · rw [if_pos hlt]
            exact Or.inl rfl
          · rw [if_neg hlt]
            exact Or.inr ⟨b0, rfl, rfl⟩
      by_cases hbreak : oGeB ((t : ℚ) + 1) best'.expectation = true
      · rw [if_pos hbreak] at h
        have hc : best' = c := Option.some.inj h
        rcases hcases with hx | ⟨b0, hb0, hx⟩
        · exact Or.inr ⟨t, fuel, le_rfl, Nat.lt_succ_self _, by rw [← hc, hx]; exact hconv⟩
        · exact Or.inl ⟨b0, hb0, by rw [← hc, hx]⟩
      · rw [if_neg hbreak] at h
        rcases ih A B mf (t + 1) _ c h with ⟨b0, hb0, hx⟩ | ⟨t', f', ht', hf', hc'⟩
        · have hb0' : best' = b0 := Option.some.inj hb0
          rcases hcases with hx' | ⟨b1, hb1, hx'⟩
          · refine Or.inr ⟨t, fuel, le_rfl, Nat.lt_succ_self _, ?_⟩
            rw [hx, ← hb0', hx']
            exact hconv
          · exact Or.inl ⟨b1, hb1, by rw [hx, ← hb0', hx']⟩
        · exact Or.inr ⟨t', f', by omega, by omega, hc'⟩

theorem entrySizeSum_append (R₁ R₂ : List (TossRange × List String))
    (p : TossRange × List String → Bool) :
    entrySizeSum (R₁ ++ R₂) p = entrySizeSum R₁ p + entrySizeSum R₂ p := by
  unfold entrySizeSum
  rw [List.filter_append, List.map_append, List.sum_append]

theorem entrySizeSum_split (R : List (TossRange × List String))
    (p : TossRange × List String → Bool) :
    entrySizeSum R p + entrySizeSum R (fun e => !(p e)) =
      (R.map (fun e => e.1.ids.length)).sum := by
  induction R with
  | nil => rfl
  | cons e rest ih =>
    unfold entrySizeSum at ih ⊢
    rw [List.map_cons, List.sum_cons]
    by_cases hp : p e = true
    · rw [List.filter_cons_of_pos hp, List.filter_cons_of_neg (by simp [hp])]
      rw [List.map_cons, List.sum_cons]
      omega
    · rw [List.filter_cons_of_neg hp, List.filter_cons_of_pos (by simp at hp; simp [hp])]
      rw [List.map_cons, List.sum_cons]
      omega

theorem entriesIds_length (R : List (TossRange × List String)) :
    (entriesIds R).length = (R.map (fun e => e.1.ids.length)).sum := by
  unfold entriesIds
  rw [List.length_flatten, List.map_map]
  rfl

theorem classIds_length (L : List TossRange) :
    (classIds L).length = (L.map (fun tr => tr.ids.length)).sum := by
  unfold classIds
  rw [List.length_flatten, List.map_map]
  rfl

theorem passClass_subs_card (d : Nat) (kept subs : List TossRange) (tr : TossRange)
    (hwf : tr.ids.length = tr.faces.length) (hd : subs.length = d) :
    (classIds (passClass d (kept, subs) tr).2).length =
      (classIds subs).length + d * (tr.faces.length / d) := by
  have halloc : (classIds (allocToSubs tr.faces tr.ids (tr.faces.length / d) subs)).length =
      (classIds subs).length + d * (tr.faces.length / d) := by
    have h := allocToSubs_ids (tr.faces.length / d) subs tr.faces tr.ids
    have hcard := congrArg Multiset.card h
    simp only [Multiset.coe_card, Multiset.card_add] at hcard
    rw [hcard, List.length_take, hd]
    have hle : d * (tr.faces.length / d) ≤ tr.ids.length := by
      rw [hwf, Nat.mul_comm]
      exact Nat.div_mul_le_self tr.faces.length d
    rw [Nat.mul_comm d (tr.faces.length / d)] at hle ⊢
    omega
  unfold passClass
  by_cases h0 : tr.faces.length / d = 0
  · rw [if_pos h0, h0, Nat.mul_zero, Nat.add_zero]
  · rw [if_neg h0]
    by_cases hfull : tr.faces.length = d * (tr.faces.length / d)
    · rw [if_pos hfull]
      exact halloc
    · rw [if_neg hfull]
      exact halloc

theorem foldPass_subs_card (d : Nat) :
    ∀ (tosses kept subs : List TossRange), WfRanges tosses → subs.length = d →
      (classIds (tosses.foldl (passClass d) (kept, subs)).2).length =
        (classIds subs).length +
          (tosses.map (fun tr => d * (tr.faces.length / d))).sum := by
  intro tosses
  induction tosses with
  | nil => intro kept subs _ _; simp
  | cons tr rest ih =>
    intro kept subs hwf hd
    have hwf_tr : tr.ids.length = tr.faces.length := hwf tr (List.mem_cons_self _ _)
    have hwf_rest : WfRanges rest := fun t ht => hwf t (List.mem_cons_of_mem _ ht)
    rw [List.foldl_cons]
    have hd1 : (passClass d (kept, subs) tr).2.length = d := by
      rw [passClass_len]; exact hd
    have := ih (passClass d (kept, subs) tr).1 (passClass d (kept, subs) tr).2
      hwf_rest hd1
    rw [show ((passClass d (kept, subs) tr).1, (passClass d (kept, subs) tr).2) =
      passClass d (kept, subs) tr from rfl] at this
    rw [this, passClass_subs_card d kept subs tr hwf_tr hd, List.map_cons, List.sum_cons]
    omega

theorem divisorPass_added_card (die : List String)
    (st : List TossRange × List (TossRange × List String)) (d : Nat)
    (hwf : WfRanges st.1) :
    ∃ added, (divisorPass die st d).2 = st.2 ++ added ∧
      (added.map (fun e => e.1.ids.length)).sum =
        (classIds (st.1.foldl (passClass d) ([], List.replicate d ⟨[], []⟩)).2).length ∧
      ∀ e ∈ added, ∃ i, i < d ∧
        e.2 = (die.drop (i * (die.length / d))).take (die.length / d) := by
  obtain ⟨_, hlen, _, hswf⟩ := foldPass_spec d st.1 [] (List.replicate d ⟨[], []⟩)
    hwf (by intro tr htr; simp at htr) (replicate_empty_wf d) (List.length_replicate d _)
  obtain ⟨added, hadd, hslice, _⟩ := divisorPass_added_light die st d
  refine ⟨added, hadd, ?_, hslice⟩
  have hzlen : (st.1.foldl (passClass d) ([], List.replicate d ⟨[], []⟩)).2.length =
      ((List.range d).map (fun i =>
        (die.drop (i * (die.length / d))).take (die.length / d))).length := by
    rw [hlen, List.length_map, List.length_range]
  obtain ⟨hze, _⟩ := zipEntries_spec
    (st.1.foldl (passClass d) ([], List.replicate d ⟨[], []⟩)).2
    ((List.range d).map (fun i => (die.drop (i * (die.length / d))).take (die.length / d)))
    hswf hzlen
  have hcard := congrArg Multiset.card hze
  simp only [Multiset.coe_card] at hcard
  have h1 : st.2 ++ added = st.2 ++
      (((st.1.foldl (passClass d) ([], List.replicate d ⟨[], []⟩)).2.zip
        ((List.range d).map (fun i =>
          (die.drop (i * (die.length / d))).take (die.length / d)))).filterMap (fun p =>
        if p.1.faces.length = 0 then none else some (sortRangeById p.1, p.2))) := by
    rw [← hadd]
    rfl
  have h2 : added = (((st.1.foldl (passClass d) ([], List.replicate d ⟨[], []⟩)).2.zip
      ((List.range d).map (fun i =>
        (die.drop (i * (die.length / d))).take (die.length / d)))).filterMap (fun p =>
      if p.1.faces.length = 0 then none else some (sortRangeById p.1, p.2))) :=
    List.append_cancel_left h1
  rw [h2, ← entriesIds_length]
  exact hcard

theorem divisorPass_first (die : List String) (tosses : List TossRange)
    (hwf : WfRanges tosses) (hb : 1 ≤ die.length) :
    ∃ added,
      (divisorPass die (tosses, ([] : List (TossRange × List String))) die.length).2 =
        added ∧
      (∀ e ∈ added, e.2.length = 1) ∧
      (added.map (fun e => e.1.ids.length)).sum =
        (tosses.map (fun tr => die.length * (tr.faces.length / die.length))).sum := by
  obtain ⟨added, hadd, hcard, hslice⟩ := divisorPass_added_card die (tosses, []) die.length hwf
  refine ⟨added, by simpa using hadd, ?_, ?_⟩
  · intro e he
    obtain ⟨i, hi, hie⟩ := hslice e he
    rw [hie, Nat.div_self (by omega), Nat.mul_one]
    rw [List.length_take, List.length_drop]
    omega
  · rw [hcard, foldPass_subs_card die.length tosses [] (List.replicate die.length ⟨[], []⟩)
      hwf (List.length_replicate _ _)]
    have : classIds (List.replicate die.length (⟨[], []⟩ : TossRange)) = [] := by
      apply classIds_eq_nil
      intro tr htr
      rw [List.eq_of_mem_replicate htr]
    rw [this]
    simp

theorem foldl_divisorPass_sizeSum_ge (die : List String) (divs : List Nat)
    (p : TossRange × List String → Bool) :
    ∀ st : List TossRange × List (TossRange × List String),
      entrySizeSum st.2 p ≤ entrySizeSum (divs.foldl (divisorPass die) st).2 p := by
  induction divs with
  | nil => intro st; exact le_rfl
  | cons d rest ih =>
    intro st
    rw [List.foldl_cons]
    refine le_trans ?_ (ih (divisorPass die st d))
    obtain ⟨added, hadd, _, _⟩ := divisorPass_added_light die st d
    rw [hadd, entrySizeSum_append]
    omega

theorem partition_total (tosses : List TossRange) (die : List String)
    (hwf : WfRanges tosses) (hb : 1 ≤ die.length) :
    ((partitionTosses tosses die).map (fun e => e.1.ids.length)).sum =
      (classIds tosses).length := by
  obtain ⟨hcons, _⟩ := partitionTosses_conservation tosses die hwf hb
  have hcard := congrArg Multiset.card hcons
  simp only [Multiset.coe_card] at hcard
  rw [← entriesIds_length]
  exact hcard

theorem partition_size_bound (tosses : List TossRange) (die : List String)
    (hwf : WfRanges tosses) (hb : 1 ≤ die.length)
    (p : TossRange × List String → Bool) (hp : ∀ e, e.2.length = 1 → p e = true) :
    (tosses.map (fun tr => die.length * (tr.faces.length / die.length))).sum ≤
      entrySizeSum (partitionTosses tosses die) p := by
  obtain ⟨tl, hdiv, _⟩ := getDivisors_head die.length hb
  unfold partitionTosses
  rw [hdiv, List.foldl_cons]
  refine le_trans ?_ (foldl_divisorPass_sizeSum_ge die tl p _)
  obtain ⟨added, hadd, hone, hsum⟩ := divisorPass_first die tosses hwf hb
  rw [show divisorPass die (tosses, []) die.length =
    ((divisorPass die (tosses, []) die.length).1,
      (divisorPass die (tosses, []) die.length).2) from rfl, hadd]
  show _ ≤ entrySizeSum added p
  unfold entrySizeSum
  rw [List.filter_eq_self.mpr (fun e he => hp e (hone e he))]
  omega

theorem partition_full_sum_bound (tosses : List TossRange) (die : List String)
    (hwf : WfRanges tosses) (hb2 : 2 ≤ die.length) :
    entrySizeSum (partitionTosses tosses die) (fun e => decide (e.2.length = die.length)) +
      (tosses.map (fun tr => die.length * (tr.faces.length / die.length))).sum ≤
      (classIds tosses).length := by
  have hb : 1 ≤ die.length := by omega
  have hbound := partition_size_bound tosses die hwf hb
    (fun e => !(decide (e.2.length = die.length)))
    (fun e he => by
      simp only [he, Bool.not_eq_true', decide_eq_false_iff_not]
      omega)
  have hsplit := entrySizeSum_split (partitionTosses tosses die)
    (fun e => decide (e.2.length = die.length))
  have htot := partition_total tosses die hwf hb
  omega

theorem partition_all_len_one (tosses : List TossRange) (die : List String)
    (hwf : WfRanges tosses) (hb2 : 2 ≤ die.length)
    (halloc : (classIds tosses).length ≤
      (tosses.map (fun tr => die.length * (tr.faces.length / die.length))).sum) :
    ∀ e ∈ partitionTosses tosses die, e.2.length = 1 := by
  have hb : 1 ≤ die.length := by omega
  have hone := partition_size_bound tosses die hwf hb (fun e => decide (e.2.length = 1))
    (fun e he => by simp [he])
  have hsplit := entrySizeSum_split (partitionTosses tosses die)
    (fun e => decide (e.2.length = 1))
  have htot := partition_total tosses die hwf hb
  have hother : entrySizeSum (partitionTosses tosses die)
      (fun e => !(decide (e.2.length = 1))) = 0 := by omega
  intro e he
  by_contra hne
  obtain ⟨_, _, hf1, hwfe⟩ := partitionTosses_entries tosses die hwf hb e he
  have hmem : e ∈ (partitionTosses tosses die).filter
      (fun e => !(decide (e.2.length = 1))) :=
    List.mem_filter.mpr ⟨he, by simp [hne]⟩
  have hle : e.1.ids.length ≤ entrySizeSum (partitionTosses tosses die)
      (fun e => !(decide (e.2.length = 1))) := by
    unfold entrySizeSum
    exact List.single_le_sum (fun x _ => Nat.zero_le x) _
      (List.mem_map_of_mem (fun e => e.1.ids.length) hmem)
  omega

theorem forall2_mem_right {α β : Type} {R : α → β → Prop} :
    ∀ {l₁ : List α} {l₂ : List β}, List.Forall₂ R l₁ l₂ → ∀ b ∈ l₂, ∃ a ∈ l₁, R a b := by
  intro l₁ l₂ h
  induction h with
  | nil => intro b hb; simp at hb
  | cons hr _ ih =>
    intro b hb
    rcases List.mem_cons.mp hb with h1 | h1
    · subst h1
      exact ⟨_, List.mem_cons_self _ _, hr⟩
    · obtain ⟨a, ha, har⟩ := ih b h1
      exact ⟨a, List.mem_cons_of_mem _ ha, har⟩

theorem entryFold_entries (bestF : List String → List String → Bool → Option ConversionRule)
    (dieA dieB : List String) (mf : Bool) (t : Nat) (sizeA : ℚ) :
    ∀ (parts : List (TossRange × List String)) (st st' : ConvState),
      parts.foldl (entryStep bestF dieA dieB mf t sizeA) (some st) = some st' →
      ∃ new, st'.entries = st.entries ++ new ∧
        List.Forall₂ (EntryRel bestF dieA dieB mf) parts new := by
  intro parts
  induction parts with
  | nil =>
    intro st st' h
    obtain rfl : st = st' := Option.some.inj h
    exact ⟨[], by simp, List.Forall₂.nil⟩
  | cons e rest ih =>
    intro st st' h
    rw [List.foldl_cons] at h
    by_cases hrep : e.2.length = dieB.length
    · have hstep : entryStep bestF dieA dieB mf t sizeA (some st) e =
          some ⟨st.entries ++ [(e.1, Branch.selfRepeat)], st.z, e.1.faces.length⟩ := by
        unfold entryStep
        rw [Option.some_bind, if_pos hrep]
      rw [hstep] at h
      obtain ⟨new, h1, h2⟩ := ih _ st' h
      refine ⟨(e.1, Branch.selfRepeat) :: new, by rw [h1]; simp, ?_⟩
      exact List.Forall₂.cons ⟨rfl, Or.inl ⟨hrep, rfl⟩⟩ h2
    · by_cases hterm : e.2.length = 1
      · have hstep : entryStep bestF dieA dieB mf t sizeA (some st) e =
            some ⟨st.entries ++ [(e.1, Branch.terminal (e.2.getD 0 ""))],
              oAdd st.z (some ((e.1.faces.length : ℚ) / sizeA * (t : ℚ))), st.sizeB⟩ := by
          unfold entryStep
          rw [Option.some_bind, if_neg hrep, if_pos hterm]
        rw [hstep] at h
        obtain ⟨new, h1, h2⟩ := ih _ st' h
        refine ⟨(e.1, Branch.terminal (e.2.getD 0 "")) :: new, by rw [h1]; simp, ?_⟩
        exact List.Forall₂.cons ⟨rfl, Or.inr (Or.inl ⟨hrep, hterm, rfl⟩)⟩ h2
      · cases hbf : bestF dieA e.2 mf with
        | none =>
          have hstep : entryStep bestF dieA dieB mf t sizeA (some st) e = none := by
            unfold entryStep
            rw [Option.some_bind, if_neg hrep, if_neg hterm, hbf]
          rw [hstep, entryFold_none] at h
          exact absurd h (by simp)
        | some sub =>
          have hstep : entryStep bestF dieA dieB mf t sizeA (some st) e =
              some ⟨st.entries ++ [(e.1, Branch.reduce sub)],
                oAdd st.z (oScale ((e.1.faces.length : ℚ) / sizeA)
                  (oAdd (some (t : ℚ)) sub.expectation)), st.sizeB⟩ := by
            unfold entryStep
            rw [Option.some_bind, if_neg hrep, if_neg hterm, hbf]
          rw [hstep] at h
          obtain ⟨new, h1, h2⟩ := ih _ st' h
          refine ⟨(e.1, Branch.reduce sub) :: new, by rw [h1]; simp, ?_⟩
          exact List.Forall₂.cons ⟨rfl, Or.inr (Or.inr ⟨hrep, hterm, sub, hbf, rfl⟩)⟩ h2

theorem sizeBOf_cases :
    ∀ (es : List (TossRange × Branch ConversionRule)) (s0 : Nat),
      es.foldl (fun s e => match e.2 with
        | Branch.selfRepeat => e.1.faces.length
        | _ => s) s0 = s0 ∨
      ∃ e ∈ es, e.2 = Branch.selfRepeat ∧
        es.foldl (fun s e => match e.2 with
          | Branch.selfRepeat => e.1.faces.length
          | _ => s) s0 = e.1.faces.length := by
  intro es
  induction es with
  | nil => intro s0; exact Or.inl rfl
  | cons e rest ih =>
    intro s0
    obtain ⟨tr, br⟩ := e
    cases br with
    | terminal lbl =>
      rw [List.foldl_cons]
      rcases ih s0 with h | ⟨e', he', hrep, heq⟩
      · exact Or.inl h
      · exact Or.inr ⟨e', List.mem_cons_of_mem _ he', hrep, heq⟩
    | reduce sub =>
      rw [List.foldl_cons]
      rcases ih s0 with h | ⟨e', he', hrep, heq⟩
      · exact Or.inl h
      · exact Or.inr ⟨e', List.mem_cons_of_mem _ he', hrep, heq⟩
    | selfRepeat =>
      rw [List.foldl_cons]
      rcases ih tr.faces.length with h | ⟨e', he', hrep, heq⟩
      · exact Or.inr ⟨(tr, Branch.selfRepeat), List.mem_cons_self _ _, rfl, h⟩
      · exact Or.inr ⟨e', List.mem_cons_of_mem _ he', hrep, heq⟩

theorem zfold_some (a : ℚ) (t : Nat) :
    ∀ (es : List (TossRange × Branch ConversionRule)),
      (∀ e ∈ es, ∀ sub, e.2 = Branch.reduce sub → ∃ q, sub.expectation = some q) →
      ∀ z0 : ℚ, ∃ z', es.foldl (branchZ a t) (some z0) = some z' := by
  intro es
  induction es with
  | nil => intro _ z0; exact ⟨z0, rfl⟩
  | cons e rest ih =>
    intro hfin z0
    obtain ⟨tr, br⟩ := e
    rw [List.foldl_cons]
    cases br with
    | terminal lbl =>
      exact ih (fun x hx => hfin x (List.mem_cons_of_mem _ hx))
        (z0 + (tr.faces.length : ℚ) / a * (t : ℚ))
    | reduce sub =>
      obtain ⟨q, hq⟩ := hfin (tr, Branch.reduce sub) (List.mem_cons_self _ _) sub rfl
      have hb : branchZ a t (some z0) (tr, Branch.reduce sub) =
          some (z0 + (tr.faces.length : ℚ) / a * ((t : ℚ) + q)) := by
        show oAdd (some z0) (oScale ((tr.faces.length : ℚ) / a)
          (oAdd (some (t : ℚ)) sub.expectation)) = _
        rw [hq]
        rfl
      rw [hb]
      exact ih (fun x hx => hfin x (List.mem_cons_of_mem _ hx)) _
    | selfRepeat =>
      exact ih (fun x hx => hfin x (List.mem_cons_of_mem _ hx)) z0

theorem getBestConversionF_finite (fuel : Nat) (A B : List String) (mf : Bool)
    (c : ConversionRule) (h : getBestConversionF fuel A B mf = some c) :
    ∃ q, c.expectation = some q := by
  cases fuel with
  | zero => exact absurd (getBestConversionF_zero A B mf ▸ h) (by simp)
  | succ fuel =>
    rw [getBestConversionF_succ, Option.bind_eq_some] at h
    obtain ⟨t0, _, hloop⟩ := h
    exact bestLoopF_finite fuel A B mf t0 none c hloop

/-- Counterexample to C1 as stated: with `makeFair = true`, source and target
both two-faced and `throws = 1`, every outcome is consumed by the repeat
branch, so `sizeB = 2 = 2^1 = a` (not `sizeB < a`) and the expectation
formula divides by zero (the stored expectation is the JS `+Infinity`,
modelled `none`). -/
theorem claim_C1_counterexample :
    getConversionF 1 ["H", "T"] ["H", "T"] true 1 = some cexRuleC1 ∧
    sizeBOfEntries cexRuleC1.conversions = (["H", "T"] : List String).length ^ 1 ∧
    ¬ (sizeBOfEntries cexRuleC1.conversions < (["H", "T"] : List String).length ^ 1) ∧
    cexRuleC1.expectation = none := by
  refine ⟨?_, by decide, by decide, rfl⟩
  rw [getConversionF_succ]
  unfold convStep
  have hparts : partitionTosses (generateTosses ["H", "T"] true 1) ["H", "T"] =
      [(⟨[["H"], ["T"]], [0, 1]⟩, ["H", "T"])] := by decide
  rw [hparts]
  simp only [List.foldl_cons, List.foldl_nil, entryStep, Option.some_bind]
  norm_num [cexRuleC1, jsDiv]

/-- C1 amended: the claim holds with `makeFair = false` and
`targetFaceCount ≤ sourceFaceCount ^ throws` (both satisfied by every round
the fairness-not-required search builds from its starting `throws` upward):
the repeat branch's outcome count `sizeB` is strictly below
`a = sourceFaceCount ^ throws`, and the stored expectation is not the
division-by-zero value. -/
theorem claim_C1_amended (fuel : Nat) (dieA dieB : List String) (throws : Nat)
    (hA : 2 ≤ dieA.length) (hB : 2 ≤ dieB.length) (_ht : 1 ≤ throws)
    (hcover : dieB.length ≤ dieA.length ^ throws) (c : ConversionRule)
    (h : getConversionF fuel dieA dieB false throws = some c) :
    sizeBOfEntries c.conversions < dieA.length ^ throws ∧ c.expectation ≠ none := by
  have hn : 1 ≤ dieA.length := by omega
  have hb1 : 1 ≤ dieB.length := by omega
  cases fuel with
  | zero => exact absurd (getConversionF_zero dieA dieB false throws ▸ h) (by simp)
  | succ fuel =>
  rw [getConversionF_succ] at h
  obtain ⟨st', hfold, rfl⟩ := convStep_some _ dieA dieB false throws c h
  obtain ⟨new, hent, hrel⟩ := entryFold_entries _ dieA dieB false throws _ _ _ _ hfold
  obtain ⟨new', hent', hz, hsB⟩ := entryFold_spec _ dieA dieB false throws _ _ _ _ hfold
  have hnew : st'.entries = new := by simpa using hent
  have hnew' : new' = new := by
    have := hent'.symm.trans hent
    simpa using this
  rw [hnew'] at hz hsB
  -- the toss classes: a single full class
  have hfair := generateTosses_fair dieA throws hn
  set a := dieA.length ^ throws with ha
  have hwfT : WfRanges (generateTosses dieA false throws) :=
    generateTosses_wf dieA false throws hn
  obtain ⟨hcons, hwfE⟩ := partitionTosses_conservation (generateTosses dieA false throws)
    dieB hwfT hb1
  -- total number of ids
  have htotal : (classIds (generateTosses dieA false throws)).length = a := by
    rw [hfair]
    rw [classIds_cons, classIds_nil, List.append_nil, List.length_range]
  -- allocation sum for the single class
  have halloc : ((generateTosses dieA false throws).map
      (fun tr => dieB.length * (tr.faces.length / dieB.length))).sum =
      dieB.length * (a / dieB.length) := by
    rw [hfair]
    simp only [List.map_cons, List.map_nil, List.sum_cons, List.sum_nil]
    rw [List.length_map, List.length_range]
    omega
  have hallocge : dieB.length ≤ dieB.length * (a / dieB.length) := by
    have h1 : 1 ≤ a / dieB.length := (Nat.one_le_div_iff (by omega)).mpr hcover
    calc dieB.length = dieB.length * 1 := by omega
      _ ≤ dieB.length * (a / dieB.length) := Nat.mul_le_mul_left _ h1
  have hfull := partition_full_sum_bound (generateTosses dieA false throws) dieB hwfT hB
  rw [htotal, halloc] at hfull
  -- sizeB is bounded by the full-size entry sum
  have hsizeB : sizeBOfEntries new < a := by
    rcases sizeBOf_cases new 0 with h0 | ⟨e, he, hrep, heq⟩
    · unfold sizeBOfEntries
      rw [h0]
      omega
    · obtain ⟨p, hp, hprel⟩ := forall2_mem_right hrel e he
      obtain ⟨he1, hcase⟩ := hprel
      have hplen : p.2.length = dieB.length := by
        rcases hcase with ⟨h1, _⟩ | ⟨_, _, h2⟩ | ⟨_, _, sub, _, h3⟩
        · exact h1
        · rw [hrep] at h2; exact absurd h2.symm (by simp)
        · rw [hrep] at h3; exact absurd h3.symm (by simp)
      have hpwf : p.1.ids.length = p.1.faces.length := hwfE p hp
      have hpmem : p ∈ (partitionTosses (generateTosses dieA false throws) dieB).filter
          (fun e => decide (e.2.length = dieB.length)) :=
        List.mem_filter.mpr ⟨hp, by simp [hplen]⟩
      have hple : p.1.ids.length ≤
          entrySizeSum (partitionTosses (generateTosses dieA false throws) dieB)
            (fun e => decide (e.2.length = dieB.length)) := by
        unfold entrySizeSum
        exact List.single_le_sum (fun x _ => Nat.zero_le x) _
          (List.mem_map_of_mem (fun e => e.1.ids.length) hpmem)
      unfold sizeBOfEntries
      rw [heq, he1, ← hpwf]
      omega
  constructor
  · show sizeBOfEntries st'.entries < a
    rw [hnew]
    exact hsizeB
  · -- the expectation is a genuine division
    have hfin : ∀ e ∈ new, ∀ sub, e.2 = Branch.reduce sub → ∃ q, sub.expectation = some q := by
      intro e he sub hsub
      obtain ⟨p, _, hprel⟩ := forall2_mem_right hrel e he
      obtain ⟨_, hcase⟩ := hprel
      rcases hcase with ⟨_, h1⟩ | ⟨_, _, h2⟩ | ⟨_, _, sub', hbf, h3⟩
      · rw [hsub] at h1; exact absurd h1.symm (by simp)
      · rw [hsub] at h2; exact absurd h2 (by simp)
      · rw [hsub] at h3
        have hss : sub = sub' := by injection h3
        rw [hss]
        exact getBestConversionF_finite fuel dieA p.2 false sub' hbf
    obtain ⟨z', hz'⟩ := zfold_some ((a : ℕ) : ℚ) throws new hfin 0
    have hzz : st'.z = some z' := by
      rw [hz]
      exact hz'
    show (match st'.z with
      | none => none
      | some z => jsDiv (((a : ℕ) : ℚ) * z + (st'.sizeB : ℚ) * (throws : ℚ))
          (((a : ℕ) : ℚ) - (st'.sizeB : ℚ))) ≠ none
    rw [hzz]
    have hsb : st'.sizeB < a := by
      rw [hsB]
      exact hsizeB
    have hdenom : ((a : ℕ) : ℚ) - (st'.sizeB : ℚ) ≠ 0 := by
      have : (st'.sizeB : ℚ) < ((a : ℕ) : ℚ) := by exact_mod_cast hsb
      intro hc
      rw [sub_eq_zero] at hc
      exact absurd hc.symm (ne_of_lt this)
    simp only [jsDiv, if_neg hdenom]
    simp

theorem eval_conv_coin : getConversionF 1 ["H", "T"] ["H", "T"] false 1 = some ruleCoin := by
  rw [getConversionF_succ]
  unfold convStep
  have hparts : partitionTosses (generateTosses ["H", "T"] false 1) ["H", "T"] =
      [(⟨[["H"]], [0]⟩, ["H"]), (⟨[["T"]], [1]⟩, ["T"])] := by decide
  rw [hparts]
  simp only [List.foldl_cons, List.foldl_nil, entryStep, Option.some_bind]
  norm_num [oAdd, jsDiv, ruleCoin]

/-- Witness for the amended C1 at a concrete input. -/
theorem claim_C1_amended_witness :
    (2 ≤ (["H", "T"] : List String).length) ∧
    ((["H", "T"] : List String).length ≤ (["H", "T"] : List String).length ^ 1) ∧
    getConversionF 1 ["H", "T"] ["H", "T"] false 1 = some ruleCoin ∧
    (sizeBOfEntries ruleCoin.conversions < (["H", "T"] : List String).length ^ 1 ∧
      ruleCoin.expectation ≠ none) :=
  ⟨by decide, by decide, eval_conv_coin,
    claim_C1_amended 1 ["H", "T"] ["H", "T"] 1 (by decide) (by decide) le_rfl (by decide)
      ruleCoin eval_conv_coin⟩

theorem entryFold_succeeds (bestF : List String → List String → Bool → Option ConversionRule)
    (dieA dieB : List String) (mf : Bool) (t : Nat) (sizeA : ℚ) :
    ∀ parts : List (TossRange × List String),
      (∀ p ∈ parts, p.2.length ≠ dieB.length → p.2.length ≠ 1 →
        ∃ sub, bestF dieA p.2 mf = some sub) →
      ∀ st : ConvState, ∃ st',
        parts.foldl (entryStep bestF dieA dieB mf t sizeA) (some st) = some st' := by
  intro parts
  induction parts with
  | nil => intro _ st; exact ⟨st, rfl⟩
  | cons e rest ih =>
    intro hok st
    rw [List.foldl_cons]
    by_cases hrep : e.2.length = dieB.length
    · have hstep : entryStep bestF dieA dieB mf t sizeA (some st) e =
          some ⟨st.entries ++ [(e.1, Branch.selfRepeat)], st.z, e.1.faces.length⟩ := by
        unfold entryStep
        rw [Option.some_bind, if_pos hrep]
      rw [hstep]
      exact ih (fun p hp => hok p (List.mem_cons_of_mem _ hp)) _
    · by_cases hterm : e.2.length = 1
      · have hstep : entryStep bestF dieA dieB mf t sizeA (some st) e =
            some ⟨st.entries ++ [(e.1, Branch.terminal (e.2.getD 0 ""))],
              oAdd st.z (some ((e.1.faces.length : ℚ) / sizeA * (t : ℚ))), st.sizeB⟩ := by
          unfold entryStep
          rw [Option.some_bind, if_neg hrep, if_pos hterm]
        rw [hstep]
        exact ih (fun p hp => hok p (List.mem_cons_of_mem _ hp)) _
      · obtain ⟨sub, hsub⟩ := hok e (List.mem_cons_self _ _) hrep hterm
        have hstep : entryStep bestF dieA dieB mf t sizeA (some st) e =
            some ⟨st.entries ++ [(e.1, Branch.reduce sub)],
              oAdd st.z (oScale ((e.1.faces.length : ℚ) / sizeA)
                (oAdd (some (t : ℚ)) sub.expectation)), st.sizeB⟩ := by
          unfold entryStep
          rw [Option.some_bind, if_neg hrep, if_neg hterm, hsub]
        rw [hstep]
        exact ih (fun p hp => hok p (List.mem_cons_of_mem _ hp)) _

theorem zfold_terminal (a : ℚ) (t : Nat) :
    ∀ es : List (TossRange × Branch ConversionRule),
      (∀ e ∈ es, ∃ lbl, e.2 = Branch.terminal lbl) → ∀ z0 : ℚ,
      es.foldl (branchZ a t) (some z0) =
        some (z0 + ((es.map (fun e => (e.1.faces.length : ℚ))).sum) / a * (t : ℚ)) := by
  intro es
  induction es with
  | nil =>
    intro _ z0
    simp
  | cons e rest ih =>
    intro hterm z0
    obtain ⟨tr, br⟩ := e
    obtain ⟨lbl, hlbl⟩ := hterm (tr, br) (List.mem_cons_self _ _)
    have hbr : br = Branch.terminal lbl := hlbl
    subst hbr
    rw [List.foldl_cons]
    rw [show branchZ a t (some z0) (tr, Branch.terminal lbl) =
      some (z0 + (tr.faces.length : ℚ) / a * (t : ℚ)) from rfl]
    rw [ih (fun x hx => hterm x (List.mem_cons_of_mem _ hx)) _]
    congr 1
    rw [List.map_cons, List.sum_cons]
    ring

theorem sizeBOf_no_repeat (es : List (TossRange × Branch ConversionRule))
    (h : ∀ e ∈ es, e.2 ≠ Branch.selfRepeat) : sizeBOfEntries es = 0 := by
  rcases sizeBOf_cases es 0 with h0 | ⟨e, he, hrep, _⟩
  · exact h0
  · exact absurd hrep (h e he)

theorem forall2_cast_sum {R : TossRange × List String →
    TossRange × Branch ConversionRule → Prop}
    (hR : ∀ p e, R p e → e.1 = p.1) :
    ∀ {parts : List (TossRange × List String)}
      {new : List (TossRange × Branch ConversionRule)},
      List.Forall₂ R parts new →
      (new.map (fun e => (e.1.faces.length : ℚ))).sum =
        ((parts.map (fun p => p.1.faces.length)).sum : ℕ) := by
  intro parts new h
  induction h with
  | nil => simp
  | cons hr _ ih =>
    rw [List.map_cons, List.sum_cons, List.map_cons, List.sum_cons]
    push_cast
    rw [ih, hR _ _ hr]
    push_cast
    ring

theorem eval_conv62 :
    getConversionF 1 ["1", "2", "3", "4", "5", "6"] ["H", "T"] false 1 = some rule62 := by
  rw [getConversionF_succ]
  unfold convStep
  have hparts : partitionTosses (generateTosses ["1", "2", "3", "4", "5", "6"] false 1)
      ["H", "T"] =
      [(⟨[["1"], ["2"], ["3"]], [0, 1, 2]⟩, ["H"]),
       (⟨[["4"], ["5"], ["6"]], [3, 4, 5]⟩, ["T"])] := by decide
  rw [hparts]
  simp only [List.foldl_cons, List.foldl_nil, entryStep, Option.some_bind]
  norm_num [oAdd, oScale, jsDiv, rule62]

theorem eval_best62 :
    getBestConversionF 3 ["1", "2", "3", "4", "5", "6"] ["H", "T"] false = some rule62 := by
  rw [getBestConversionF_succ]
  have hinit : initLoop 3 (["1", "2", "3", "4", "5", "6"] : List String).length
      (["H", "T"] : List String).length
      (["1", "2", "3", "4", "5", "6"] : List String).length 1 = some 1 := by decide
  rw [hinit, Option.some_bind, bestLoopF_succ_eq, eval_conv62]
  simp only
  have hge : oGeB (((1 : ℕ) : ℚ) + 1) rule62.expectation = true := by
    simp only [oGeB, rule62, ConversionRule.expectation]
    rw [decide_eq_true_eq]
    norm_num
  rw [if_pos hge]

theorem best_identity (dieA dieB : List String) (h2 : 2 ≤ dieA.length)
    (heq : dieB.length = dieA.length) :
    ∃ r, getBestConversionF 3 dieA dieB false = some r ∧
      r.throws = 1 ∧ r.expectation = some 1 := by
  have hn1 : 1 ≤ dieA.length := by omega
  have hb1 : 1 ≤ dieB.length := by omega
  have hb2 : 2 ≤ dieB.length := by omega
  have ha0 : 0 < dieA.length ^ 1 := by rw [pow_one]; omega
  have ha : (0 : ℚ) < ((dieA.length ^ 1 : ℕ) : ℚ) := by exact_mod_cast ha0
  have hfair := generateTosses_fair dieA 1 hn1
  have hwf : WfRanges (generateTosses dieA false 1) := generateTosses_wf dieA false 1 hn1
  have hcls : (classIds (generateTosses dieA false 1)).length = dieA.length ^ 1 := by
    rw [(classIds_generateTosses_perm dieA false 1 hn1).length_eq, List.length_range]
  have halloc : (classIds (generateTosses dieA false 1)).length ≤
      ((generateTosses dieA false 1).map
        (fun tr => dieB.length * (tr.faces.length / dieB.length))).sum := by
    rw [hcls, hfair]
    simp only [List.map_cons, List.map_nil, List.sum_cons, List.sum_nil, List.length_map,
      List.length_range, add_zero]
    rw [heq, pow_one, Nat.div_self (by omega : 0 < dieA.length)]
    omega
  have hlen1 : ∀ p ∈ partitionTosses (generateTosses dieA false 1) dieB, p.2.length = 1 :=
    partition_all_len_one (generateTosses dieA false 1) dieB hwf hb2 halloc
  obtain ⟨st', hfold⟩ := entryFold_succeeds (getBestConversionF 0) dieA dieB false 1
    ((dieA.length ^ 1 : ℕ) : ℚ) (partitionTosses (generateTosses dieA false 1) dieB)
    (fun p hp _ h1 => absurd (hlen1 p hp) h1) ⟨[], some 0, 0⟩
  obtain ⟨new, h1, h2', h3⟩ := entryFold_spec (getBestConversionF 0) dieA dieB false 1
    ((dieA.length ^ 1 : ℕ) : ℚ) _ _ _ hfold
  obtain ⟨new2, h1', hforall⟩ := entryFold_entries (getBestConversionF 0) dieA dieB false 1
    ((dieA.length ^ 1 : ℕ) : ℚ) _ _ _ hfold
  have hnew : st'.entries = new := by simpa using h1
  have hnew2 : st'.entries = new2 := by simpa using h1'
  have hforall' : List.Forall₂ (EntryRel (getBestConversionF 0) dieA dieB false)
      (partitionTosses (generateTosses dieA false 1) dieB) st'.entries := by
    rw [hnew2]; exact hforall
  have hterm : ∀ e ∈ st'.entries, ∃ lbl, e.2 = Branch.terminal lbl := by
    intro e he
    obtain ⟨p, hp, hrel⟩ := forall2_mem_right hforall' e he
    have hp1 := hlen1 p hp
    rcases hrel.2 with ⟨hl, _⟩ | ⟨_, _, hl⟩ | ⟨_, hne1, _⟩
    · exfalso; omega
    · exact ⟨_, hl⟩
    · exact absurd hp1 hne1
  have hnorep : ∀ e ∈ st'.entries, e.2 ≠ Branch.selfRepeat := by
    intro e he
    obtain ⟨lbl, hl⟩ := hterm e he
    rw [hl]
    simp
  have hsum : ((st'.entries.map (fun e => (e.1.faces.length : ℚ))).sum) =
      ((dieA.length ^ 1 : ℕ) : ℚ) := by
    rw [forall2_cast_sum (fun p e hrel => hrel.1) hforall']
    have hwfe := (partitionTosses_conservation (generateTosses dieA false 1) dieB hwf hb1).2
    have hmapeq : (partitionTosses (generateTosses dieA false 1) dieB).map
        (fun p => p.1.faces.length) =
        (partitionTosses (generateTosses dieA false 1) dieB).map
        (fun p => p.1.ids.length) :=
      List.map_congr_left (fun p hp => (hwfe p hp).symm)
    have hnat : ((partitionTosses (generateTosses dieA false 1) dieB).map
        (fun p => p.1.faces.length)).sum = dieA.length ^ 1 := by
      rw [hmapeq, partition_total (generateTosses dieA false 1) dieB hwf hb1, hcls]
    exact_mod_cast hnat
  have hz0 : st'.z = st'.entries.foldl (branchZ ((dieA.length ^ 1 : ℕ) : ℚ) 1) (some 0) := by
    rw [h2', ← hnew]
  have hzfold : st'.z = some (0 + ((dieA.length ^ 1 : ℕ) : ℚ) /
      ((dieA.length ^ 1 : ℕ) : ℚ) * ((1 : ℕ) : ℚ)) := by
    rw [hz0, zfold_terminal ((dieA.length ^ 1 : ℕ) : ℚ) 1 st'.entries hterm 0, hsum]
  have hsb : st'.sizeB = 0 := by
    have hsz : st'.sizeB = sizeBOfEntries st'.entries := by
      rw [h3, ← hnew]
      rfl
    rw [hsz]
    exact sizeBOf_no_repeat st'.entries hnorep
  have hconv : getConversionF 1 dieA dieB false 1 =
      some (ConversionRule.mk dieA dieB false 1 st'.entries (some 1)) := by
    rw [getConversionF_succ]
    unfold convStep
    rw [hfold, Option.map_some']
    congr 1
    congr 1
    rw [hzfold, hsb]
    show jsDiv (((dieA.length ^ 1 : ℕ) : ℚ) *
        (0 + ((dieA.length ^ 1 : ℕ) : ℚ) / ((dieA.length ^ 1 : ℕ) : ℚ) * ((1 : ℕ) : ℚ)) +
        ((0 : ℕ) : ℚ) * ((1 : ℕ) : ℚ))
      (((dieA.length ^ 1 : ℕ) : ℚ) - ((0 : ℕ) : ℚ)) = some 1
    unfold jsDiv
    rw [if_neg (by simp only [Nat.cast_zero, sub_zero]; exact ne_of_gt ha)]
    congr 1
    rw [div_self (ne_of_gt ha)]
    simp only [Nat.cast_zero, Nat.cast_one, mul_one, zero_add, zero_mul, add_zero, sub_zero]
    exact div_self (ne_of_gt ha)
  refine ⟨ConversionRule.mk dieA dieB false 1 st'.entries (some 1), ?_, rfl, rfl⟩
  rw [getBestConversionF_succ]
  have hinit : initLoop 3 dieA.length dieB.length dieA.length 1 = some 1 := by
    show (if dieA.length < dieB.length then
        initLoop 2 dieA.length dieB.length (dieA.length * dieA.length) (1 + 1)
      else some 1) = some 1
    rw [if_neg (by omega)]
  rw [hinit, Option.some_bind, bestLoopF_succ_eq, hconv]
  simp only
  have hge : oGeB (((1 : ℕ) : ℚ) + 1)
      (ConversionRule.mk dieA dieB false 1 st'.entries (some 1)).expectation = true := by
    show oGeB (((1 : ℕ) : ℚ) + 1) (some 1) = true
    simp only [oGeB]
    rw [decide_eq_true_eq]
    norm_num
  rw [if_pos hge]

/-- C8: with fairness not required, conversion between equal-size dice is an
identity-cost round: for dice of a common size at least 2, `getBestConversion`
returns a rule with one throw and expectation exactly 1; in particular, for
`createDie 6` against `createDie 2` the rule maps three source faces to each
of the labels "H" and "T" and has expectation 1. -/
theorem claim_C8_identity (dieA dieB : List String)
    (h2 : 2 ≤ dieA.length) (heq : dieB.length = dieA.length) :
    (∃ r, getBestConversionF 3 dieA dieB false = some r ∧
        r.throws = 1 ∧ r.expectation = some 1) ∧
    getBestConversionF 3 (createDie 6) (createDie 2) false = some rule62 ∧
    rule62.throws = 1 ∧ rule62.expectation = some 1 ∧
    rule62.conversions.map (fun e => (e.1.faces.length, e.2)) =
      [(3, Branch.terminal "H"), (3, Branch.terminal "T")] := by
  refine ⟨best_identity dieA dieB h2 heq, ?_, rfl, rfl, rfl⟩
  have h6 : createDie 6 = ["1", "2", "3", "4", "5", "6"] := by decide
  have hc2 : createDie 2 = ["H", "T"] := rfl
  rw [h6, hc2]
  exact eval_best62

/-- Witness for C8 at two concrete 2-face dice. -/
theorem claim_C8_identity_witness :
    2 ≤ (["a", "b"] : List String).length ∧
    (["c", "d"] : List String).length = (["a", "b"] : List String).length ∧
    ((∃ r, getBestConversionF 3 ["a", "b"] ["c", "d"] false = some r ∧
        r.throws = 1 ∧ r.expectation = some 1) ∧
     getBestConversionF 3 (createDie 6) (createDie 2) false = some rule62 ∧
     rule62.throws = 1 ∧ rule62.expectation = some 1 ∧
     rule62.conversions.map (fun e => (e.1.faces.length, e.2)) =
       [(3, Branch.terminal "H"), (3, Branch.terminal "T")]) :=
  ⟨by decide, by decide, claim_C8_identity ["a", "b"] ["c", "d"] (by decide) (by decide)⟩
theorem eval_conv23 : getConversionF 1 ["H", "T"] ["1", "2", "3"] false 2 = some rule23 := by
  rw [getConversionF_succ]
  unfold convStep
  have hparts : partitionTosses (generateTosses ["H", "T"] false 2) ["1", "2", "3"] =
      [(⟨[["H", "H"]], [0]⟩, ["1"]),
       (⟨[["H", "T"]], [1]⟩, ["2"]),
       (⟨[["T", "H"]], [2]⟩, ["3"]),
       (⟨[["T", "T"]], [3]⟩, ["1", "2", "3"])] := by decide
  rw [hparts]
  simp only [List.foldl_cons, List.foldl_nil, entryStep, Option.some_bind]
  norm_num [oAdd, oScale, jsDiv, rule23]

theorem eval_best23 : getBestConversionF 3 ["H", "T"] ["1", "2", "3"] false = some rule23 := by
  rw [getBestConversionF_succ]
  have hinit : initLoop 3 (["H", "T"] : List String).length
      (["1", "2", "3"] : List String).length (["H", "T"] : List String).length 1 = some 2 := by
    decide
  rw [hinit, Option.some_bind, bestLoopF_succ_eq, eval_conv23]
  simp only
  have hge : oGeB (((2 : ℕ) : ℚ) + 1) rule23.expectation = true := by
    simp only [oGeB, rule23, ConversionRule.expectation]
    rw [decide_eq_true_eq]
    norm_num
  rw [if_pos hge]

theorem eval_conv456 : getConversionF 1 ["H", "T"] ["4", "5", "6"] false 2 = some rule456 := by
  rw [getConversionF_succ]
  unfold convStep
  have hparts : partitionTosses (generateTosses ["H", "T"] false 2) ["4", "5", "6"] =
      [(⟨[["H", "H"]], [0]⟩, ["4"]),
       (⟨[["H", "T"]], [1]⟩, ["5"]),
       (⟨[["T", "H"]], [2]⟩, ["6"]),
       (⟨[["T", "T"]], [3]⟩, ["4", "5", "6"])] := by decide
  rw [hparts]
  simp only [List.foldl_cons, List.foldl_nil, entryStep, Option.some_bind]
  norm_num [oAdd, oScale, jsDiv, rule456]

theorem eval_best456 : getBestConversionF 3 ["H", "T"] ["4", "5", "6"] false = some rule456 := by
  rw [getBestConversionF_succ]
  have hinit : initLoop 3 (["H", "T"] : List String).length
      (["4", "5", "6"] : List String).length (["H", "T"] : List String).length 1 = some 2 := by
    decide
  rw [hinit, Option.some_bind, bestLoopF_succ_eq, eval_conv456]
  simp only
  have hge : oGeB (((2 : ℕ) : ℚ) + 1) rule456.expectation = true := by
    simp only [oGeB, rule456, ConversionRule.expectation]
    rw [decide_eq_true_eq]
    norm_num
  rw [if_pos hge]

theorem eval_conv26 :
    getConversionF 4 ["H", "T"] ["1", "2", "3", "4", "5", "6"] false 3 = some rule26 := by
  rw [getConversionF_succ]
  unfold convStep
  have hparts : partitionTosses (generateTosses ["H", "T"] false 3)
      ["1", "2", "3", "4", "5", "6"] =
      [(⟨[["H", "H", "H"]], [0]⟩, ["1"]),
       (⟨[["H", "H", "T"]], [1]⟩, ["2"]),
       (⟨[["H", "T", "H"]], [2]⟩, ["3"]),
       (⟨[["H", "T", "T"]], [3]⟩, ["4"]),
       (⟨[["T", "H", "H"]], [4]⟩, ["5"]),
       (⟨[["T", "H", "T"]], [5]⟩, ["6"]),
       (⟨[["T", "T", "H"]], [6]⟩, ["1", "2", "3"]),
       (⟨[["T", "T", "T"]], [7]⟩, ["4", "5", "6"])] := by decide
  rw [hparts]
  simp only [List.foldl_cons, List.foldl_nil, entryStep, Option.some_bind,
    eval_best23, eval_best456]
  norm_num [oAdd, oScale, jsDiv, rule26, rule23, rule456, ConversionRule.expectation]

theorem eval_best26 :
    getBestConversionF 6 ["H", "T"] ["1", "2", "3", "4", "5", "6"] false = some rule26 := by
  rw [getBestConversionF_succ]
  have hinit : initLoop 6 (["H", "T"] : List String).length
      (["1", "2", "3", "4", "5", "6"] : List String).length
      (["H", "T"] : List String).length 1 = some 3 := by decide
  rw [hinit, Option.some_bind]
  rw [show (5 : Nat) = 4 + 1 from rfl, bestLoopF_succ_eq, eval_conv26]
  simp only
  have hge : oGeB (((3 : ℕ) : ℚ) + 1) rule26.expectation = true := by
    simp only [oGeB, rule26, ConversionRule.expectation]
    rw [decide_eq_true_eq]
    norm_num
  rw [if_pos hge]

theorem eval_best26_create :
    getBestConversionF 6 (createDie 2) (createDie 6) false = some rule26 := by
  have h6 : createDie 6 = ["1", "2", "3", "4", "5", "6"] := by decide
  have hc2 : createDie 2 = ["H", "T"] := rfl
  rw [hc2, h6]
  exact eval_best26

/-- C7: the best conversion from a coin to a 6-face die needs 3 throws and
has expectation 11/3, strictly between 3 and 4; in general a returned rule
uses at least the minimum number of throws whose power of the source size
reaches the target size (equivalently, the target size is bounded by that
power at the returned count). -/
theorem claim_C7_minimum_throws (fuel : Nat) (dieA dieB : List String) (mf : Bool)
    (r : ConversionRule) (hn1 : 1 ≤ dieA.length)
    (h : getBestConversionF fuel dieA dieB mf = some r) :
    (1 ≤ r.throws ∧ dieB.length ≤ dieA.length ^ r.throws) ∧
    getBestConversionF 6 (createDie 2) (createDie 6) false = some rule26 ∧
    rule26.throws = 3 ∧ rule26.expectation = some (11/3) ∧
    (3 : ℚ) < 11/3 ∧ (11/3 : ℚ) < 4 := by
  refine ⟨?_, eval_best26_create, rfl, rfl, by norm_num, by norm_num⟩
  cases fuel with
  | zero => rw [getBestConversionF_zero] at h; exact absurd h (by simp)
  | succ fuel =>
    rw [getBestConversionF_succ] at h
    cases hinit : initLoop (fuel + 1) dieA.length dieB.length dieA.length 1 with
    | none => rw [hinit] at h; exact absurd h (by simp)
    | some t0 =>
      rw [hinit, Option.some_bind] at h
      obtain ⟨ht0, hpow⟩ := initLoop_spec (fuel + 1) dieA.length dieB.length dieA.length 1
        t0 hinit
      have hb : dieB.length ≤ dieA.length ^ t0 := hpow (pow_one dieA.length).symm
      rcases bestLoopF_origin fuel dieA dieB mf t0 none r h with ⟨b0, hb0, _⟩ | ⟨t', f', htt', _, hconvr⟩
      · exact absurd hb0 (by simp)
      · obtain ⟨_, _, _, hthrows⟩ := getConversionF_fields f' dieA dieB mf t' r hconvr
        rw [hthrows]
        exact ⟨le_trans ht0 htt', le_trans hb (Nat.pow_le_pow_right hn1 htt')⟩

/-- Witness for C7 at the coin-to-d6 instance itself. -/
theorem claim_C7_minimum_throws_witness :
    (1 ≤ (createDie 2).length ∧
      getBestConversionF 6 (createDie 2) (createDie 6) false = some rule26) ∧
    ((1 ≤ rule26.throws ∧ (createDie 6).length ≤ (createDie 2).length ^ rule26.throws) ∧
     getBestConversionF 6 (createDie 2) (createDie 6) false = some rule26 ∧
     rule26.throws = 3 ∧ rule26.expectation = some (11/3) ∧
     (3 : ℚ) < 11/3 ∧ (11/3 : ℚ) < 4) :=
  ⟨⟨by decide, eval_best26_create⟩,
    claim_C7_minimum_throws 6 (createDie 2) (createDie 6) false rule26 (by decide)
      eval_best26_create⟩

theorem eval_conv_c5 : getConversionF 1 ["H", "T"] [] false 1 =
    some (ConversionRule.mk ["H", "T"] [] false 1 [] (some 0)) := by
  rw [getConversionF_succ]
  unfold convStep
  have hparts : partitionTosses (generateTosses ["H", "T"] false 1) ([] : List String) =
      [] := by decide
  rw [hparts]
  simp only [List.foldl_nil, Option.map_some']
  norm_num [jsDiv]

theorem initLoop_one_stuck : ∀ fuel t, initLoop fuel 1 2 1 t = none := by
  intro fuel
  induction fuel with
  | zero => intro t; rfl
  | succ fuel ih =>
    intro t
    show (if 1 < 2 then initLoop fuel 1 2 (1 * 1) (t + 1) else some t) = none
    rw [if_pos (by omega), Nat.one_mul]
    exact ih (t + 1)

/-- C5: there is no input validation in `getBestConversion`: called on an
empty (0-face) target die it proceeds through the toss enumeration and
returns an empty rule with expectation 0 instead of failing, and called on a
1-face source die with a larger target it never raises anything, exhausting
any fuel in the minimum-throws search instead. -/
theorem claim_C5_no_validation :
    getBestConversionF 3 ["H", "T"] [] false =
      some (ConversionRule.mk ["H", "T"] [] false 1 [] (some 0)) ∧
    (∀ fuel, getBestConversionF fuel ["1"] ["1", "2"] false = none) := by
  constructor
  · rw [getBestConversionF_succ]
    have hinit : initLoop 3 (["H", "T"] : List String).length
        (([] : List String)).length (["H", "T"] : List String).length 1 = some 1 := by decide
    rw [hinit, Option.some_bind, bestLoopF_succ_eq, eval_conv_c5]
    simp only
    have hge : oGeB (((1 : ℕ) : ℚ) + 1)
        (ConversionRule.mk ["H", "T"] [] false 1 [] (some 0)).expectation = true := by
      show oGeB (((1 : ℕ) : ℚ) + 1) (some 0) = true
      simp only [oGeB]
      rw [decide_eq_true_eq]
      norm_num
    rw [if_pos hge]
  · intro fuel
    cases fuel with
    | zero => rfl
    | succ fuel =>
      rw [getBestConversionF_succ,
        show ((["1"] : List String)).length = 1 from rfl,
        show ((["1", "2"] : List String)).length = 2 from rfl,
        initLoop_one_stuck]
      rfl

theorem strLtCharsB_asymm : ∀ x y : List Char,
    strLtCharsB x y = true → strLtCharsB y x = false := by
  intro x
  induction x with
  | nil =>
    intro y h
    cases y with
    | nil => exact absurd h (by simp [strLtCharsB])
    | cons b bs => rfl
  | cons a as ih =>
    intro y h
    cases y with
    | nil => exact absurd h (by simp [strLtCharsB])
    | cons b bs =>
      simp only [strLtCharsB] at h ⊢
      rcases Nat.lt_trichotomy a.val.toNat b.val.toNat with hlt | heq | hgt
      · rw [if_neg (by omega), if_pos hlt]
      · rw [if_neg (by omega), if_neg (by omega)] at h
        rw [if_neg (by omega), if_neg (by omega)]
        exact ih bs h
      · rw [if_neg (by omega), if_pos hgt] at h
        exact absurd h (by simp)

theorem strLtCharsB_eq : ∀ x y : List Char,
    strLtCharsB x y = false → strLtCharsB y x = false → x = y := by
  intro x
  induction x with
  | nil =>
    intro y h1 _
    cases y with
    | nil => rfl
    | cons b bs => exact absurd h1 (by simp [strLtCharsB])
  | cons a as ih =>
    intro y h1 h2
    cases y with
    | nil => exact absurd h2 (by simp [strLtCharsB])
    | cons b bs =>
      simp only [strLtCharsB] at h1 h2
      rcases Nat.lt_trichotomy a.val.toNat b.val.toNat with hlt | heq | hgt
      · rw [if_pos hlt] at h1
        exact absurd h1 (by simp)
      · rw [if_neg (by omega), if_neg (by omega)] at h1
        rw [if_neg (by omega), if_neg (by omega)] at h2
        rw [ih bs h1 h2, Char.ext (UInt32.ext heq)]
      · rw [if_pos hgt] at h2
        exact absurd h2 (by simp)

theorem strLtCharsB_trans : ∀ x y z : List Char,
    strLtCharsB x y = true → strLtCharsB y z = true → strLtCharsB x z = true := by
  intro x
  induction x with
  | nil =>
    intro y z h1 h2
    cases y with
    | nil => exact absurd h1 (by simp [strLtCharsB])
    | cons b bs =>
      cases z with
      | nil => exact absurd h2 (by simp [strLtCharsB])
      | cons c cs => rfl
  | cons a as ih =>
    intro y z h1 h2
    cases y with
    | nil => exact absurd h1 (by simp [strLtCharsB])
    | cons b bs =>
      cases z with
      | nil => exact absurd h2 (by simp [strLtCharsB])
      | cons c cs =>
        simp only [strLtCharsB] at h1 h2 ⊢
        rcases Nat.lt_trichotomy a.val.toNat b.val.toNat with hab | hab | hab
        · rcases Nat.lt_trichotomy b.val.toNat c.val.toNat with hbc | hbc | hbc
          · rw [if_pos (by omega)]
          · rw [if_pos (by omega)]
          · rw [if_neg (by omega), if_pos hbc] at h2
            exact absurd h2 (by simp)
        · rcases Nat.lt_trichotomy b.val.toNat c.val.toNat with hbc | hbc | hbc
          · rw [if_pos (by omega)]
          · rw [if_neg (by omega), if_neg (by omega)] at h1
            rw [if_neg (by omega), if_neg (by omega)] at h2
            rw [if_neg (by omega), if_neg (by omega)]
            exact ih bs cs h1 h2
          · rw [if_neg (by omega), if_pos hbc] at h2
            exact absurd h2 (by simp)
        · rw [if_neg (by omega), if_pos hab] at h1
          exact absurd h1 (by simp)

theorem strLeR_total : ∀ a b : String, strLeR a b ∨ strLeR b a := by
  intro a b
  cases h : strLtCharsB b.data a.data with
  | false =>
    left
    show strLeB a b = true
    unfold strLeB
    rw [h]
    rfl
  | true =>
    right
    show strLeB b a = true
    unfold strLeB
    rw [strLtCharsB_asymm _ _ h]
    rfl

theorem strLeR_antisymm : ∀ a b : String, strLeR a b → strLeR b a → a = b := by
  intro a b h1 h2
  unfold strLeR strLeB at h1 h2
  have h1' : strLtCharsB b.data a.data = false := by simpa using h1
  have h2' : strLtCharsB a.data b.data = false := by simpa using h2
  have hd : a.data = b.data := strLtCharsB_eq a.data b.data h2' h1'
  cases a
  cases b
  simp only at hd
  rw [hd]

theorem strLeR_trans : ∀ a b c : String, strLeR a b → strLeR b c → strLeR a c := by
  intro a b c h1 h2
  unfold strLeR strLeB at h1 h2 ⊢
  have h1' : strLtCharsB b.data a.data = false := by simpa using h1
  have h2' : strLtCharsB c.data b.data = false := by simpa using h2
  have h3 : strLtCharsB c.data a.data = false := by
    cases hca : strLtCharsB c.data a.data with
    | false => rfl
    | true =>
      cases hbc : strLtCharsB b.data c.data with
      | true =>
        have hba := strLtCharsB_trans _ _ _ hbc hca
        rw [hba] at h1'
        exact absurd h1' (by simp)
      | false =>
        have hcb : c.data = b.data := strLtCharsB_eq _ _ h2' hbc
        rw [hcb] at hca
        rw [hca] at h1'
        exact absurd h1' (by simp)
  rw [h3]
  rfl

theorem sortStrings_perm (l : List String) : (sortStrings l).Perm l :=
  List.perm_insertionSort strLeR l

theorem sortStrings_eq_of_perm {l l' : List String} (h : l.Perm l') :
    sortStrings l = sortStrings l' := by
  haveI : IsTotal String strLeR := ⟨strLeR_total⟩
  haveI : IsTrans String strLeR := ⟨strLeR_trans⟩
  haveI : IsAntisymm String strLeR := ⟨strLeR_antisymm⟩
  exact List.eq_of_perm_of_sorted
    ((sortStrings_perm l).trans (h.trans (sortStrings_perm l').symm))
    (List.sorted_insertionSort strLeR l) (List.sorted_insertionSort strLeR l')

theorem sortStrings_perm_iff (l l' : List String) :
    sortStrings l = sortStrings l' ↔ l.Perm l' := by
  constructor
  · intro h
    refine (sortStrings_perm l).symm.trans ?_
    rw [h]
    exact sortStrings_perm l'
  · exact sortStrings_eq_of_perm

theorem natDigits_base_value (n : Nat) (hn : 1 ≤ n) :
    ∀ t id, id < n ^ t →
      (natDigits n t id).foldl (fun acc d => acc * n + d) 0 = id := by
  intro t
  induction t with
  | zero =>
    intro id h
    have : id = 0 := by simpa using h
    subst this
    rfl
  | succ t ih =>
    intro id h
    have hdig : natDigits n (t + 1) id = natDigits n t (id / n) ++ [id % n] := by
      show (lsbDigits n (t + 1) id).reverse = (lsbDigits n t (id / n)).reverse ++ [id % n]
      rw [show lsbDigits n (t + 1) id = id % n :: lsbDigits n t (id / n) from rfl,
        List.reverse_cons]
    rw [hdig, List.foldl_append, List.foldl_cons, List.foldl_nil]
    have hdiv : id / n < n ^ t := by
      rw [Nat.div_lt_iff_lt_mul (by omega : 0 < n)]
      rw [pow_succ] at h
      exact h
    rw [ih (id / n) hdiv, Nat.mul_comm (id / n) n, Nat.div_add_mod]

theorem mem_class_iff (faces : List String) (u : Bool) (t : Nat) (hn : 1 ≤ faces.length)
    (tr : TossRange) (htr : tr ∈ generateTosses faces u t) (i : Nat) (hi : i ∈ tr.ids) :
    ∀ j, j ∈ tr.ids ↔
      (j < faces.length ^ t ∧ keyOf faces u t j = keyOf faces u t i) := by
  obtain ⟨ks, hEq, _, _⟩ := generateTosses_spec faces u t hn
  rw [hEq] at htr
  obtain ⟨k, _, rfl⟩ := List.mem_map.mp htr
  have hidsdef : (classOf faces u t (faces.length ^ t) k).ids =
      tossIdsUpTo faces u t (faces.length ^ t) k := rfl
  rw [hidsdef] at hi
  have hikey := ((mem_tossIdsUpTo faces u t _ k i).mp hi).2
  intro j
  rw [hidsdef, mem_tossIdsUpTo faces u t _ k j, ← hikey]

/-- C9: `generateTosses` enumerates every one of the `n ^ throws` draw
sequences exactly once across the classes, each toss carrying the face
sequence of its id read in base `n` most-significant-digit first (so reading
the digit sequence back as a base-`n` number recovers the id); with the
unfair flag two tosses share a class exactly when their face sequences are
permutations of one another, without it there is a single class holding all
ids, and the ids inside every class are in ascending order. -/
theorem claim_C9_enumeration (faces : List String) (t : Nat)
    (hn : 1 ≤ faces.length) (ht : 1 ≤ t) :
    (∀ u : Bool,
      (classIds (generateTosses faces u t)).Perm (List.range (faces.length ^ t)) ∧
      ∀ tr ∈ generateTosses faces u t,
        tr.faces = tr.ids.map (tossFaces faces t) ∧
        (∀ id ∈ tr.ids,
          (tossFaces faces t id).length = t ∧
          (natDigits faces.length t id).foldl
            (fun acc d => acc * faces.length + d) 0 = id) ∧
        List.Sorted (· < ·) tr.ids) ∧
    (∀ tr ∈ generateTosses faces true t, ∀ i ∈ tr.ids,
      ∀ j, j < faces.length ^ t →
        (j ∈ tr.ids ↔ (tossFaces faces t j).Perm (tossFaces faces t i))) ∧
    (∃ tr0, generateTosses faces false t = [tr0] ∧
      tr0.ids = List.range (faces.length ^ t)) := by
  have hthrows := ht
  refine ⟨?_, ?_, ?_⟩
  · intro u
    refine ⟨classIds_generateTosses_perm faces u t hn, ?_⟩
    intro tr htr
    obtain ⟨_, hfc, _, hsort, _, hbound⟩ := mem_generateTosses faces u t hn tr htr
    refine ⟨hfc, ?_, hsort⟩
    intro id hid
    constructor
    · show ((natDigits faces.length t id).map (fun d => faces.getD d "")).length = t
      rw [List.length_map, natDigits_length]
    · exact natDigits_base_value faces.length hn t id (hbound id hid)
  · intro tr htr i hi j hj
    rw [mem_class_iff faces true t hn tr htr i hi j]
    constructor
    · rintro ⟨-, hk⟩
      have hs : sortStrings (tossFaces faces t j) = sortStrings (tossFaces faces t i) :=
        Option.some.inj hk
      exact (sortStrings_perm_iff _ _).mp hs
    · intro hp
      refine ⟨hj, ?_⟩
      show some (sortStrings (tossFaces faces t j)) =
        some (sortStrings (tossFaces faces t i))
      rw [sortStrings_eq_of_perm hp]
  · exact ⟨_, generateTosses_fair faces t hn, rfl⟩

/-- Witness for C9 for one coin throw. -/
theorem claim_C9_enumeration_witness :
    1 ≤ (["H", "T"] : List String).length ∧ 1 ≤ 1 ∧
    ((∀ u : Bool,
      (classIds (generateTosses ["H", "T"] u 1)).Perm
        (List.range ((["H", "T"] : List String).length ^ 1)) ∧
      ∀ tr ∈ generateTosses ["H", "T"] u 1,
        tr.faces = tr.ids.map (tossFaces ["H", "T"] 1) ∧
        (∀ id ∈ tr.ids,
          (tossFaces ["H", "T"] 1 id).length = 1 ∧
          (natDigits (["H", "T"] : List String).length 1 id).foldl
            (fun acc d => acc * (["H", "T"] : List String).length + d) 0 = id) ∧
        List.Sorted (· < ·) tr.ids) ∧
    (∀ tr ∈ generateTosses ["H", "T"] true 1, ∀ i ∈ tr.ids,
      ∀ j, j < (["H", "T"] : List String).length ^ 1 →
        (j ∈ tr.ids ↔ (tossFaces ["H", "T"] 1 j).Perm (tossFaces ["H", "T"] 1 i))) ∧
    (∃ tr0, generateTosses ["H", "T"] false 1 = [tr0] ∧
      tr0.ids = List.range ((["H", "T"] : List String).length ^ 1))) :=
  ⟨by decide, by decide, claim_C9_enumeration ["H", "T"] 1 (by decide) (by decide)⟩

theorem conv_target_zero (fuel : Nat) (A B : List String) (mf : Bool) (t : Nat)
    (r : ConversionRule) (hA : 1 ≤ A.length) (hB : B.length = 0)
    (h : getConversionF fuel A B mf t = some r) :
    r.expectation = some 0 ∧ r.conversions = [] := by
  cases fuel with
  | zero => exact absurd (getConversionF_zero A B mf t ▸ h) (by simp)
  | succ fuel =>
    rw [getConversionF_succ] at h
    unfold convStep at h
    have hdiv : getDivisors B.length = [] := by rw [hB]; rfl
    have hpart : partitionTosses (generateTosses A mf t) B = [] := by
      unfold partitionTosses
      rw [hdiv]
      rfl
    rw [hpart] at h
    simp only [List.foldl_nil, Option.map_some'] at h
    obtain rfl := Option.some.inj h
    constructor
    · show jsDiv (((A.length ^ t : ℕ) : ℚ) * 0 + ((0 : ℕ) : ℚ) * (t : ℚ))
        (((A.length ^ t : ℕ) : ℚ) - ((0 : ℕ) : ℚ)) = some 0
      have ha : (0 : ℚ) < ((A.length ^ t : ℕ) : ℚ) := by
        have : 0 < A.length ^ t := Nat.pos_pow_of_pos t hA
        exact_mod_cast this
      unfold jsDiv
      rw [if_neg (by simp only [Nat.cast_zero, sub_zero]; exact ne_of_gt ha)]
      congr 1
      simp only [Nat.cast_zero, mul_zero, zero_mul, add_zero, sub_zero, zero_div]
    · rfl

theorem conv_target_one (fuel : Nat) (A B : List String) (mf : Bool) (t : Nat)
    (r : ConversionRule) (hA : 1 ≤ A.length) (hB : B.length = 1)
    (h : getConversionF fuel A B mf t = some r) :
    r.expectation = none := by
  cases fuel with
  | zero => exact absurd (getConversionF_zero A B mf t ▸ h) (by simp)
  | succ fuel =>
    rw [getConversionF_succ] at h
    obtain ⟨st', hfold, rfl⟩ := convStep_some _ A B mf t r h
    obtain ⟨new, hent, hrel⟩ := entryFold_entries _ A B mf t _ _ _ _ hfold
    obtain ⟨new', hent', hz, hsB⟩ := entryFold_spec _ A B mf t _ _ _ _ hfold
    have hnew : st'.entries = new := by simpa using hent
    have hnew' : new' = new := by simpa using hent'.symm.trans hent
    rw [hnew'] at hz hsB
    have hwfT : WfRanges (generateTosses A mf t) := generateTosses_wf A mf t hA
    have hdiv : getDivisors B.length = [1] := by rw [hB]; rfl
    have hpart : partitionTosses (generateTosses A mf t) B =
        (divisorPass B (generateTosses A mf t, []) 1).2 := by
      unfold partitionTosses
      rw [hdiv]
      rfl
    obtain ⟨added, hadd, hae, _⟩ := divisorPass_added B (generateTosses A mf t, []) 1 hwfT
    have hparts2 : partitionTosses (generateTosses A mf t) B = added := by
      rw [hpart, hadd]
      simp
    have hfullp : ∀ p ∈ partitionTosses (generateTosses A mf t) B, p.2 = B := by
      intro p hp
      rw [hparts2] at hp
      obtain ⟨⟨i, hi, hslice⟩, _, _⟩ := hae p hp
      have hi0 : i = 0 := by omega
      subst hi0
      rw [hslice, Nat.zero_mul, List.drop_zero, Nat.div_one]
      exact List.take_length B
    obtain ⟨hcons, hwfE⟩ := partitionTosses_conservation (generateTosses A mf t) B hwfT
      (by omega)
    have htotal : (classIds (generateTosses A mf t)).length = A.length ^ t :=
      (classIds_generateTosses_perm A mf t hA).length_eq.trans (List.length_range _)
    have hcount := partitionTosses_full_count (generateTosses A mf t) B (by omega)
    have hallfull : ∀ p ∈ partitionTosses (generateTosses A mf t) B,
        (fun e => decide (e.2.length = B.length)) p = true := by
      intro p hp
      show decide (p.2.length = B.length) = true
      rw [hfullp p hp]
      simp
    have hlenle : (partitionTosses (generateTosses A mf t) B).length ≤ 1 := by
      rw [← List.countP_eq_length.mpr hallfull]
      exact hcount
    have hlensum : ((partitionTosses (generateTosses A mf t) B).map
        (fun e => e.1.ids.length)).sum = A.length ^ t := by
      rw [partition_total (generateTosses A mf t) B hwfT (by omega), htotal]
    have hposa : 0 < A.length ^ t := Nat.pos_pow_of_pos t hA
    cases hpl : partitionTosses (generateTosses A mf t) B with
    | nil =>
      rw [hpl] at hlensum
      simp only [List.map_nil, List.sum_nil] at hlensum
      omega
    | cons p ps =>
      have hmp : p ∈ partitionTosses (generateTosses A mf t) B := by
        rw [hpl]
        exact List.mem_cons_self _ _
      have hps : ps = [] := by
        rw [hpl] at hlenle
        simp only [List.length_cons] at hlenle
        exact List.length_eq_zero.mp (by omega)
      subst hps
      rw [hpl] at hlensum
      simp only [List.map_cons, List.map_nil, List.sum_cons, List.sum_nil, add_zero]
        at hlensum
      rw [hpl] at hrel
      have hlen2 : new.length = 1 := by
        have := List.Forall₂.length_eq hrel
        simpa using this.symm
      obtain ⟨e, rfl⟩ : ∃ e, new = [e] := by
        cases new with
        | nil => simp at hlen2
        | cons e rest =>
          cases rest with
          | nil => exact ⟨e, rfl⟩
          | cons _ _ => simp at hlen2
      have hre : EntryRel (getBestConversionF fuel) A B mf p e := by
        cases hrel with
        | cons h1 h2 => exact h1
      obtain ⟨he1, hcase⟩ := hre
      have hplen : p.2.length = B.length := by rw [hfullp p hmp]
      obtain ⟨etr, ebr⟩ := e
      have hrep : ebr = Branch.selfRepeat := by
        rcases hcase with ⟨_, h2⟩ | ⟨hne, _, _⟩ | ⟨hne, _, _⟩
        · exact h2
        · exact absurd hplen hne
        · exact absurd hplen hne
      subst hrep
      have hzv : st'.z = some 0 := by
        rw [hz]
        show List.foldl (branchZ ((A.length ^ t : ℕ) : ℚ) t) (some 0)
          [(etr, Branch.selfRepeat)] = some 0
        rw [List.foldl_cons, List.foldl_nil]
        rfl
      have hsizeB : st'.sizeB = A.length ^ t := by
        rw [hsB, List.foldl_cons, List.foldl_nil]
        show etr.faces.length = A.length ^ t
        have he1' : etr = p.1 := he1
        rw [he1', ← hwfE p hmp, hlensum]
      show (match st'.z with
        | none => none
        | some z => jsDiv (((A.length ^ t : ℕ) : ℚ) * z + (st'.sizeB : ℚ) * (t : ℚ))
            (((A.length ^ t : ℕ) : ℚ) - (st'.sizeB : ℚ))) = none
      rw [hzv, hsizeB]
      show jsDiv (((A.length ^ t : ℕ) : ℚ) * 0 + ((A.length ^ t : ℕ) : ℚ) * (t : ℚ))
        (((A.length ^ t : ℕ) : ℚ) - ((A.length ^ t : ℕ) : ℚ)) = none
      unfold jsDiv
      rw [if_pos (sub_self _)]

theorem conv_finite_general (fuel : Nat) (A B : List String) (mf : Bool) (t : Nat)
    (hA : 2 ≤ A.length) (hB : 2 ≤ B.length)
    (hclass : ∃ tr ∈ generateTosses A mf t, B.length ≤ tr.ids.length)
    (c : ConversionRule) (h : getConversionF fuel A B mf t = some c) :
    ∃ q, c.expectation = some q := by
  have hn : 1 ≤ A.length := by omega
  have hb1 : 1 ≤ B.length := by omega
  cases fuel with
  | zero => exact absurd (getConversionF_zero A B mf t ▸ h) (by simp)
  | succ fuel =>
  rw [getConversionF_succ] at h
  obtain ⟨st', hfold, rfl⟩ := convStep_some _ A B mf t c h
  obtain ⟨new, hent, hrel⟩ := entryFold_entries _ A B mf t _ _ _ _ hfold
  obtain ⟨new', hent', hz, hsB⟩ := entryFold_spec _ A B mf t _ _ _ _ hfold
  have hnew : st'.entries = new := by simpa using hent
  have hnew' : new' = new := by simpa using hent'.symm.trans hent
  rw [hnew'] at hz hsB
  set a := A.length ^ t with ha
  have hwfT : WfRanges (generateTosses A mf t) := generateTosses_wf A mf t hn
  obtain ⟨hcons, hwfE⟩ := partitionTosses_conservation (generateTosses A mf t) B hwfT hb1
  have htotal : (classIds (generateTosses A mf t)).length = a :=
    (classIds_generateTosses_perm A mf t hn).length_eq.trans (List.length_range _)
  obtain ⟨trW, htrW, htrWsize⟩ := hclass
  have htrWwf : trW.ids.length = trW.faces.length := hwfT trW htrW
  have hterm1 : B.length ≤ B.length * (trW.faces.length / B.length) := by
    have h1 : 1 ≤ trW.faces.length / B.length :=
      (Nat.one_le_div_iff (by omega)).mpr (by omega)
    calc B.length = B.length * 1 := by omega
      _ ≤ B.length * (trW.faces.length / B.length) := Nat.mul_le_mul_left _ h1
  have hallocge : B.length ≤ ((generateTosses A mf t).map
      (fun tr => B.length * (tr.faces.length / B.length))).sum := by
    refine le_trans hterm1 ?_
    exact List.single_le_sum (fun x _ => Nat.zero_le x) _
      (List.mem_map_of_mem (fun tr => B.length * (tr.faces.length / B.length)) htrW)
  have hfull := partition_full_sum_bound (generateTosses A mf t) B hwfT hB
  rw [htotal] at hfull
  have hsizeB : sizeBOfEntries new < a := by
    rcases sizeBOf_cases new 0 with h0 | ⟨e, he, hrep, heq⟩
    · unfold sizeBOfEntries
      rw [h0]
      have : 0 < A.length ^ t := Nat.pos_pow_of_pos t hn
      omega
    · obtain ⟨p, hp, hprel⟩ := forall2_mem_right hrel e he
      obtain ⟨he1, hcase⟩ := hprel
      have hplen : p.2.length = B.length := by
        rcases hcase with ⟨h1, _⟩ | ⟨_, _, h2⟩ | ⟨_, _, sub, _, h3⟩
        · exact h1
        · rw [hrep] at h2; exact absurd h2.symm (by simp)
        · rw [hrep] at h3; exact absurd h3.symm (by simp)
      have hpwf : p.1.ids.length = p.1.faces.length := hwfE p hp
      have hpmem : p ∈ (partitionTosses (generateTosses A mf t) B).filter
          (fun e => decide (e.2.length = B.length)) :=
        List.mem_filter.mpr ⟨hp, by simp [hplen]⟩
      have hple : p.1.ids.length ≤
          entrySizeSum (partitionTosses (generateTosses A mf t) B)
            (fun e => decide (e.2.length = B.length)) := by
        unfold entrySizeSum
        exact List.single_le_sum (fun x _ => Nat.zero_le x) _
          (List.mem_map_of_mem (fun e => e.1.ids.length) hpmem)
      unfold sizeBOfEntries
      rw [heq, he1, ← hpwf]
      omega
  have hfin : ∀ e ∈ new, ∀ sub, e.2 = Branch.reduce sub → ∃ q, sub.expectation = some q := by
    intro e he sub hsub
    obtain ⟨p, _, hprel⟩ := forall2_mem_right hrel e he
    obtain ⟨_, hcase⟩ := hprel
    rcases hcase with ⟨_, h1⟩ | ⟨_, _, h2⟩ | ⟨_, _, sub', hbf, h3⟩
    · rw [hsub] at h1; exact absurd h1.symm (by simp)
    · rw [hsub] at h2; exact absurd h2 (by simp)
    · rw [hsub] at h3
      have hss : sub = sub' := by injection h3
      rw [hss]
      exact getBestConversionF_finite fuel A p.2 mf sub' hbf
  obtain ⟨z', hz'⟩ := zfold_some ((a : ℕ) : ℚ) t new hfin 0
  have hzz : st'.z = some z' := by
    rw [hz]
    exact hz'
  show ∃ q, (match st'.z with
    | none => none
    | some z => jsDiv (((a : ℕ) : ℚ) * z + (st'.sizeB : ℚ) * (t : ℚ))
        (((a : ℕ) : ℚ) - (st'.sizeB : ℚ))) = some q
  rw [hzz]
  have hsb : st'.sizeB < a := by
    rw [hsB]
    exact hsizeB
  have hdenom : ((a : ℕ) : ℚ) - (st'.sizeB : ℚ) ≠ 0 := by
    have hlt : (st'.sizeB : ℚ) < ((a : ℕ) : ℚ) := by exact_mod_cast hsb
    intro hc
    rw [sub_eq_zero] at hc
    exact absurd hc.symm (ne_of_lt hlt)
  refine ⟨(((a : ℕ) : ℚ) * z' + (st'.sizeB : ℚ) * (t : ℚ)) /
    (((a : ℕ) : ℚ) - (st'.sizeB : ℚ)), ?_⟩
  show jsDiv (((a : ℕ) : ℚ) * z' + (st'.sizeB : ℚ) * (t : ℚ))
    (((a : ℕ) : ℚ) - (st'.sizeB : ℚ)) = some _
  simp only [jsDiv, if_neg hdenom]

theorem lsbDigits_pow (n : Nat) (hn : 2 ≤ n) :
    ∀ j t, j < t → lsbDigits n t (n ^ j) =
      List.replicate j 0 ++ 1 :: List.replicate (t - 1 - j) 0 := by
  intro j
  induction j with
  | zero =>
    intro t hjt
    cases t with
    | zero => omega
    | succ t' =>
      show (n ^ 0) % n :: lsbDigits n t' ((n ^ 0) / n) = _
      rw [pow_zero, Nat.mod_eq_of_lt (by omega), Nat.div_eq_of_lt (by omega),
        lsbDigits_zero]
      simp
  | succ j ih =>
    intro t hjt
    cases t with
    | zero => omega
    | succ t' =>
      show (n ^ (j + 1)) % n :: lsbDigits n t' ((n ^ (j + 1)) / n) = _
      have hmod : (n ^ (j + 1)) % n = 0 := by
        rw [pow_succ]
        exact Nat.mul_mod_left (n ^ j) n
      have hdiv : (n ^ (j + 1)) / n = n ^ j := by
        rw [pow_succ]
        exact Nat.mul_div_cancel _ (by omega)
      rw [hmod, hdiv, ih t' (by omega)]
      rw [show t' + 1 - 1 - (j + 1) = t' - 1 - j from by omega]
      rw [List.replicate_succ, List.cons_append]

theorem keyOf_pow_eq (A : List String) (hA : 2 ≤ A.length) (t j : Nat) (hj : j < t) :
    keyOf A true t (A.length ^ j) = keyOf A true t 1 := by
  show some (sortStrings (tossFaces A t (A.length ^ j))) =
    some (sortStrings (tossFaces A t 1))
  have hperm : (tossFaces A t (A.length ^ j)).Perm (tossFaces A t 1) := by
    unfold tossFaces
    refine List.Perm.map _ ?_
    unfold natDigits
    refine (List.reverse_perm _).trans (List.Perm.trans ?_ (List.reverse_perm _).symm)
    rw [lsbDigits_pow A.length hA j t hj,
      show (1 : Nat) = A.length ^ 0 from (pow_zero _).symm,
      lsbDigits_pow A.length hA 0 t (by omega)]
    refine List.Perm.trans List.perm_middle ?_
    show List.Perm (1 :: (List.replicate j 0 ++ List.replicate (t - 1 - j) 0))
      (List.replicate 0 0 ++ 1 :: List.replicate (t - 1 - 0) 0)
    rw [← List.replicate_add, show j + (t - 1 - j) = t - 1 from by omega]
    simp
  rw [sortStrings_eq_of_perm hperm]

theorem class_size_ge (A : List String) (hA : 2 ≤ A.length) (u : Bool) (t : Nat)
    (ht : 1 ≤ t) :
    ∃ tr ∈ generateTosses A u t, t ≤ tr.ids.length := by
  have hn : 1 ≤ A.length := by omega
  cases u with
  | false =>
    refine ⟨_, by rw [generateTosses_fair A t hn]; exact List.mem_cons_self _ _, ?_⟩
    show t ≤ (List.range (A.length ^ t)).length
    rw [List.length_range]
    have h2 : t < 2 ^ t := Nat.lt_two_pow t
    have h3 : 2 ^ t ≤ A.length ^ t := Nat.pow_le_pow_left hA t
    omega
  | true =>
    have h1lt : 1 < A.length ^ t := by
      have : A.length ^ 1 ≤ A.length ^ t := Nat.pow_le_pow_right (by omega) ht
      rw [pow_one] at this
      omega
    have hperm := classIds_generateTosses_perm A true t hn
    have h1mem : 1 ∈ classIds (generateTosses A true t) :=
      hperm.mem_iff.mpr (List.mem_range.mpr h1lt)
    unfold classIds at h1mem
    rw [List.mem_flatten] at h1mem
    obtain ⟨l, hl, h1l⟩ := h1mem
    rw [List.mem_map] at hl
    obtain ⟨tr, htr, rfl⟩ := hl
    refine ⟨tr, htr, ?_⟩
    have hmem : ∀ j < t, A.length ^ j ∈ tr.ids := by
      intro j hj
      rw [mem_class_iff A true t hn tr htr 1 h1l (A.length ^ j)]
      constructor
      · exact Nat.pow_lt_pow_right (by omega) hj
      · exact keyOf_pow_eq A hA t j hj
    have hnd : ((List.range t).map (fun j => A.length ^ j)).Nodup :=
      (List.nodup_range t).map (Nat.pow_right_injective hA)
    have hsub : ((List.range t).map (fun j => A.length ^ j)) ⊆ tr.ids := by
      intro x hx
      rw [List.mem_map] at hx
      obtain ⟨j, hj, rfl⟩ := hx
      exact hmem j (List.mem_range.mp hj)
    have hle := (List.subperm_of_subset hnd hsub).length_le
    rw [List.length_map, List.length_range] at hle
    exact hle

theorem best_empty (A : List String) (mf : Bool) (hA : 1 ≤ A.length) :
    getBestConversionF 3 A [] mf =
      some (ConversionRule.mk A [] mf 1 [] (some 0)) := by
  rw [getBestConversionF_succ]
  have hinit : initLoop 3 A.length ([] : List String).length A.length 1 = some 1 := by
    show (if A.length < ([] : List String).length then
      initLoop 2 A.length ([] : List String).length (A.length * A.length) (1 + 1)
      else some 1) = some 1
    rw [if_neg (by simp)]
  rw [hinit, Option.some_bind]
  have hpart : partitionTosses (generateTosses A mf 1) ([] : List String) = [] := rfl
  have ha : (0 : ℚ) < ((A.length ^ 1 : ℕ) : ℚ) := by
    have : 0 < A.length ^ 1 := Nat.pos_pow_of_pos 1 hA
    exact_mod_cast this
  have hconv : getConversionF 1 A [] mf 1 =
      some (ConversionRule.mk A [] mf 1 [] (some 0)) := by
    rw [getConversionF_succ]
    unfold convStep
    rw [hpart]
    simp only [List.foldl_nil, Option.map_some']
    congr 1
    congr 1
    show jsDiv (((A.length ^ 1 : ℕ) : ℚ) * 0 + ((0 : ℕ) : ℚ) * ((1 : ℕ) : ℚ))
      (((A.length ^ 1 : ℕ) : ℚ) - ((0 : ℕ) : ℚ)) = some 0
    unfold jsDiv
    rw [if_neg (by simp only [Nat.cast_zero, sub_zero]; exact ne_of_gt ha)]
    congr 1
    simp only [Nat.cast_zero, mul_zero, zero_mul, add_zero, sub_zero, zero_div]
  rw [bestLoopF_succ_eq, hconv]
  simp only
  have hge : oGeB (((1 : ℕ) : ℚ) + 1)
      (ConversionRule.mk A [] mf 1 [] (some 0)).expectation = true := by
    show oGeB (((1 : ℕ) : ℚ) + 1) (some 0) = true
    simp only [oGeB]
    rw [decide_eq_true_eq]
    norm_num
  rw [if_pos hge]

theorem uniform_fuel (A : List String) (mf : Bool) :
    ∀ l : List (List String),
      (∀ s ∈ l, ∃ fuel r, getBestConversionF fuel A s mf = some r) →
      ∃ F, ∀ s ∈ l, ∃ r, getBestConversionF F A s mf = some r := by
  intro l
  induction l with
  | nil => intro _; exact ⟨0, by simp⟩
  | cons s rest ih =>
    intro hterm
    obtain ⟨Fs, rs, hs⟩ := hterm s (List.mem_cons_self _ _)
    obtain ⟨Fr, hr⟩ := ih (fun x hx => hterm x (List.mem_cons_of_mem _ hx))
    refine ⟨max Fs Fr, ?_⟩
    intro x hx
    rcases List.mem_cons.mp hx with rfl | hx'
    · exact ⟨rs, getBestConversionF_mono_le Fs _ (le_max_left _ _) A x mf rs hs⟩
    · obtain ⟨r, hr'⟩ := hr x hx'
      exact ⟨r, getBestConversionF_mono_le Fr _ (le_max_right _ _) A x mf r hr'⟩

theorem bestLoop_b1_none (A B : List String) (mf : Bool) (hA : 1 ≤ A.length)
    (hB : B.length = 1) :
    ∀ (fuel t : Nat) (best : Option ConversionRule),
      (best = none ∨ ∃ b0, best = some b0 ∧ b0.expectation = none) →
      bestLoopF fuel A B mf t best = none := by
  intro fuel
  induction fuel with
  | zero => intro t best _; rfl
  | succ fuel ih =>
    intro t best hbest
    rw [bestLoopF_succ_eq]
    cases hc : getConversionF fuel A B mf t with
    | none => rfl
    | some conv =>
      simp only
      have hcE : conv.expectation = none := conv_target_one fuel A B mf t conv hA hB hc
      set best' := (match best with
        | none => conv
        | some b => if oLtB conv.expectation b.expectation then conv else b)
        with hbest'
      have hE' : best'.expectation = none := by
        rcases hbest with rfl | ⟨b0, rfl, hb0⟩
        · rw [hbest']
          exact hcE
        · rw [hbest']
          show (if oLtB conv.expectation b0.expectation then conv else b0).expectation =
            none
          rw [if_neg (by rw [hcE, hb0]; simp [oLtB])]
          exact hb0
      have hnb : ¬(oGeB ((t : ℚ) + 1) best'.expectation = true) := by
        rw [hE']
        simp [oGeB]
      rw [if_neg hnb]
      exact ih (t + 1) (some best') (Or.inr ⟨best', rfl, hE'⟩)

theorem loop_break (A B : List String) (mf : Bool) (F0 : Nat)
    (hconv : ∀ f t, F0 ≤ f → ∃ c, getConversionF f A B mf t = some c) :
    ∀ (k t : Nat) (b0 : ConversionRule) (q0 : ℚ),
      b0.expectation = some q0 → q0 ≤ (t : ℚ) + (k : ℚ) →
      ∀ fuel, F0 + k + 1 ≤ fuel →
      ∃ r, bestLoopF fuel A B mf t (some b0) = some r := by
  intro k
  induction k with
  | zero =>
    intro t b0 q0 hq0 hle fuel hfuel
    cases fuel with
    | zero => omega
    | succ f =>
      obtain ⟨c, hc⟩ := hconv f t (by omega)
      rw [bestLoopF_succ_eq, hc]
      simp only
      set best' := (if oLtB c.expectation b0.expectation then c else b0) with hbest'
      obtain ⟨q', hq', hq'le⟩ : ∃ q', best'.expectation = some q' ∧ q' ≤ q0 := by
        cases hlt : oLtB c.expectation b0.expectation with
        | false =>
          refine ⟨q0, ?_, le_refl _⟩
          rw [hbest', if_neg (by rw [hlt]; simp)]
          exact hq0
        | true =>
          cases hcE : c.expectation with
          | none => rw [hcE, hq0] at hlt; simp [oLtB] at hlt
          | some qc =>
            refine ⟨qc, ?_, ?_⟩
            · rw [hbest', if_pos (by rw [hlt])]
              exact hcE
            · rw [hcE, hq0] at hlt
              simp only [oLtB] at hlt
              rw [decide_eq_true_eq] at hlt
              exact le_of_lt hlt
      have hbreak : oGeB ((t : ℚ) + 1) best'.expectation = true := by
        rw [hq']
        simp only [oGeB]
        rw [decide_eq_true_eq]
        have : q0 ≤ (t : ℚ) := by
          simpa using hle
        linarith
      rw [if_pos hbreak]
      exact ⟨best', rfl⟩
  | succ k ih =>
    intro t b0 q0 hq0 hle fuel hfuel
    cases fuel with
    | zero => omega
    | succ f =>
      obtain ⟨c, hc⟩ := hconv f t (by omega)
      rw [bestLoopF_succ_eq, hc]
      simp only
      set best' := (if oLtB c.expectation b0.expectation then c else b0) with hbest'
      obtain ⟨q', hq', hq'le⟩ : ∃ q', best'.expectation = some q' ∧ q' ≤ q0 := by
        cases hlt : oLtB c.expectation b0.expectation with
        | false =>
          refine ⟨q0, ?_, le_refl _⟩
          rw [hbest', if_neg (by rw [hlt]; simp)]
          exact hq0
        | true =>
          cases hcE : c.expectation with
          | none => rw [hcE, hq0] at hlt; simp [oLtB] at hlt
          | some qc =>
            refine ⟨qc, ?_, ?_⟩
            · rw [hbest', if_pos (by rw [hlt])]
              exact hcE
            · rw [hcE, hq0] at hlt
              simp only [oLtB] at hlt
              rw [decide_eq_true_eq] at hlt
              exact le_of_lt hlt
      by_cases hbreak : oGeB ((t : ℚ) + 1) best'.expectation = true
      · rw [if_pos hbreak]
        exact ⟨best', rfl⟩
      · rw [if_neg hbreak]
        refine ih (t + 1) best' q' hq' ?_ f (by omega)
        have : q' ≤ (t : ℚ) + ((k : ℚ) + 1) := by
          refine le_trans hq'le ?_
          push_cast at hle ⊢
          linarith
        push_cast
        linarith

theorem initLoop_mono_le (f f' a b total t r : Nat) (h : f ≤ f')
    (hs : initLoop f a b total t = some r) : initLoop f' a b total t = some r := by
  obtain ⟨k, rfl⟩ := Nat.exists_eq_add_of_le h
  clear h
  induction k with
  | zero => simpa using hs
  | succ k ihk =>
    rw [show f + (k + 1) = (f + k) + 1 from by omega]
    exact initLoop_mono _ _ _ _ _ _ ihk

theorem loop_reach (A B : List String) (mf : Bool) (F1 m : Nat) (c_star : ConversionRule)
    (q_star : ℚ) (t_star : Nat)
    (hconv : ∀ f t, F1 + 1 ≤ f → ∃ c, getConversionF f A B mf t = some c)
    (hcstar : getConversionF (F1 + 1) A B mf t_star = some c_star)
    (hqstar : c_star.expectation = some q_star)
    (hm : q_star ≤ (m : ℚ)) :
    ∀ (d t : Nat), t + d = t_star →
      ∀ (best : Option ConversionRule) (fuel : Nat), F1 + m + d + 3 ≤ fuel →
      ∃ r, bestLoopF fuel A B mf t best = some r := by
  intro d
  induction d with
  | zero =>
    intro t hts best fuel hfuel
    have ht : t = t_star := by omega
    subst ht
    cases fuel with
    | zero => omega
    | succ f =>
      have hc : getConversionF f A B mf t = some c_star :=
        getConversionF_mono_le (F1 + 1) f (by omega) A B mf t c_star hcstar
      rw [bestLoopF_succ_eq, hc]
      have h0t : (0 : ℚ) ≤ (t : ℚ) := Nat.cast_nonneg _
      cases best with
      | none =>
        simp only
        by_cases hbreak : oGeB ((t : ℚ) + 1) c_star.expectation = true
        · rw [if_pos hbreak]
          exact ⟨c_star, rfl⟩
        · rw [if_neg hbreak]
          refine loop_break A B mf (F1 + 1) hconv m (t + 1) c_star q_star hqstar ?_ f
            (by omega)
          push_cast
          linarith
      | some b0 =>
        simp only
        set best' := (if oLtB c_star.expectation b0.expectation then c_star else b0)
          with hbest'
        obtain ⟨q', hq', hq'le⟩ : ∃ q', best'.expectation = some q' ∧ q' ≤ q_star := by
          cases hlt : oLtB c_star.expectation b0.expectation with
          | true =>
            refine ⟨q_star, ?_, le_refl _⟩
            rw [hbest', if_pos (by rw [hlt])]
            exact hqstar
          | false =>
            cases hb0E : b0.expectation with
            | none => rw [hqstar, hb0E] at hlt; simp [oLtB] at hlt
            | some qb =>
              refine ⟨qb, ?_, ?_⟩
              · rw [hbest', if_neg (by rw [hlt]; simp)]
                exact hb0E
              · rw [hqstar, hb0E] at hlt
                simp only [oLtB] at hlt
                rw [decide_eq_false_iff_not] at hlt
                exact le_of_not_lt hlt
        by_cases hbreak : oGeB ((t : ℚ) + 1) best'.expectation = true
        · rw [if_pos hbreak]
          exact ⟨best', rfl⟩
        · rw [if_neg hbreak]
          refine loop_break A B mf (F1 + 1) hconv m (t + 1) best' q' hq' ?_ f (by omega)
          push_cast
          linarith
  | succ d ih =>
    intro t hts best fuel hfuel
    cases fuel with
    | zero => omega
    | succ f =>
      obtain ⟨c, hc⟩ := hconv f t (by omega)
      rw [bestLoopF_succ_eq, hc]
      simp only
      set best' := (match best with
        | none => c
        | some b => if oLtB c.expectation b.expectation then c else b) with hbest'
      by_cases hbreak : oGeB ((t : ℚ) + 1) best'.expectation = true
      · rw [if_pos hbreak]
        exact ⟨best', rfl⟩
      · rw [if_neg hbreak]
        exact ih (t + 1) (by omega) (some best') f (by omega)

theorem best_terminates_aux :
    ∀ (bnd : Nat) (A : List String) (mf : Bool), 2 ≤ A.length →
      ∀ B : List String, B.length ≤ bnd → 2 ≤ B.length →
      ∃ fuel r, getBestConversionF fuel A B mf = some r := by
  intro bnd
  induction bnd with
  | zero => intro A mf hA B hle hB; omega
  | succ bnd ih =>
    intro A mf hA B hle hB
    have hterm : ∀ s ∈ (allSlices B).filter
        (fun s => !(decide (s.length = 1)) && decide (s.length < B.length)),
        ∃ fuel r, getBestConversionF fuel A s mf = some r := by
      intro s hs
      rw [List.mem_filter] at hs
      obtain ⟨hmem, hcond⟩ := hs
      rw [Bool.and_eq_true, Bool.not_eq_true', decide_eq_false_iff_not,
        decide_eq_true_eq] at hcond
      obtain ⟨hne1, hlt⟩ := hcond
      by_cases h0 : s.length = 0
      · have hs0 : s = [] := List.length_eq_zero.mp h0
        subst hs0
        exact ⟨3, _, best_empty A mf (by omega)⟩
      · exact ih A mf hA s (by omega) (by omega)
    obtain ⟨F1, hF1⟩ := uniform_fuel A mf _ hterm
    have hconv : ∀ f t, F1 + 1 ≤ f → ∃ c, getConversionF f A B mf t = some c := by
      intro f t hf
      obtain ⟨f', rfl⟩ : ∃ f', f = f' + 1 := ⟨f - 1, by omega⟩
      have hok : ∀ p ∈ partitionTosses (generateTosses A mf t) B,
          p.2.length ≠ B.length → p.2.length ≠ 1 →
          ∃ sub, getBestConversionF f' A p.2 mf = some sub := by
        intro p hp hneB hne1
        obtain ⟨hor, hslice, _, _⟩ := partitionTosses_entries (generateTosses A mf t) B
          (generateTosses_wf A mf t (by omega)) (by omega) p hp
        have hplt : p.2.length < B.length := by
          rcases hor with h | h
          · exact h
          · rw [h] at hneB
            exact absurd rfl hneB
        have hpfil : p.2 ∈ (allSlices B).filter
            (fun s => !(decide (s.length = 1)) && decide (s.length < B.length)) := by
          rw [List.mem_filter]
          refine ⟨hslice, ?_⟩
          rw [Bool.and_eq_true, Bool.not_eq_true', decide_eq_false_iff_not,
            decide_eq_true_eq]
          exact ⟨hne1, hplt⟩
        obtain ⟨r, hr⟩ := hF1 p.2 hpfil
        exact ⟨r, getBestConversionF_mono_le F1 f' (by omega) A p.2 mf r hr⟩
      obtain ⟨st', hfold⟩ := entryFold_succeeds (getBestConversionF f') A B mf t
        ((A.length ^ t : ℕ) : ℚ) (partitionTosses (generateTosses A mf t) B) hok
        ⟨[], some 0, 0⟩
      refine ⟨ConversionRule.mk A B mf t st'.entries (match st'.z with
        | none => none
        | some z => jsDiv (((A.length ^ t : ℕ) : ℚ) * z + (st'.sizeB : ℚ) * (t : ℚ))
            (((A.length ^ t : ℕ) : ℚ) - (st'.sizeB : ℚ))), ?_⟩
      rw [getConversionF_succ]
      unfold convStep
      rw [hfold, Option.map_some']
    obtain ⟨fI, t0, hinitI⟩ := initLoop_term A.length B.length hA B.length A.length 1
      (by omega) (by omega)
    have ht0 : 1 ≤ t0 := (initLoop_spec (fI + 1) A.length B.length A.length 1 t0 hinitI).1
    obtain ⟨t_star, hts1, hts2⟩ : ∃ t_star, t0 ≤ t_star ∧ B.length ≤ t_star :=
      ⟨max t0 B.length, le_max_left _ _, le_max_right _ _⟩
    obtain ⟨c_star, hcstar⟩ := hconv (F1 + 1) t_star (le_refl _)
    obtain ⟨q_star, hqstar⟩ : ∃ q_star, c_star.expectation = some q_star := by
      refine conv_finite_general (F1 + 1) A B mf t_star hA hB ?_ c_star hcstar
      obtain ⟨tr, htr, hsz⟩ := class_size_ge A hA mf t_star (by omega)
      exact ⟨tr, htr, by omega⟩
    obtain ⟨m, hm⟩ := exists_nat_ge q_star
    obtain ⟨F, hFa, hFb⟩ : ∃ F, F1 + m + (t_star - t0) + 3 ≤ F ∧ fI + 1 ≤ F :=
      ⟨max (F1 + m + (t_star - t0) + 3) (fI + 1), le_max_left _ _, le_max_right _ _⟩
    refine ⟨F + 1, ?_⟩
    rw [getBestConversionF_succ]
    have hinitF : initLoop (F + 1) A.length B.length A.length 1 = some t0 :=
      initLoop_mono_le (fI + 1) (F + 1) _ _ _ _ _ (by omega) hinitI
    rw [hinitF, Option.some_bind]
    exact loop_reach A B mf F1 m c_star q_star t_star hconv hcstar hqstar hm
      (t_star - t0) t0 (by omega) none F (by omega)

theorem best_fields (fuel : Nat) (A B : List String) (mf : Bool) (r : ConversionRule)
    (h : getBestConversionF fuel A B mf = some r) :
    r.dieA = A ∧ r.dieB = B ∧ r.makeFair = mf := by
  cases fuel with
  | zero => exact absurd (getBestConversionF_zero A B mf ▸ h) (by simp)
  | succ fuel =>
    rw [getBestConversionF_succ, Option.bind_eq_some] at h
    obtain ⟨t0, _, hloop⟩ := h
    rcases bestLoopF_origin fuel A B mf t0 none r hloop with ⟨b0, hb0, _⟩ | ⟨t', f', _, _, hc⟩
    · exact absurd hb0 (by simp)
    · obtain ⟨h1, h2, h3, _⟩ := getConversionF_fields f' A B mf t' r hc
      exact ⟨h1, h2, h3⟩

theorem best_b1_diverges :
    ∀ fuel, getBestConversionF fuel ["H", "T"] ["1"] false = none := by
  intro fuel
  cases fuel with
  | zero => rfl
  | succ fuel =>
    rw [getBestConversionF_succ]
    have hinit : initLoop (fuel + 1) (["H", "T"] : List String).length
        (["1"] : List String).length (["H", "T"] : List String).length 1 = some 1 := by
      show (if (["H", "T"] : List String).length < (["1"] : List String).length then
        initLoop fuel (["H", "T"] : List String).length (["1"] : List String).length
          ((["H", "T"] : List String).length * (["H", "T"] : List String).length) (1 + 1)
        else some 1) = some 1
      rw [if_neg (by decide)]
    rw [hinit, Option.some_bind]
    exact bestLoop_b1_none ["H", "T"] ["1"] false (by decide) rfl fuel 1 none (Or.inl rfl)

/-- C4 counterexample: for the valid input pair of the claim — a 2-face
source die and a 1-face target die — the search never returns: every toss
lands in the repeat branch, the expectation is the division-by-zero value at
every round, and the `throws + 1 >= bestExpectation` exit test never
succeeds, at any fuel. -/
theorem claim_C4_counterexample :
    ¬ ∃ fuel r, getBestConversionF fuel ["H", "T"] ["1"] false = some r := by
  rintro ⟨fuel, r, h⟩
  rw [best_b1_diverges fuel] at h
  exact absurd h (by simp)

/-- C4 (amended): with a source die of at least 2 faces and a target die of
at least 2 faces (a 1-face target makes the search loop forever), the search
terminates — some fuel level returns a rule — and every recursive reduction
strictly shrinks the target die's face count. -/
theorem claim_C4_termination (dieA dieB : List String) (makeFair : Bool)
    (hA : 2 ≤ dieA.length) (hB : 2 ≤ dieB.length) :
    (∃ fuel r, getBestConversionF fuel dieA dieB makeFair = some r) ∧
    (∀ fuel t r, getConversionF fuel dieA dieB makeFair t = some r →
      ∀ tr sub, (tr, Branch.reduce sub) ∈ r.conversions →
        sub.dieB.length < dieB.length) := by
  constructor
  · exact best_terminates_aux dieB.length dieA makeFair hA dieB (le_refl _) hB
  · intro fuel t r h tr sub hmem
    cases fuel with
    | zero => exact absurd (getConversionF_zero dieA dieB makeFair t ▸ h) (by simp)
    | succ fuel =>
      rw [getConversionF_succ] at h
      obtain ⟨st', hfold, rfl⟩ := convStep_some _ dieA dieB makeFair t r h
      obtain ⟨new, hent, hrel⟩ := entryFold_entries _ dieA dieB makeFair t _ _ _ _ hfold
      have hnew : st'.entries = new := by simpa using hent
      rw [show (ConversionRule.mk dieA dieB makeFair t st'.entries _).conversions =
        st'.entries from rfl, hnew] at hmem
      obtain ⟨p, hp, hprel⟩ := forall2_mem_right hrel (tr, Branch.reduce sub) hmem
      obtain ⟨_, hcase⟩ := hprel
      rcases hcase with ⟨_, h1⟩ | ⟨_, _, h2⟩ | ⟨hneB, _, sub', hbf, h3⟩
      · exact absurd h1 (by simp)
      · exact absurd h2 (by simp)
      · have hss : sub = sub' := by injection h3
        subst hss
        have hsubB : sub.dieB = p.2 := (best_fields fuel dieA p.2 makeFair sub hbf).2.1
        obtain ⟨hor, _, _, _⟩ := partitionTosses_entries (generateTosses dieA makeFair t)
          dieB (generateTosses_wf dieA makeFair t (by omega)) (by omega) p hp
        rw [hsubB]
        rcases hor with hlt | hfull
        · exact hlt
        · rw [hfull] at hneB
          exact absurd rfl hneB

/-- Witness for the amended C4 at two 2-face dice. -/
theorem claim_C4_termination_witness :
    2 ≤ (["H", "T"] : List String).length ∧ 2 ≤ (["1", "2"] : List String).length ∧
    ((∃ fuel r, getBestConversionF fuel ["H", "T"] ["1", "2"] false = some r) ∧
     (∀ fuel t r, getConversionF fuel ["H", "T"] ["1", "2"] false t = some r →
       ∀ tr sub, (tr, Branch.reduce sub) ∈ r.conversions →
         sub.dieB.length < (["1", "2"] : List String).length)) :=
  ⟨by decide, by decide,
    claim_C4_termination ["H", "T"] ["1", "2"] false (by decide) (by decide)⟩

theorem forall2_countP {R : TossRange × List String →
    TossRange × Branch ConversionRule → Prop}
    (p : TossRange × List String → Bool) (q : TossRange × Branch ConversionRule → Bool)
    (hpq : ∀ x y, R x y → p x = q y) :
    ∀ {l₁ : List (TossRange × List String)}
      {l₂ : List (TossRange × Branch ConversionRule)},
      List.Forall₂ R l₁ l₂ → l₁.countP p = l₂.countP q := by
  intro l₁ l₂ h
  induction h with
  | nil => rfl
  | cons hr _ ih => rw [List.countP_cons, List.countP_cons, ih, hpq _ _ hr]

theorem fold_no_repeat_const :
    ∀ es : List (TossRange × Branch ConversionRule),
      (∀ e ∈ es, isRepeatB e.2 = false) → ∀ s : ℕ,
      es.foldl (fun s e => match e.2 with
        | Branch.selfRepeat => e.1.faces.length
        | _ => s) s = s := by
  intro es
  induction es with
  | nil => intro _ s; rfl
  | cons e rest ih =>
    intro hall s
    rw [List.foldl_cons]
    obtain ⟨tr, br⟩ := e
    cases br with
    | terminal lbl => exact ih (fun x hx => hall x (List.mem_cons_of_mem _ hx)) s
    | reduce sub => exact ih (fun x hx => hall x (List.mem_cons_of_mem _ hx)) s
    | selfRepeat =>
      exact absurd (hall (tr, Branch.selfRepeat) (List.mem_cons_self _ _))
        (by simp [isRepeatB])

theorem sizeB_eq_repeat_sum :
    ∀ es : List (TossRange × Branch ConversionRule),
      es.countP (fun e => isRepeatB e.2) ≤ 1 →
      sizeBOfEntries es = ((es.filter (fun e => isRepeatB e.2)).map
        (fun e => e.1.faces.length)).sum := by
  intro es
  induction es with
  | nil => intro _; rfl
  | cons e rest ih =>
    intro hle
    obtain ⟨tr, br⟩ := e
    cases br with
    | selfRepeat =>
      have hc : rest.countP (fun e => isRepeatB e.2) = 0 := by
        rw [List.countP_cons, if_pos (show (fun (e : TossRange × Branch ConversionRule) =>
          isRepeatB e.2) (tr, Branch.selfRepeat) = true from rfl)] at hle
        omega
      have hrest : ∀ x ∈ rest, isRepeatB x.2 = false := by
        intro x hx
        have := List.countP_eq_zero.mp hc x hx
        simpa using this
      unfold sizeBOfEntries
      rw [List.foldl_cons]
      rw [List.filter_cons_of_pos rfl]
      have hfil : List.filter (fun e => isRepeatB e.2) rest = [] := by
        rw [List.filter_eq_nil_iff]
        intro x hx
        simp [hrest x hx]
      rw [hfil, List.map_cons, List.map_nil, List.sum_cons, List.sum_nil, Nat.add_zero]
      exact fold_no_repeat_const rest hrest tr.faces.length
    | terminal lbl =>
      have hle' : rest.countP (fun e => isRepeatB e.2) ≤ 1 := by
        rw [List.countP_cons] at hle
        omega
      rw [List.filter_cons_of_neg (fun hx => Bool.noConfusion hx)]
      unfold sizeBOfEntries at ih ⊢
      rw [List.foldl_cons]
      exact ih hle'
    | reduce sub =>
      have hle' : rest.countP (fun e => isRepeatB e.2) ≤ 1 := by
        rw [List.countP_cons] at hle
        omega
      rw [List.filter_cons_of_neg (fun hx => Bool.noConfusion hx)]
      unfold sizeBOfEntries at ih ⊢
      rw [List.foldl_cons]
      exact ih hle'

theorem sum_filter_split (p : TossRange × Branch ConversionRule → Bool) :
    ∀ es : List (TossRange × Branch ConversionRule),
      ((es.filter p).map (fun e => e.1.faces.length)).sum +
        ((es.filter (fun e => !(p e))).map (fun e => e.1.faces.length)).sum =
      (es.map (fun e => e.1.faces.length)).sum := by
  intro es
  induction es with
  | nil => rfl
  | cons e rest ih =>
    by_cases hp : p e = true
    · rw [List.filter_cons_of_pos hp, List.filter_cons_of_neg (by simp [hp]),
        List.map_cons, List.sum_cons, List.map_cons, List.sum_cons]
      omega
    · have hp' : p e = false := by
        cases hpe : p e with
        | false => rfl
        | true => exact absurd hpe hp
      rw [List.filter_cons_of_neg (by simp [hp']),
        List.filter_cons_of_pos (by simp [hp']),
        List.map_cons, List.sum_cons, List.map_cons, List.sum_cons]
      omega

theorem cast_sum_map (l : List (TossRange × Branch ConversionRule))
    (f : TossRange × Branch ConversionRule → ℕ) :
    (((l.map f).sum : ℕ) : ℚ) = (l.map (fun e => ((f e : ℕ) : ℚ))).sum := by
  induction l with
  | nil => rfl
  | cons e rest ih =>
    rw [List.map_cons, List.sum_cons, List.map_cons, List.sum_cons, Nat.cast_add, ih]

theorem stored_total_size (bestF : List String → List String → Bool → Option ConversionRule)
    (A B : List String) (mf : Bool) (t : Nat) (hA : 1 ≤ A.length) (hB : 1 ≤ B.length)
    (es : List (TossRange × Branch ConversionRule))
    (hforall : List.Forall₂ (EntryRel bestF A B mf)
      (partitionTosses (generateTosses A mf t) B) es) :
    (es.map (fun e => (e.1.faces.length : ℚ))).sum = ((A.length ^ t : ℕ) : ℚ) := by
  rw [forall2_cast_sum (fun p e hrel => hrel.1) hforall]
  have hwfT := generateTosses_wf A mf t hA
  have hwfe := (partitionTosses_conservation (generateTosses A mf t) B hwfT hB).2
  have hmapeq : (partitionTosses (generateTosses A mf t) B).map
      (fun p => p.1.faces.length) =
      (partitionTosses (generateTosses A mf t) B).map (fun p => p.1.ids.length) :=
    List.map_congr_left (fun p hp => (hwfe p hp).symm)
  have hcls : (classIds (generateTosses A mf t)).length = A.length ^ t :=
    (classIds_generateTosses_perm A mf t hA).length_eq.trans (List.length_range _)
  have hnat : ((partitionTosses (generateTosses A mf t) B).map
      (fun p => p.1.faces.length)).sum = A.length ^ t := by
    rw [hmapeq, partition_total (generateTosses A mf t) B hwfT hB, hcls]
  exact_mod_cast hnat

theorem zfold_lower (a : ℚ) (ha : 0 < a) (t : Nat) :
    ∀ es : List (TossRange × Branch ConversionRule),
      (∀ e ∈ es, ∀ sub, e.2 = Branch.reduce sub →
        ∃ sq, sub.expectation = some sq ∧ 0 ≤ sq) →
      ∀ z0 zv : ℚ, es.foldl (branchZ a t) (some z0) = some zv →
      z0 + (((es.filter (fun e => !(isRepeatB e.2))).map
        (fun e => (e.1.faces.length : ℚ))).sum) / a * (t : ℚ) ≤ zv := by
  intro es
  induction es with
  | nil =>
    intro _ z0 zv h
    obtain rfl := Option.some.inj h
    simp
  | cons e rest ih =>
    intro hok z0 zv h
    rw [List.foldl_cons] at h
    obtain ⟨tr, br⟩ := e
    cases br with
    | selfRepeat =>
      rw [show branchZ a t (some z0) (tr, Branch.selfRepeat) = some z0 from rfl] at h
      have hres := ih (fun x hx sub hs => hok x (List.mem_cons_of_mem _ hx) sub hs) z0 zv h
      rw [List.filter_cons_of_neg (fun hx => Bool.noConfusion hx)]
      exact hres
    | terminal lbl =>
      rw [show branchZ a t (some z0) (tr, Branch.terminal lbl) =
        some (z0 + (tr.faces.length : ℚ) / a * (t : ℚ)) from rfl] at h
      have hres := ih (fun x hx sub hs => hok x (List.mem_cons_of_mem _ hx) sub hs) _ zv h
      rw [List.filter_cons_of_pos rfl, List.map_cons, List.sum_cons]
      have hring : z0 + ((tr.faces.length : ℚ) +
          ((List.filter (fun e => !(isRepeatB e.2)) rest).map
            (fun e => (e.1.faces.length : ℚ))).sum) / a * (t : ℚ) =
          (z0 + (tr.faces.length : ℚ) / a * (t : ℚ)) +
          (((List.filter (fun e => !(isRepeatB e.2)) rest).map
            (fun e => (e.1.faces.length : ℚ))).sum) / a * (t : ℚ) := by
        ring
      rw [hring]
      exact hres
    | reduce sub =>
      obtain ⟨sq, hsq, hsq0⟩ := hok (tr, Branch.reduce sub) (List.mem_cons_self _ _) sub rfl
      have hstep : branchZ a t (some z0) (tr, Branch.reduce sub) =
          some (z0 + (tr.faces.length : ℚ) / a * ((t : ℚ) + sq)) := by
        show oAdd (some z0) (oScale ((tr.faces.length : ℚ) / a)
          (oAdd (some (t : ℚ)) sub.expectation)) = _
        rw [hsq]
        rfl
      rw [hstep] at h
      have hres := ih (fun x hx sub' hs => hok x (List.mem_cons_of_mem _ hx) sub' hs) _ zv h
      rw [List.filter_cons_of_pos rfl, List.map_cons, List.sum_cons]
      have hc : (0 : ℚ) ≤ (tr.faces.length : ℚ) / a :=
        div_nonneg (Nat.cast_nonneg _) ha.le
      have hkey : (tr.faces.length : ℚ) / a * (t : ℚ) ≤
          (tr.faces.length : ℚ) / a * ((t : ℚ) + sq) :=
        mul_le_mul_of_nonneg_left (by linarith) hc
      have hring : z0 + ((tr.faces.length : ℚ) +
          ((List.filter (fun e => !(isRepeatB e.2)) rest).map
            (fun e => (e.1.faces.length : ℚ))).sum) / a * (t : ℚ) =
          (z0 + (tr.faces.length : ℚ) / a * (t : ℚ)) +
          (((List.filter (fun e => !(isRepeatB e.2)) rest).map
            (fun e => (e.1.faces.length : ℚ))).sum) / a * (t : ℚ) := by
        ring
      rw [hring]
      linarith

theorem conv_ruleInv (fuel : Nat) (A B : List String) (mf : Bool) (t : Nat)
    (r : ConversionRule) (hA : 2 ≤ A.length) (ht : 1 ≤ t)
    (h : getConversionF fuel A B mf t = some r)
    (hfinE : ∃ q0, r.expectation = some q0)
    (hsubs : ∀ tr sub, (tr, Branch.reduce sub) ∈ r.conversions →
      ∃ sq, sub.expectation = some sq ∧ 0 ≤ sq) :
    ∃ q, r.expectation = some q ∧ 0 ≤ q ∧
      ((∃ e ∈ r.conversions, ∀ lbl, e.2 ≠ Branch.terminal lbl) → (t : ℚ) ≤ q) ∧
      (q = 0 ↔ B.length ≤ 1) := by
  obtain ⟨q0, hq0⟩ := hfinE
  by_cases hB0 : B.length = 0
  · obtain ⟨hE, hconvs⟩ := conv_target_zero fuel A B mf t r (by omega) hB0 h
    refine ⟨0, hE, le_refl _, ?_, ?_⟩
    · rintro ⟨e, he, -⟩
      rw [hconvs] at he
      simp at he
    · exact ⟨fun _ => by omega, fun _ => rfl⟩
  by_cases hB1 : B.length = 1
  · rw [conv_target_one fuel A B mf t r (by omega) hB1 h] at hq0
    exact absurd hq0 (by simp)
  have hB : 2 ≤ B.length := by omega
  have h1t : (1 : ℚ) ≤ (t : ℚ) := by exact_mod_cast ht
  suffices hbound : (t : ℚ) ≤ q0 by
    refine ⟨q0, hq0, by linarith, fun _ => hbound, ?_, ?_⟩
    · intro hq0z
      rw [hq0z] at hbound
      linarith
    · intro hle
      omega
  cases fuel with
  | zero => exact absurd (getConversionF_zero A B mf t ▸ h) (by simp)
  | succ fuel =>
    rw [getConversionF_succ] at h
    obtain ⟨st', hfold, rfl⟩ := convStep_some _ A B mf t r h
    obtain ⟨new, hent, hrel⟩ := entryFold_entries _ A B mf t _ _ _ _ hfold
    obtain ⟨new', hent', hz, hsB⟩ := entryFold_spec _ A B mf t _ _ _ _ hfold
    have hnew : st'.entries = new := by simpa using hent
    have hnew' : new' = new := by simpa using hent'.symm.trans hent
    rw [hnew'] at hz hsB
    have ha : (0 : ℚ) < ((A.length ^ t : ℕ) : ℚ) := by
      have : 0 < A.length ^ t := Nat.pos_pow_of_pos t (by omega)
      exact_mod_cast this
    have hcountP := partitionTosses_full_count (generateTosses A mf t) B (by omega)
    have hcount_st : new.countP (fun e => isRepeatB e.2) ≤ 1 := by
      rw [← forall2_countP (fun p => decide (p.2.length = B.length))
        (fun e => isRepeatB e.2) ?_ hrel]
      · exact hcountP
      · intro x y hxy
        obtain ⟨_, hcase⟩ := hxy
        show decide (x.2.length = B.length) = isRepeatB y.2
        rcases hcase with ⟨h1, h2⟩ | ⟨h1, _, h2⟩ | ⟨h1, _, sub, _, h2⟩
        · rw [h2]
          simp [isRepeatB, h1]
        · rw [h2]
          show decide (x.2.length = B.length) = false
          simp [h1]
        · rw [h2]
          show decide (x.2.length = B.length) = false
          simp [h1]
    have hsb_eq : sizeBOfEntries new = ((new.filter (fun e => isRepeatB e.2)).map
        (fun e => e.1.faces.length)).sum := sizeB_eq_repeat_sum new hcount_st
    have hsB2 : st'.sizeB = sizeBOfEntries new := by
      rw [hsB]
      rfl
    have htot := stored_total_size (getBestConversionF fuel) A B mf t (by omega) (by omega)
      new hrel
    have hsplitN := sum_filter_split (fun e => isRepeatB e.2) new
    have hfin' : ∀ e ∈ new, ∀ sub, e.2 = Branch.reduce sub →
        ∃ sq, sub.expectation = some sq ∧ 0 ≤ sq := by
      rintro ⟨tr, br⟩ he sub hsub
      have hbr : br = Branch.reduce sub := hsub
      subst hbr
      refine hsubs tr sub ?_
      show (tr, Branch.reduce sub) ∈ st'.entries
      rw [hnew]
      exact he
    cases hzv : st'.z with
    | none =>
      exfalso
      have hq0' : (match st'.z with
        | none => none
        | some z => jsDiv (((A.length ^ t : ℕ) : ℚ) * z + (st'.sizeB : ℚ) * (t : ℚ))
            (((A.length ^ t : ℕ) : ℚ) - (st'.sizeB : ℚ))) = some q0 := hq0
      rw [hzv] at hq0'
      exact absurd (hq0' : (none : Option ℚ) = some q0) (by simp)
    | some zv =>
      have hq0' : jsDiv (((A.length ^ t : ℕ) : ℚ) * zv + (st'.sizeB : ℚ) * (t : ℚ))
          (((A.length ^ t : ℕ) : ℚ) - (st'.sizeB : ℚ)) = some q0 := by
        have hmatch : (match st'.z with
          | none => none
          | some z => jsDiv (((A.length ^ t : ℕ) : ℚ) * z + (st'.sizeB : ℚ) * (t : ℚ))
              (((A.length ^ t : ℕ) : ℚ) - (st'.sizeB : ℚ))) = some q0 := hq0
        rw [hzv] at hmatch
        exact hmatch
      have hzfold : new.foldl (branchZ ((A.length ^ t : ℕ) : ℚ) t) (some 0) = some zv :=
        (show new.foldl (branchZ ((A.length ^ t : ℕ) : ℚ) t) (some 0) = st'.z
          from hz.symm).trans hzv
      have hlow := zfold_lower ((A.length ^ t : ℕ) : ℚ) ha t new hfin' 0 zv hzfold
      have hdne : ((A.length ^ t : ℕ) : ℚ) - (st'.sizeB : ℚ) ≠ 0 := by
        intro hc
        unfold jsDiv at hq0'
        rw [if_pos hc] at hq0'
        exact absurd hq0' (by simp)
      have hq0v : q0 = (((A.length ^ t : ℕ) : ℚ) * zv + (st'.sizeB : ℚ) * (t : ℚ)) /
          (((A.length ^ t : ℕ) : ℚ) - (st'.sizeB : ℚ)) := by
        unfold jsDiv at hq0'
        rw [if_neg hdne] at hq0'
        exact (Option.some.inj hq0').symm
      have hsrep : ((new.filter (fun e => isRepeatB e.2)).map
          (fun e => (e.1.faces.length : ℚ))).sum = (st'.sizeB : ℚ) := by
        rw [hsB2, hsb_eq]
        exact (cast_sum_map _ _).symm
      have hsplitQ : ((new.filter (fun e => isRepeatB e.2)).map
            (fun e => (e.1.faces.length : ℚ))).sum +
          ((new.filter (fun e => !(isRepeatB e.2))).map
            (fun e => (e.1.faces.length : ℚ))).sum =
          (new.map (fun e => (e.1.faces.length : ℚ))).sum := by
        have hq := congrArg (fun n : ℕ => (n : ℚ)) hsplitN
        simp only [Nat.cast_add] at hq
        rw [cast_sum_map, cast_sum_map, cast_sum_map] at hq
        exact hq
      have hsnr : ((new.filter (fun e => !(isRepeatB e.2))).map
          (fun e => (e.1.faces.length : ℚ))).sum =
          ((A.length ^ t : ℕ) : ℚ) - (st'.sizeB : ℚ) := by
        rw [htot, hsrep] at hsplitQ
        linarith
      have hsB_nonneg : (0 : ℚ) ≤ (st'.sizeB : ℚ) := Nat.cast_nonneg _
      have hsnr_nonneg : (0 : ℚ) ≤ ((A.length ^ t : ℕ) : ℚ) - (st'.sizeB : ℚ) := by
        rw [← hsnr]
        refine List.sum_nonneg ?_
        intro x hx
        obtain ⟨e, _, rfl⟩ := List.mem_map.mp hx
        exact Nat.cast_nonneg _
      have hdpos : (0 : ℚ) < ((A.length ^ t : ℕ) : ℚ) - (st'.sizeB : ℚ) :=
        lt_of_le_of_ne hsnr_nonneg (Ne.symm hdne)
      have ht0 : (0 : ℚ) ≤ (t : ℚ) := Nat.cast_nonneg _
      rw [hsnr] at hlow
      have hmul : (((A.length ^ t : ℕ) : ℚ) - (st'.sizeB : ℚ)) * (t : ℚ) ≤
          ((A.length ^ t : ℕ) : ℚ) * zv := by
        have h2 := mul_le_mul_of_nonneg_left hlow ha.le
        have h3 : ((A.length ^ t : ℕ) : ℚ) *
            (0 + (((A.length ^ t : ℕ) : ℚ) - (st'.sizeB : ℚ)) /
              ((A.length ^ t : ℕ) : ℚ) * (t : ℚ)) =
            (((A.length ^ t : ℕ) : ℚ) - (st'.sizeB : ℚ)) * (t : ℚ) := by
          field_simp
        rw [h3] at h2
        exact h2
      rw [hq0v, le_div_iff₀ hdpos]
      have h4 : (0 : ℚ) ≤ (st'.sizeB : ℚ) * (t : ℚ) := mul_nonneg hsB_nonneg ht0
      calc (t : ℚ) * (((A.length ^ t : ℕ) : ℚ) - (st'.sizeB : ℚ))
          = (((A.length ^ t : ℕ) : ℚ) - (st'.sizeB : ℚ)) * (t : ℚ) := by ring
        _ ≤ ((A.length ^ t : ℕ) : ℚ) * zv := hmul
        _ ≤ ((A.length ^ t : ℕ) : ℚ) * zv + (st'.sizeB : ℚ) * (t : ℚ) := by linarith

theorem tree_inv : ∀ fuel : Nat,
    (∀ (A B : List String) (mf : Bool) (t : Nat) (r : ConversionRule),
      2 ≤ A.length → 1 ≤ t → getConversionF fuel A B mf t = some r →
      (∃ q0, r.expectation = some q0) →
      ∀ s, SubRule s r → RuleInv s) ∧
    (∀ (A B : List String) (mf : Bool) (r : ConversionRule),
      2 ≤ A.length → getBestConversionF fuel A B mf = some r →
      ∀ s, SubRule s r → RuleInv s) := by
  intro fuel
  induction fuel with
  | zero =>
    constructor
    · intro A B mf t r _ _ h
      exact absurd (getConversionF_zero A B mf t ▸ h) (by simp)
    · intro A B mf r _ h
      exact absurd (getBestConversionF_zero A B mf ▸ h) (by simp)
  | succ fuel ih =>
    have hconvP : ∀ (A B : List String) (mf : Bool) (t : Nat) (r : ConversionRule),
        2 ≤ A.length → 1 ≤ t → getConversionF (fuel + 1) A B mf t = some r →
        (∃ q0, r.expectation = some q0) → ∀ s, SubRule s r → RuleInv s := by
      intro A B mf t r hA ht h hfin s hs
      have h' := h
      rw [getConversionF_succ] at h'
      obtain ⟨st', hfold, rfl⟩ := convStep_some _ A B mf t r h'
      obtain ⟨new, hent, hrel⟩ := entryFold_entries _ A B mf t _ _ _ _ hfold
      have hnew : st'.entries = new := by simpa using hent
      have hchild : ∀ tr sub, (tr, Branch.reduce sub) ∈ st'.entries →
          ∃ B', getBestConversionF fuel A B' mf = some sub := by
        intro tr sub hmem
        rw [hnew] at hmem
        obtain ⟨p, _, hprel⟩ := forall2_mem_right hrel (tr, Branch.reduce sub) hmem
        obtain ⟨_, hcase⟩ := hprel
        rcases hcase with ⟨_, h1⟩ | ⟨_, _, h2⟩ | ⟨_, _, sub', hbf, h3⟩
        · exact absurd h1 (by simp)
        · exact absurd h2 (by simp)
        · have hss : sub = sub' := by injection h3
          subst hss
          exact ⟨p.2, hbf⟩
      cases hs with
      | refl =>
        obtain ⟨_, hdB, _, hthrows⟩ := getConversionF_fields (fuel + 1) A B mf t _ h
        unfold RuleInv
        rw [hthrows, hdB]
        refine conv_ruleInv (fuel + 1) A B mf t _ hA ht h hfin ?_
        intro tr sub hmem
        obtain ⟨B', hbf⟩ := hchild tr sub hmem
        obtain ⟨sq, hsq, hsq0, _, _⟩ := ih.2 A B' mf sub hA hbf sub (SubRule.refl sub)
        exact ⟨sq, hsq, hsq0⟩
      | reduce hmem hsub =>
        obtain ⟨B', hbf⟩ := hchild _ _ hmem
        exact ih.2 A B' mf _ hA hbf s hsub
    refine ⟨hconvP, ?_⟩
    intro A B mf r hA h s hs
    obtain ⟨q0, hfin⟩ := getBestConversionF_finite (fuel + 1) A B mf r h
    have h2 := h
    rw [getBestConversionF_succ, Option.bind_eq_some] at h2
    obtain ⟨t0, hinit, hloop⟩ := h2
    have ht0 : 1 ≤ t0 := (initLoop_spec (fuel + 1) A.length B.length A.length 1 t0 hinit).1
    rcases bestLoopF_origin fuel A B mf t0 none r hloop with
      ⟨b0, hb0, _⟩ | ⟨t', f', htt', hf', hc⟩
    · exact absurd hb0 (by simp)
    · have hc' : getConversionF (fuel + 1) A B mf t' = some r :=
        getConversionF_mono_le f' (fuel + 1) (by omega) A B mf t' r hc
      exact hconvP A B mf t' r hA (by omega) hc' ⟨q0, hfin⟩ s hs

/-- C6 counterexample: a tree built from a 2-face source die against a
0-face target die has expectation 0 with a target face count different from
1, refuting "expectation = 0 iff the target die has exactly one face". -/
theorem claim_C6_counterexample :
    getBestConversionF 3 ["H", "T"] ([] : List String) false =
      some (ConversionRule.mk ["H", "T"] [] false 1 [] (some 0)) ∧
    (ConversionRule.mk ["H", "T"] [] false 1 [] (some 0)).expectation = some 0 ∧
    (ConversionRule.mk ["H", "T"] [] false 1 [] (some 0)).dieB.length ≠ 1 :=
  ⟨best_empty ["H", "T"] false (by decide), rfl, by decide⟩

/-- C6 (amended): for every rule in a tree returned by the search from a
source die of at least 2 faces, the expectation is a finite non-negative
number, is at least `throws` whenever the rule has any non-terminal branch,
and is zero exactly when the target die has at most one face (at most: the
0-face target also yields 0, and a 1-face target never yields a tree at
all). -/
theorem claim_C6_invariants (fuel : Nat) (dieA dieB : List String) (makeFair : Bool)
    (root : ConversionRule) (hA : 2 ≤ dieA.length)
    (h : getBestConversionF fuel dieA dieB makeFair = some root) :
    ∀ s, SubRule s root → ∃ q, s.expectation = some q ∧ 0 ≤ q ∧
      ((∃ e ∈ s.conversions, ∀ lbl, e.2 ≠ Branch.terminal lbl) → (s.throws : ℚ) ≤ q) ∧
      (q = 0 ↔ s.dieB.length ≤ 1) :=
  fun s hs => (tree_inv fuel).2 dieA dieB makeFair root hA h s hs

/-- Witness for the amended C6 on the coin-to-d3 tree. -/
theorem claim_C6_invariants_witness :
    (2 ≤ (["H", "T"] : List String).length ∧
      getBestConversionF 3 ["H", "T"] ["1", "2", "3"] false = some rule23) ∧
    (∀ s, SubRule s rule23 → ∃ q, s.expectation = some q ∧ 0 ≤ q ∧
      ((∃ e ∈ s.conversions, ∀ lbl, e.2 ≠ Branch.terminal lbl) → (s.throws : ℚ) ≤ q) ∧
      (q = 0 ↔ s.dieB.length ≤ 1)) :=
  ⟨⟨by decide, eval_best23⟩,
    claim_C6_invariants 3 ["H", "T"] ["1", "2", "3"] false rule23 (by decide) eval_best23⟩
